import Mathlib

/-!
Verification development for the music-industry news pipeline
(`src/utils.py`, `src/parser.py`, `src/fetchers.py`, `main.py`).

Python strings are modelled at byte level: a `PyStr` is a list of bytes
(`Fin 256`), with ASCII text represented one byte per character.  The
`urllib.parse` primitives used by the code (`urlparse`, `urlunparse`,
`parse_qsl`, `urlencode`, percent (un)quoting, CPython 3.11 semantics)
are modelled faithfully on byte strings; the UTF-8 re-decoding step of
`unquote` is the identity in this byte-level view.  Collaborator
boundaries that the code treats as external (HTTP fetching, HTML
metadata extraction) are modelled as oracle parameters.
-/

namespace News

deriving instance DecidableEq for Except

set_option maxRecDepth 20000

/-- Byte string: model of a Python `str` at byte level. -/
abbrev PyStr := List (Fin 256)

/-- Converts an ASCII Lean string literal into a byte string. -/
def pstr (s : String) : PyStr := s.data.map fun c => Fin.ofNat c.toNat

/-- Model of Python ASCII decimal-digit test. -/
def isDigitB (c : Fin 256) : Bool := 48 ≤ c.val && c.val ≤ 57

/-- Model of Python ASCII-letter test (`isascii() and isalpha()` on one char). -/
def isAlphaB (c : Fin 256) : Bool := (65 ≤ c.val && c.val ≤ 90) || (97 ≤ c.val && c.val ≤ 122)

/-- Hexadecimal-digit test, both cases, as accepted by `_hextobyte`. -/
def isHexB (c : Fin 256) : Bool :=
  isDigitB c || (65 ≤ c.val && c.val ≤ 70) || (97 ≤ c.val && c.val ≤ 102)

/-- Model of `urllib.parse.scheme_chars` membership (letters, digits, `+-.`). -/
def isSchemeCharB (c : Fin 256) : Bool :=
  isAlphaB c || isDigitB c || c.val = 43 || c.val = 45 || c.val = 46

/-- Model of `str.lower()` on one byte (ASCII case folding). -/
def lowerChar (c : Fin 256) : Fin 256 :=
  if h : 65 ≤ c.val ∧ c.val ≤ 90 then ⟨c.val + 32, by omega⟩ else c

/-- Model of `str.lower()`. -/
def pyLower (s : PyStr) : PyStr := s.map lowerChar

/-- Characters stripped by Python `str.strip()` in the byte (Latin-1) range:
ASCII whitespace plus NEL (0x85) and NBSP (0xA0). -/
def isStrWS (c : Fin 256) : Bool :=
  c.val = 9 || c.val = 10 || c.val = 11 || c.val = 12 || c.val = 13 ||
  c.val = 32 || c.val = 133 || c.val = 160

/-- Model of Python `str.strip()`. -/
def pyStrip (s : PyStr) : PyStr :=
  ((s.dropWhile isStrWS).reverse.dropWhile isStrWS).reverse

/-- Splits a byte string at the first occurrence of `d` (model of
`str.find` + slicing, or `str.split(d, 1)`); `none` when `d` is absent. -/
def splitFirst (d : Fin 256) : PyStr → Option (PyStr × PyStr)
  | [] => none
  | c :: t =>
    if c = d then some ([], t)
    else (splitFirst d t).map fun p => (c :: p.1, p.2)

/-- Splits a byte string at every occurrence of `d` (model of `str.split(d)`);
the result is always nonempty. -/
def splitAllOn (d : Fin 256) : PyStr → List PyStr
  | [] => [[]]
  | c :: t =>
    match splitAllOn d t with
    | [] => [[]]
    | h :: r => if c = d then [] :: h :: r else (c :: h) :: r

/-- Character that is not a netloc delimiter (`/`, `?` or `#`), as scanned by
`_splitnetloc`. -/
def notNetlocDelim (c : Fin 256) : Bool := !(c.val = 47 || c.val = 63 || c.val = 35)

/-- Numeric value of a decimal-digit string. -/
def natOfDigits (s : PyStr) : Nat := s.foldl (fun a c => a * 10 + (c.val - 48)) 0

/-- Model of `ipaddress.IPv4Address` acceptance of a dotted-quad string:
four octets, each a 1-3 digit decimal with no leading zero, value at most 255. -/
def isIPv4B (h : PyStr) : Bool :=
  let parts := splitAllOn 46 h
  parts.length == 4 && parts.all fun p =>
    !p.isEmpty && p.all isDigitB && p.length ≤ 3 &&
    (p.length == 1 || p.take 1 != [48]) && natOfDigits p ≤ 255

/-- Model of one IPv6 hextet (`_parse_hextet`): 1-4 hex digits. -/
def isHextet (p : PyStr) : Bool := !p.isEmpty && p.length ≤ 4 && p.all isHexB

/-- Model of `ipaddress.IPv6Address` acceptance of the address part (no scope
id), following `_ip_int_from_string`: an embedded trailing IPv4 becomes two
hextets; at most one `::` (a single empty inner part), a leading or trailing
single `:` is only allowed as part of `::`, and with no `::` exactly eight
hextets are required. -/
def ipv6PartsOk (parts : List PyStr) : Bool :=
  if parts.length > 9 then false else
  let n := parts.length
  let inner := (parts.drop 1).dropLast
  let skips := inner.countP (·.isEmpty)
  if skips > 1 then false
  else if skips == 1 then
    let skipIdx := 1 + (inner.takeWhile (fun p => !p.isEmpty)).length
    let headEmpty := (parts.head?.getD (pstr "x")).isEmpty
    let lastEmpty := (parts.getLast?.getD (pstr "x")).isEmpty
    let partsHi := if headEmpty then skipIdx - 1 else skipIdx
    let partsLo := if lastEmpty then n - skipIdx - 2 else n - skipIdx - 1
    (!headEmpty || skipIdx == 1) &&
    (!lastEmpty || skipIdx + 2 == n) &&
    (partsHi + partsLo ≤ 7) &&
    ((parts.take partsHi).all isHextet) &&
    ((parts.drop (n - partsLo)).all isHextet)
  else
    n == 8 && parts.all isHextet

/-- The split, IPv4-tail expansion and part checks of `_ip_int_from_string`. -/
def isIPv6Addr (h : PyStr) : Bool :=
  let parts0 := splitAllOn 58 h
  if parts0.length < 3 then false else
  let expanded : Option (List PyStr) :=
    if (46 : Fin 256) ∈ (parts0.getLast?.getD []) then
      if isIPv4B (parts0.getLast?.getD []) then
        some (parts0.dropLast ++ [pstr "0", pstr "0"])
      else none
    else some parts0
  match expanded with
  | none => false
  | some parts => ipv6PartsOk parts

/-- Model of `IPv6Address.__init__` scope handling: an optional `%scope` suffix
with a nonempty scope id containing no further `%`. -/
def isIPv6WithScope (h : PyStr) : Bool :=
  match splitFirst 37 h with
  | some (addr, scope) => !scope.isEmpty && !scope.contains 37 && isIPv6Addr addr
  | none => isIPv6Addr h

/-- Model of `urllib.parse._check_bracketed_host` (returns `false` where the
original raises): IPvFuture `v<hex>+.<rest>` strings are accepted, otherwise
the content must parse as an IPv6 address (an IPv4 address raises). -/
def checkBracketedHost (h : PyStr) : Bool :=
  match h with
  | c :: t =>
    if c = 118 then
      -- regex \A v [a-fA-F0-9]+ \. .+ \Z
      let hexRun := t.takeWhile isHexB
      let rest := t.dropWhile isHexB
      !hexRun.isEmpty && rest.take 1 == [46] && !(rest.drop 1).isEmpty
    else isIPv6WithScope h
  | [] => isIPv6WithScope []

/-- Result of `urllib.parse.urlsplit`. -/
structure SplitResult where
  scheme : PyStr
  netloc : PyStr
  path : PyStr
  query : PyStr
  fragment : PyStr
deriving DecidableEq, Repr

/-- Model of `urllib.parse.urlsplit` (CPython 3.11): lstrip of C0
controls/space, removal of tab/CR/LF, scheme extraction, netloc extraction
with bracket validation, then fragment and query splits.  `_checknetloc`
never raises on byte strings (its non-ASCII NFKC path concerns characters
outside this byte-level model), so it is a no-op here.  The `ValueError`
raised on invalid bracketed netlocs is modelled by `Except.error`. -/
def pyUrlsplit (url : PyStr) : Except Unit SplitResult := do
  let u1 := url.dropWhile (fun c => c.val ≤ 32)
  let u2 := u1.filter (fun c => !(c.val = 9 || c.val = 13 || c.val = 10))
  let (scheme, u3) :=
    match splitFirst 58 u2 with
    | some (pre, rest) =>
      if !pre.isEmpty && (pre.take 1).all isAlphaB && pre.all isSchemeCharB
      then (pyLower pre, rest) else ([], u2)
    | none => ([], u2)
  let (netloc, u4) ←
    if u3.take 2 = [47, 47] then do
      let nl := (u3.drop 2).takeWhile notNetlocDelim
      let rest := (u3.drop 2).dropWhile notNetlocDelim
      if (nl.contains 91 && !nl.contains 93) || (nl.contains 93 && !nl.contains 91) then
        throw ()
      if nl.contains 91 && nl.contains 93 then
        let bracketed := ((nl.dropWhile (fun c => !(c = 91))).drop 1).takeWhile (fun c => !(c = 93))
        if !checkBracketedHost bracketed then throw ()
      pure (nl, rest)
    else pure (([] : PyStr), u3)
  let (u5, fragment) :=
    match splitFirst 35 u4 with
    | some (a, f) => (a, f)
    | none => (u4, [])
  let (path, query) :=
    match splitFirst 63 u5 with
    | some (a, q) => (a, q)
    | none => (u5, [])
  pure ⟨scheme, netloc, path, query, fragment⟩

/-- Model of `urllib.parse._splitparams`. -/
def pySplitparams (p : PyStr) : PyStr × PyStr :=
  if (47 : Fin 256) ∈ p then
    let lastSeg := (p.reverse.takeWhile (fun c => !(c = 47))).reverse
    let pre := p.take (p.length - lastSeg.length)
    match splitFirst 59 lastSeg with
    | some (a, b) => (pre ++ a, b)
    | none => (p, [])
  else
    match splitFirst 59 p with
    | some (a, b) => (a, b)
    | none => (p, [])

/-- Result of `urllib.parse.urlparse` (adds `params` to `SplitResult`). -/
structure ParseResult where
  scheme : PyStr
  netloc : PyStr
  path : PyStr
  params : PyStr
  query : PyStr
  fragment : PyStr
deriving DecidableEq, Repr

/-- Model of `urllib.parse.urlparse`. -/
def pyUrlparse (url : PyStr) : Except Unit ParseResult := do
  let s ← pyUrlsplit url
  let (p, par) := if (59 : Fin 256) ∈ s.path then pySplitparams s.path else (s.path, [])
  pure ⟨s.scheme, s.netloc, p, par, s.query, s.fragment⟩

/-- Byte value of a two-hex-digit sequence. -/
def hexVal (c : Fin 256) : Nat :=
  if c.val ≤ 57 then c.val - 48
  else if c.val ≤ 70 then c.val - 55
  else c.val - 87

/-- The byte denoted by two hex digits. -/
def hexByte (h1 h2 : Fin 256) : Fin 256 :=
  ⟨(hexVal h1 * 16 + hexVal h2) % 256, Nat.mod_lt _ (by omega)⟩

/-- Model of `urllib.parse.unquote` at byte level (`unquote_to_bytes`;
the UTF-8 re-decode is the identity on this byte model): split on `%`;
a bit starting with two hex digits becomes a byte plus the bit's tail,
otherwise the `%` stays literal. -/
def pyUnquote (s : PyStr) : PyStr :=
  match splitAllOn 37 s with
  | [] => s
  | b0 :: bits =>
    b0 ++ bits.flatMap fun b =>
      match b with
      | h1 :: h2 :: t =>
        if isHexB h1 && isHexB h2 then hexByte h1 h2 :: t else 37 :: b
      | _ => 37 :: b

/-- Model of the `parse_qsl` per-field decoding: `+` to space, then unquote. -/
def pyUnquotePlus (s : PyStr) : PyStr :=
  pyUnquote (s.map fun c => if c.val = 43 then (32 : Fin 256) else c)

/-- Model of `urllib.parse._ALWAYS_SAFE` membership (letters, digits, `-._~`);
`urlencode` quotes with an empty extra safe set. -/
def isSafeB (c : Fin 256) : Bool :=
  isAlphaB c || isDigitB c || c.val = 45 || c.val = 46 || c.val = 95 || c.val = 126

/-- Uppercase hex digit of `n % 16`, as produced by `'%{:02X}'.format`. -/
def hexDigitChar (n : Nat) : Fin 256 :=
  if h : n % 16 < 10 then ⟨48 + n % 16, by omega⟩
  else ⟨55 + n % 16, by have h2 : n % 16 < 16 := Nat.mod_lt n (by omega); omega⟩

/-- Percent-encoding of one byte. -/
def quoteByte (c : Fin 256) : PyStr :=
  [37, hexDigitChar (c.val / 16), hexDigitChar (c.val % 16)]

/-- Model of `urllib.parse.quote_plus` with an empty safe set, as used by
`urlencode`: space becomes `+`, safe bytes stay, everything else `%XX`. -/
def pyQuotePlus (s : PyStr) : PyStr :=
  s.flatMap fun c => if c.val = 32 then [43] else if isSafeB c then [c] else quoteByte c

/-- Model of `urllib.parse.parse_qsl(qs, keep_blank_values=True)`
(CPython 3.11: fields split on `&` only). -/
def parseQsl (qs : PyStr) : List (PyStr × PyStr) :=
  if qs.isEmpty then [] else
  (splitAllOn 38 qs).filterMap fun nv =>
    if nv.isEmpty then none
    else
      let p := match splitFirst 61 nv with
        | some (a, b) => (a, b)
        | none => (nv, [])
      some (pyUnquotePlus p.1, pyUnquotePlus p.2)

/-- Model of `urllib.parse.urlencode` on a pair list (default quoting via
`quote_plus`). -/
def urlencodePairs (l : List (PyStr × PyStr)) : PyStr :=
  List.intercalate [38] (l.map fun p => pyQuotePlus p.1 ++ [61] ++ pyQuotePlus p.2)

/-- Model of `urllib.parse.uses_netloc`. -/
def usesNetloc : List PyStr :=
  [pstr "", pstr "ftp", pstr "http", pstr "gopher", pstr "nntp", pstr "telnet",
   pstr "imap", pstr "wais", pstr "file", pstr "mms", pstr "https", pstr "shttp",
   pstr "snews", pstr "prospero", pstr "rtsp", pstr "rtsps", pstr "rtspu",
   pstr "rsync", pstr "svn", pstr "svn+ssh", pstr "sftp", pstr "nfs", pstr "git",
   pstr "git+ssh", pstr "ws", pstr "wss"]

/-- Model of `urllib.parse.urlunsplit` (CPython 3.11). -/
def pyUrlunsplit (scheme netloc url query fragment : PyStr) : PyStr :=
  let url :=
    if netloc ≠ [] ∨ (scheme ≠ [] ∧ scheme ∈ usesNetloc ∧ url.take 2 ≠ [47, 47]) then
      let url := if url ≠ [] ∧ url.take 1 ≠ [47] then 47 :: url else url
      47 :: 47 :: (netloc ++ url)
    else url
  let url := if scheme ≠ [] then scheme ++ 58 :: url else url
  let url := if query ≠ [] then url ++ 63 :: query else url
  if fragment ≠ [] then url ++ 35 :: fragment else url

/-- Model of `urllib.parse.urlunparse`. -/
def pyUrlunparse (scheme netloc url params query fragment : PyStr) : PyStr :=
  pyUrlunsplit scheme netloc (if params ≠ [] then url ++ 59 :: params else url)
    query fragment

/-- Model of `re.sub(r"/+", "/", path)`: collapse runs of slashes. -/
def collapseSlashes : PyStr → PyStr
  | [] => []
  | [c] => [c]
  | c1 :: c2 :: t =>
    if c1 = 47 && c2 = 47 then collapseSlashes (c2 :: t)
    else c1 :: collapseSlashes (c2 :: t)

/-- Model of `path.rstrip("/")`. -/
def rstripSlash (s : PyStr) : PyStr := (s.reverse.dropWhile (fun c => c = 47)).reverse

/-- Tracking-parameter predicate of `canonicalize_url`: the key (lowercased)
starts with `utm_` or is `fbclid`/`gclid`. -/
def isTrackingKey (k : PyStr) : Bool :=
  let lk := pyLower k
  (pstr "utm_").isPrefixOf lk || lk = pstr "fbclid" || lk = pstr "gclid"

/-- Model of `src/utils.py` `canonicalize_url`: empty input maps to the empty
string; otherwise strip, parse, lowercase scheme (default `https`) and host,
collapse and right-strip slashes in the path, drop tracking parameters and
re-encode the query, drop params and fragment, and reassemble.  A
`ValueError` escaping `urlparse` is modelled by `Except.error`. -/
def canonicalize_url (url : PyStr) : Except Unit PyStr :=
  if url.isEmpty then .ok [] else do
    let parsed ← pyUrlparse (pyStrip url)
    let scheme := if (pyLower parsed.scheme).isEmpty then pstr "https" else pyLower parsed.scheme
    let netloc := pyLower parsed.netloc
    let path := rstripSlash (collapseSlashes parsed.path)
    let fq := (parseQsl parsed.query).filter fun kv => !isTrackingKey kv.1
    let query := urlencodePairs fq
    pure (pyUrlunparse scheme netloc path [] query [])

/-- Model of the Python substring test `needle in hay`. -/
def isSubstrB (needle : PyStr) : PyStr → Bool
  | [] => needle.isEmpty
  | c :: t => needle.isPrefixOf (c :: t) || isSubstrB needle t

/-! Model of `src/utils.py` blocklist and `src/parser.py`. -/

/-- Model of `src/utils.py` `BLOCKLIST_TOKENS` (the ten sensitive-path tokens). -/
def BLOCKLIST_TOKENS : List PyStr :=
  [pstr "login", pstr "password", pstr "reset", pstr "subscribe", pstr "newsletter",
   pstr "account", pstr "cookie", pstr "privacy", pstr "terms", pstr "contact"]

/-- Model of `src/utils.py` `is_blocklisted_url`. -/
def is_blocklisted_url (url : PyStr) : Bool :=
  BLOCKLIST_TOKENS.any fun t => isSubstrB t (pyLower url)

/-- Model of `src/parser.py` `FORBIDDEN_PAGE_TOKENS` (five tokens). -/
def FORBIDDEN_PAGE_TOKENS : List PyStr :=
  [pstr "login", pstr "password", pstr "reset", pstr "subscribe", pstr "newsletter"]

/-- Model of `src/parser.py` `MUSICWEEK_ARTICLE_PATH_HINTS`. -/
def MUSICWEEK_ARTICLE_PATH_HINTS : List PyStr :=
  [pstr "/labels/read/", pstr "/live/read/", pstr "/media/read/",
   pstr "/talent/read/", pstr "/news/", pstr "/opinion/read/"]

/-- Metadata dictionary produced by `extract_metadata` (an external-collaborator
boundary built on BeautifulSoup): title, optional publish timestamp (modelled
as microseconds on an integer timeline, timezone already normalized), whether
any raw date-looking string was found, the excerpt, and the lowercased visible
page text. -/
structure Metadata where
  title : PyStr
  published_dt : Option Int
  date_raw_found : Bool
  excerpt : PyStr
  page_text : PyStr
deriving DecidableEq, Repr

/-- Model of `src/parser.py` `is_article_page`.  The `urlparse` call inside the
Music Week branch can raise, hence the `Except`. -/
def is_article_page (metadata : Metadata) (source : PyStr) (url : PyStr)
    (http_status : Int) : Except Unit (Bool × PyStr) := do
  if http_status ≠ 200 then
    return (false, pstr "http_status_not_200")
  let low_title := pyLower metadata.title
  let low_page_text := metadata.page_text
  if FORBIDDEN_PAGE_TOKENS.any (fun token =>
      isSubstrB token low_title || isSubstrB token low_page_text) then
    return (false, pstr "forbidden_page_tokens")
  if source = pstr "Music Week" then
    let parsed ← pyUrlparse url
    let path := pyLower parsed.path
    if !(MUSICWEEK_ARTICLE_PATH_HINTS.any fun seg => isSubstrB seg path) then
      return (false, pstr "musicweek_non_article_path")
    return (true, pstr "ok")
  let has_date := !(metadata.published_dt.isNone) || metadata.date_raw_found
  if !has_date then
    return (false, pstr "missing_article_date_signals")
  return (true, pstr "ok")

/-- Sentence-ending punctuation of the `split_sentences` regex (`.`, `!`, `?`). -/
def isSentPunct (c : Fin 256) : Bool := c.val = 46 || c.val = 33 || c.val = 63

/-- Scanner for `re.split(r"(?<=[.!?])\s+", text)`: a whitespace character
preceded by sentence punctuation closes the current chunk (consecutive
whitespace then rides at the head of the next chunk and is removed by the
subsequent per-chunk strip, matching the greedy `\s+`). -/
def splitSentAux (prev : Fin 256) (acc : PyStr) : PyStr → List PyStr
  | [] => [acc.reverse]
  | c :: t =>
    if isStrWS c && isSentPunct prev then acc.reverse :: splitSentAux c [] t
    else splitSentAux c (c :: acc) t

/-- Model of `src/parser.py` `split_sentences`. -/
def split_sentences (text : PyStr) : List PyStr :=
  if text.isEmpty then [] else
  let chunks := splitSentAux 0 [] (pyStrip text)
  (chunks.map pyStrip).filter fun c => !c.isEmpty

/-- Order-preserving, keep-first dedup of sentences by lowercased text
(the `seen` set of `build_summary_from_title_excerpt`). -/
def dedupLowerAux (seen : List PyStr) : List PyStr → List PyStr
  | [] => []
  | s :: t =>
    if pyLower s ∈ seen then dedupLowerAux seen t
    else s :: dedupLowerAux (pyLower s :: seen) t

/-- Model of `src/parser.py` `build_summary_from_title_excerpt`. -/
def build_summary_from_title_excerpt (title excerpt : PyStr) (bullets : Nat) : PyStr :=
  let sentences := (if title.isEmpty then [] else [title]) ++ split_sentences excerpt
  let unique := dedupLowerAux [] sentences
  let chosen := if unique.isEmpty then [pstr "No summary available."]
                else unique.take (max 2 bullets)
  List.intercalate [10] (chosen.map fun c => pstr "- " ++ c)

/-! Model of `src/fetchers.py` (the fetcher itself and the HTML link
extractor are external-collaborator oracles). -/

/-- Model of the `FetchResult` dataclass. -/
structure FetchResultM where
  url : PyStr
  status_code : Int
  text : PyStr
  from_cache : Bool
deriving DecidableEq, Repr

/-- Model of `src/fetchers.py` `MUSICWEEK_PATTERNS`. -/
def MUSICWEEK_PATTERNS : List PyStr :=
  [pstr "/labels/read/", pstr "/live/read/", pstr "/media/read/",
   pstr "/talent/read/", pstr "/opinion/read/", pstr "/news/"]

/-- One membership test of the `filter_candidate_urls` loop body: whether the
url survives the blocklist, host and path checks for the given source. -/
def keepCandidate (source : PyStr) (url : PyStr) : Except Unit Bool := do
  if is_blocklisted_url url then return false
  let parsed ← pyUrlparse url
  if source = pstr "Music Week" ∧
      ¬ (isSubstrB (pstr "musicweek.com") (pyLower parsed.netloc) = true) then
    return false
  if source = pstr "Music Business Worldwide" ∧
      ¬ (isSubstrB (pstr "musicbusinessworldwide.com") (pyLower parsed.netloc) = true) then
    return false
  if source = pstr "Music Week" then
    let path := pyLower parsed.path
    if !(MUSICWEEK_PATTERNS.any fun seg => isSubstrB seg path) then return false
    return true
  return true

/-- Python's `set(...)` materialized as a duplicate-free list (membership
semantics; ordering is then fixed by `sorted`). -/
def dedupList : List PyStr → List PyStr
  | [] => []
  | a :: t => if a ∈ t then dedupList t else a :: dedupList t

/-- Lexicographic byte-string comparison, the order used by Python `sorted`
on strings. -/
def lexLe : PyStr → PyStr → Bool
  | [], _ => true
  | _ :: _, [] => false
  | a :: s, b :: t =>
    if a.val < b.val then true
    else if b.val < a.val then false
    else lexLe s t

/-- Model of `src/fetchers.py` `filter_candidate_urls`: keep eligible urls,
then `sorted(set(kept))`. -/
def filter_candidate_urls (source : PyStr) (urls : List PyStr) :
    Except Unit (List PyStr) := do
  let kept ← urls.foldlM
    (fun acc u => do
      if (← keepCandidate source u) then pure (acc ++ [u]) else pure acc)
    ([] : List PyStr)
  pure (List.insertionSort (fun a b => lexLe a b = true) (dedupList kept))

/-- The three Music Week listing urls of `discover_fallback_urls`. -/
def listingUrls : List PyStr :=
  [pstr "https://www.musicweek.com/news",
   pstr "https://www.musicweek.com/news?page=2",
   pstr "https://www.musicweek.com/news?page=3"]

/-- Python `set.add` on the list model. -/
def setAdd (l : List PyStr) (x : PyStr) : List PyStr := if x ∈ l then l else l ++ [x]

/-- One iteration of the `discover_fallback_urls` loop.  The state is the
Music Week found-set together with the log of urls passed to
`fetcher.fetch`.  `fetchO` is the fetch oracle, `extractO` the
`extract_links_from_html` oracle (base url and html to links). -/
def dfStep (fetchO : PyStr → Option FetchResultM)
    (extractO : PyStr → PyStr → List PyStr)
    (acc : List PyStr × List PyStr) (list_url : PyStr) : List PyStr × List PyStr :=
  let found := acc.1
  let flog := acc.2 ++ [list_url]
  match fetchO list_url with
  | none => (found, flog)
  | some res =>
    if res.status_code = 404 ∧ list_url ≠ pstr "https://www.musicweek.com/news" then
      (found, flog)
    else if res.status_code ≥ 400 ∨ res.text.isEmpty then (found, flog)
    else
      ((extractO list_url res.text).foldl
        (fun f u => if isSubstrB (pstr "musicweek.com") u then setAdd f u else f)
        found,
       flog)

/-- Model of `src/fetchers.py` `discover_fallback_urls` restricted to its
observable effects: the Music Week found-set and the sequence of listing
urls actually fetched. -/
def discover_fallback_urls (fetchO : PyStr → Option FetchResultM)
    (extractO : PyStr → PyStr → List PyStr) : List PyStr × List PyStr :=
  listingUrls.foldl (dfStep fetchO extractO) ([], [])

/-! Model of the Music Week candidate loop of `main.py` (lines 103-149). -/

/-- Model of the `ParsedArticle` dataclass. -/
structure ParsedArticle where
  source : PyStr
  url : PyStr
  title : PyStr
  date : PyStr
  date_missing : Bool
  excerpt_en : PyStr
  summary_en : PyStr
  title_zh : PyStr := []
  excerpt_zh : PyStr := []
  summary_zh : PyStr := []
deriving DecidableEq, Repr

/-- Run-scoped state of the Music Week candidate loop: the canonical-url
seen-set (a Python `set`, modelled as a duplicate-free list), the log of
skip reasons (one entry per counter increment), the log of urls passed to
`fetcher.fetch`, the fetched-pages and missing-date counters, and the
accumulated articles. -/
structure RunState where
  seen : List PyStr
  skippedLog : List PyStr
  fetchLog : List PyStr
  fetchedPages : Nat
  dateMissingCount : Nat
  articles : List ParsedArticle
deriving DecidableEq, Repr

/-- Initial state of a run. -/
def initState : RunState := ⟨[], [], [], 0, 0, []⟩

/-- One iteration of the Music Week candidate loop of `main.py`:
canonicalize, dedupe against the seen-set, fetch, extract metadata,
classify, date-window filter, accumulate.  `fetchO` models
`WebFetcher.fetch`, `mdO` models `extract_metadata`, `dateIso` models
`pub_dt.date().isoformat()`, `cutoff` is `get_cutoff(days)` on the same
integer timeline as `Metadata.published_dt`. -/
def mwStep (fetchO : PyStr → Option FetchResultM) (mdO : PyStr → Metadata)
    (dateIso : Int → PyStr) (cutoff : Int) (s : RunState) (url : PyStr) :
    Except Unit RunState := do
  let cu ← canonicalize_url url
  if cu ∈ s.seen then
    return { s with skippedLog := s.skippedLog ++ [pstr "duplicate_url"] }
  let s := { s with seen := s.seen ++ [cu], fetchLog := s.fetchLog ++ [cu] }
  match fetchO cu with
  | none =>
    return { s with skippedLog := s.skippedLog ++ [pstr "fetch_failed_or_robots_block"] }
  | some res =>
    let s := { s with fetchedPages := s.fetchedPages + 1 }
    let md := mdO res.text
    let r ← is_article_page md (pstr "Music Week") cu res.status_code
    if !r.1 then
      return { s with skippedLog := s.skippedLog ++ [r.2] }
    let title := pyStrip md.title
    let excerpt := pyStrip md.excerpt
    match md.published_dt with
    | some t =>
      if t < cutoff then
        return { s with skippedLog := s.skippedLog ++ [pstr "older_than_window"] }
      return { s with articles := s.articles ++
        [{ source := pstr "Music Week", url := cu, title := title,
           date := dateIso t, date_missing := false, excerpt_en := excerpt,
           summary_en := build_summary_from_title_excerpt title excerpt 2 }] }
    | none =>
      return { s with
        dateMissingCount := s.dateMissingCount + 1,
        articles := s.articles ++
          [{ source := pstr "Music Week", url := cu, title := title,
             date := [], date_missing := true, excerpt_en := excerpt,
             summary_en := build_summary_from_title_excerpt title excerpt 2 }] }

/-- The whole Music Week candidate loop over a candidate list. -/
def mwRun (fetchO : PyStr → Option FetchResultM) (mdO : PyStr → Metadata)
    (dateIso : Int → PyStr) (cutoff : Int) (urls : List PyStr) (s : RunState) :
    Except Unit RunState :=
  urls.foldlM (mwStep fetchO mdO dateIso cutoff) s

/-! Concrete fixtures used by witnesses and counterexamples. -/

/-- Music Week page metadata with a 500-character visible body. -/
def mdBody500 : Metadata :=
  { title := pstr "Artist signs global deal", published_dt := none,
    date_raw_found := false, excerpt := pstr "Some text.",
    page_text := List.replicate 500 97 }

/-- Music Week page metadata with a 1500-character visible body. -/
def mdBody1500 : Metadata :=
  { title := pstr "Artist signs global deal", published_dt := none,
    date_raw_found := false, excerpt := pstr "Some text.",
    page_text := List.replicate 1500 97 }

/-- Page metadata whose visible body contains the blocklist token `cookie`
(and none of the five `FORBIDDEN_PAGE_TOKENS`), with a date signal. -/
def mdCookiePage : Metadata :=
  { title := pstr "About our site", published_dt := none, date_raw_found := true,
    excerpt := pstr "x", page_text := pstr "read our cookie policy here" }

/-- Fetch oracle on which the second Music Week listing page returns 404 and
every other url returns 200 with a nonempty body. -/
def page2Returns404 : PyStr → Option FetchResultM := fun u =>
  if u = pstr "https://www.musicweek.com/news?page=2" then
    some { url := u, status_code := 404, text := pstr "gone", from_cache := false }
  else some { url := u, status_code := 200, text := pstr "<html>", from_cache := false }

/-- Link-extraction oracle returning no links. -/
def noLinksO : PyStr → PyStr → List PyStr := fun _ _ => []

/-- Fetch oracle that always returns a 200 page with a fixed body. -/
def okFetchO : PyStr → Option FetchResultM := fun u =>
  some { url := u, status_code := 200, text := pstr "<html>", from_cache := false }

/-- Metadata oracle returning a dated article-like page. -/
def datedMdO : PyStr → Metadata := fun _ =>
  { title := pstr "T", published_dt := some 1000, date_raw_found := true,
    excerpt := pstr "E.", page_text := pstr "body" }

/-- Metadata oracle returning a page with no discoverable date. -/
def undatedMdO : PyStr → Metadata := fun _ =>
  { title := pstr "T", published_dt := none, date_raw_found := false,
    excerpt := pstr "E.", page_text := pstr "body" }

/-- Date-rendering oracle (`pub_dt.date().isoformat()` boundary). -/
def isoO : Int → PyStr := fun _ => pstr "2026-01-01"

/-- Boolean form of the `filter_candidate_urls` keep decision (meaningful on
urls whose `urlparse` does not raise). -/
def keepB (source : PyStr) (u : PyStr) : Bool :=
  match keepCandidate source u with
  | .ok b => b
  | .error _ => false

/-- Byte on which `canonicalize_url` behaves uniformly: not a whitespace or
control byte (which `strip`/`urlsplit` cleaning touches) and not a semicolon
(which the params split of `urlparse` touches). -/
def goodChar (c : Fin 256) : Bool :=
  32 < c.val && !(c.val = 59) && !(c.val = 133) && !(c.val = 160)

/-- The bracketed-host extraction of `urlsplit`
(`netloc.partition('[')[2].partition(']')[0]`). -/
def bracketedOf (nl : PyStr) : PyStr :=
  ((nl.dropWhile (fun c => !(c = 91))).drop 1).takeWhile (fun c => !(c = 93))

/-- The cleaning stage of `urlsplit`: lstrip of C0 controls/space, then
removal of tab/CR/LF. -/
def cleanUrl (w : PyStr) : PyStr :=
  (w.dropWhile (fun c => c.val ≤ 32)).filter
    (fun c => !(c.val = 9 || c.val = 13 || c.val = 10))

/-- The scheme-extraction stage of `urlsplit` (scheme, remainder). -/
def schemeSplit (u2 : PyStr) : PyStr × PyStr :=
  match splitFirst 58 u2 with
  | some (pre, rest) =>
    if !pre.isEmpty && (pre.take 1).all isAlphaB && pre.all isSchemeCharB
    then (pyLower pre, rest) else ([], u2)
  | none => ([], u2)

/-- The netloc-extraction stage of `urlsplit` (netloc, remainder). -/
def netlocSplit (u3 : PyStr) : PyStr × PyStr :=
  if u3.take 2 = [47, 47] then
    ((u3.drop 2).takeWhile notNetlocDelim, (u3.drop 2).dropWhile notNetlocDelim)
  else ([], u3)

/-- The netloc bracket validation of `urlsplit` as a boolean. -/
def netlocOk (nl : PyStr) : Bool :=
  !((nl.contains 91 && !nl.contains 93) || (nl.contains 93 && !nl.contains 91)) &&
  (!(nl.contains 91 && nl.contains 93) || checkBracketedHost (bracketedOf nl))

/-- The fragment split of `urlsplit` (remainder, fragment). -/
def fragSplit (u4 : PyStr) : PyStr × PyStr :=
  match splitFirst 35 u4 with
  | some (a, f) => (a, f)
  | none => (u4, [])

/-- The query split of `urlsplit` (path, query). -/
def querySplit (u5 : PyStr) : PyStr × PyStr :=
  match splitFirst 63 u5 with
  | some (a, q) => (a, q)
  | none => (u5, [])

/-- No two adjacent slashes anywhere in the string (the invariant produced by
`re.sub(r"/+", "/", ...)`). -/
def noDouble : PyStr → Bool
  | [] => true
  | [_] => true
  | c1 :: c2 :: t => !(c1 = 47 && c2 = 47) && noDouble (c2 :: t)

/-- A well-formed assembly context: a valid scheme string and a
delimiter-free netloc that passes bracket validation, with clean bytes. -/
abbrev urlCtx (s h : PyStr) : Prop :=
  s ≠ [] ∧ ((s.take 1).all isAlphaB) = true ∧ (s.all isSchemeCharB) = true ∧
  h.all notNetlocDelim = true ∧ netlocOk h = true ∧ h.all goodChar = true

/-- `pyUrlsplit` from the fragment stage onward. -/
def urlsplitTail (scheme netloc u4 : PyStr) : Except Unit SplitResult := do
  let (u5, fragment) :=
    match splitFirst 35 u4 with
    | some (a, f) => (a, f)
    | none => (u4, [])
  let (path, query) :=
    match splitFirst 63 u5 with
    | some (a, q) => (a, q)
    | none => (u5, [])
  pure ⟨scheme, netloc, path, query, fragment⟩

/-- `pyUrlsplit` from the netloc stage onward. -/
def urlsplitNetloc (scheme u3 : PyStr) : Except Unit SplitResult := do
  let (netloc, u4) ←
    if u3.take 2 = [47, 47] then do
      let nl := (u3.drop 2).takeWhile notNetlocDelim
      let rest := (u3.drop 2).dropWhile notNetlocDelim
      if (nl.contains 91 && !nl.contains 93) || (nl.contains 93 && !nl.contains 91) then
        throw ()
      if nl.contains 91 && nl.contains 93 then
        let bracketed := ((nl.dropWhile (fun c => !(c = 91))).drop 1).takeWhile (fun c => !(c = 93))
        if !checkBracketedHost bracketed then throw ()
      pure (nl, rest)
    else pure (([] : PyStr), u3)
  urlsplitTail scheme netloc u4

/-- `pyUrlsplit` from the cleaned string onward. -/
def urlsplitFrom (u2 : PyStr) : Except Unit SplitResult :=
  match splitFirst 58 u2 with
  | some (pre, rest) =>
    if !pre.isEmpty && (pre.take 1).all isAlphaB && pre.all isSchemeCharB
    then urlsplitNetloc (pyLower pre) rest else urlsplitNetloc [] u2
  | none => urlsplitNetloc [] u2

/-! Theorems. -/

/-- C1: on a Music Week page whose URL path matches the `/news/` hint,
`is_article_page` returns `(True, "ok")` for a 500-character body exactly as
it does for a 1500-character body: the code checks only the path hints and
applies no minimum body-length threshold, so the spec's requirement that the
500-character page be rejected with a body/shape-specific reason is violated
by the code. -/
theorem C1_no_body_length_check :
    is_article_page mdBody500 (pstr "Music Week")
      (pstr "https://www.musicweek.com/news/some-title-123") 200 =
      .ok (true, pstr "ok") ∧
    is_article_page mdBody1500 (pstr "Music Week")
      (pstr "https://www.musicweek.com/news/some-title-123") 200 =
      .ok (true, pstr "ok") ∧
    mdBody500.page_text.length = 500 ∧ mdBody1500.page_text.length = 1500 := by
  decide

/-- C2 counterexample: a page whose visible body contains the blocklist token
`cookie` (one of the ten URL-eligibility tokens) is accepted with `"ok"`,
because `is_article_page` checks only the five `FORBIDDEN_PAGE_TOKENS`,
not the ten-token `BLOCKLIST_TOKENS` set. -/
theorem C2_counterexample :
    pstr "cookie" ∈ BLOCKLIST_TOKENS ∧
    isSubstrB (pstr "cookie") mdCookiePage.page_text = true ∧
    is_article_page mdCookiePage (pstr "Music Business Worldwide")
      (pstr "https://www.musicbusinessworldwide.com/a-story/") 200 =
      .ok (true, pstr "ok") := by
  decide

/-- C2 (amended): for every metadata, source and url, `is_article_page` with
status 200 rejects with the forbidden-token reason whenever the lowercased
title or the visible body text contains one of the five
`FORBIDDEN_PAGE_TOKENS` (login, password, reset, subscribe, newsletter) —
a proper subset of the ten-token URL blocklist. -/
theorem C2_forbidden_tokens (md : Metadata) (source url : PyStr) (token : PyStr)
    (h1 : token ∈ FORBIDDEN_PAGE_TOKENS)
    (h2 : isSubstrB token (pyLower md.title) = true ∨
          isSubstrB token md.page_text = true) :
    is_article_page md source url 200 = .ok (false, pstr "forbidden_page_tokens") := by
  have hany : (FORBIDDEN_PAGE_TOKENS.any fun token =>
      isSubstrB token (pyLower md.title) || isSubstrB token md.page_text) = true := by
    refine List.any_eq_true.mpr ⟨token, h1, ?_⟩
    rcases h2 with h | h <;> simp [h]
  simp [is_article_page, hany, pure, Except.pure, bind, Except.bind]

/-- C2 witness: the amended theorem applied to a concrete login page. -/
theorem C2_forbidden_tokens_witness :
    is_article_page
      { title := pstr "Login"
        published_dt := none
        date_raw_found := true
        excerpt := []
        page_text := pstr "please sign in" }
      (pstr "Music Week") (pstr "https://www.musicweek.com/news/x") 200 =
      .ok (false, pstr "forbidden_page_tokens") :=
  C2_forbidden_tokens _ _ _ (pstr "login") (by decide) (Or.inl (by decide))

/-- C4: in the date-window filter of the Music Week loop, a classified article
whose publish timestamp equals the cutoff exactly is retained (inclusive
lower bound), while a timestamp strictly below the cutoff — in particular one
microsecond older — is skipped with reason `older_than_window`. -/
theorem C4_date_window_boundary
    (fetchO : PyStr → Option FetchResultM) (mdO : PyStr → Metadata)
    (dateIso : Int → PyStr) (cutoff : Int) (s : RunState) (url cu : PyStr)
    (res : FetchResultM)
    (hc : canonicalize_url url = .ok cu) (hseen : cu ∉ s.seen)
    (hf : fetchO cu = some res)
    (hcls : is_article_page (mdO res.text) (pstr "Music Week") cu res.status_code
      = .ok (true, pstr "ok")) :
    ((mdO res.text).published_dt = some cutoff →
      mwStep fetchO mdO dateIso cutoff s url = .ok
        { s with
          seen := s.seen ++ [cu]
          fetchLog := s.fetchLog ++ [cu]
          fetchedPages := s.fetchedPages + 1
          articles := s.articles ++
            [{ source := pstr "Music Week"
               url := cu
               title := pyStrip (mdO res.text).title
               date := dateIso cutoff
               date_missing := false
               excerpt_en := pyStrip (mdO res.text).excerpt
               summary_en := build_summary_from_title_excerpt
                 (pyStrip (mdO res.text).title) (pyStrip (mdO res.text).excerpt) 2 }] }) ∧
    (∀ t : Int, t < cutoff → (mdO res.text).published_dt = some t →
      mwStep fetchO mdO dateIso cutoff s url = .ok
        { s with
          seen := s.seen ++ [cu]
          fetchLog := s.fetchLog ++ [cu]
          fetchedPages := s.fetchedPages + 1
          skippedLog := s.skippedLog ++ [pstr "older_than_window"] }) := by
  constructor
  · intro hdt
    simp [mwStep, hc, hseen, hf, hcls, hdt, bind, Except.bind, pure, Except.pure]
  · intro t ht hdt
    simp [mwStep, hc, hseen, hf, hcls, hdt, ht, bind, Except.bind, pure, Except.pure]

/-- C4 witness: the boundary theorem at a concrete page dated exactly at the
cutoff (retained) and a concrete page one microsecond older (skipped). -/
theorem C4_date_window_boundary_witness :
    mwStep okFetchO (fun _ =>
        { title := pstr "T"
          published_dt := some 1000
          date_raw_found := true
          excerpt := pstr "E."
          page_text := pstr "body" })
      isoO 1000 initState (pstr "https://www.musicweek.com/news/a") = .ok
      { seen := [pstr "https://www.musicweek.com/news/a"]
        skippedLog := []
        fetchLog := [pstr "https://www.musicweek.com/news/a"]
        fetchedPages := 1
        dateMissingCount := 0
        articles := [{ source := pstr "Music Week"
                       url := pstr "https://www.musicweek.com/news/a"
                       title := pstr "T"
                       date := isoO 1000
                       date_missing := false
                       excerpt_en := pstr "E."
                       summary_en := build_summary_from_title_excerpt
                         (pstr "T") (pstr "E.") 2 }] } ∧
    mwStep okFetchO (fun _ =>
        { title := pstr "T"
          published_dt := some 999
          date_raw_found := true
          excerpt := pstr "E."
          page_text := pstr "body" })
      isoO 1000 initState (pstr "https://www.musicweek.com/news/a") = .ok
      { seen := [pstr "https://www.musicweek.com/news/a"]
        skippedLog := [pstr "older_than_window"]
        fetchLog := [pstr "https://www.musicweek.com/news/a"]
        fetchedPages := 1
        dateMissingCount := 0
        articles := [] } :=
  ⟨(C4_date_window_boundary okFetchO _ isoO 1000 initState _ _ _
      (by decide) (by decide) rfl (by decide)).1 rfl,
   (C4_date_window_boundary okFetchO _ isoO 1000 initState _ _ _
      (by decide) (by decide) rfl (by decide)).2 999 (by decide) rfl⟩

/-- C5: a fetched Music Week page that passes classification but has no parsed
publish timestamp is retained as an article with `date_missing = true` and an
empty date string, the missing-date counter is incremented, and no skip
reason is recorded (absence of a date never rejects at the date filter). -/
theorem C5_missing_date_retained
    (fetchO : PyStr → Option FetchResultM) (mdO : PyStr → Metadata)
    (dateIso : Int → PyStr) (cutoff : Int) (s : RunState) (url cu : PyStr)
    (res : FetchResultM)
    (hc : canonicalize_url url = .ok cu) (hseen : cu ∉ s.seen)
    (hf : fetchO cu = some res)
    (hcls : is_article_page (mdO res.text) (pstr "Music Week") cu res.status_code
      = .ok (true, pstr "ok"))
    (hnd : (mdO res.text).published_dt = none) :
    mwStep fetchO mdO dateIso cutoff s url = .ok
      { s with
        seen := s.seen ++ [cu]
        fetchLog := s.fetchLog ++ [cu]
        fetchedPages := s.fetchedPages + 1
        dateMissingCount := s.dateMissingCount + 1
        articles := s.articles ++
          [{ source := pstr "Music Week"
             url := cu
             title := pyStrip (mdO res.text).title
             date := []
             date_missing := true
             excerpt_en := pyStrip (mdO res.text).excerpt
             summary_en := build_summary_from_title_excerpt
               (pyStrip (mdO res.text).title) (pyStrip (mdO res.text).excerpt) 2 }] } := by
  simp [mwStep, hc, hseen, hf, hcls, hnd, bind, Except.bind, pure, Except.pure]

/-- C5 witness: the missing-date theorem at a concrete undated page. -/
theorem C5_missing_date_retained_witness :
    mwStep okFetchO undatedMdO isoO 1000 initState
      (pstr "https://www.musicweek.com/news/a") = .ok
      { seen := [pstr "https://www.musicweek.com/news/a"]
        skippedLog := []
        fetchLog := [pstr "https://www.musicweek.com/news/a"]
        fetchedPages := 1
        dateMissingCount := 1
        articles := [{ source := pstr "Music Week"
                       url := pstr "https://www.musicweek.com/news/a"
                       title := pstr "T"
                       date := []
                       date_missing := true
                       excerpt_en := pstr "E."
                       summary_en := build_summary_from_title_excerpt
                         (pstr "T") (pstr "E.") 2 }] } :=
  C5_missing_date_retained okFetchO undatedMdO isoO 1000 initState _ _ _
    (by decide) (by decide) rfl (by decide) rfl

/-- C9 counterexample: with a fetch oracle on which listing page 2 returns
404, listing page 3 is still fetched afterwards — pagination does not stop
early on a not-found past page 1 (the loop `continue`s instead of breaking). -/
theorem C9_counterexample :
    (∃ r, page2Returns404 (pstr "https://www.musicweek.com/news?page=2") = some r ∧
      r.status_code = 404) ∧
    (discover_fallback_urls page2Returns404 noLinksO).2 =
      [pstr "https://www.musicweek.com/news",
       pstr "https://www.musicweek.com/news?page=2",
       pstr "https://www.musicweek.com/news?page=3"] := by
  refine ⟨⟨_, rfl, by decide⟩, by decide⟩

/-- C9 (amended): `discover_fallback_urls` always fetches all three fixed
listing pages in order, for every fetch and link-extraction oracle; a 404 on
page 2 only suppresses that page's link contribution (the found-set equals the
one computed from pages 1 and 3 alone) without stopping pagination. -/
theorem C9_no_early_stop (fetchO : PyStr → Option FetchResultM)
    (extractO : PyStr → PyStr → List PyStr) :
    (discover_fallback_urls fetchO extractO).2 = listingUrls ∧
    (∀ res, fetchO (pstr "https://www.musicweek.com/news?page=2") = some res →
      res.status_code = 404 →
      (discover_fallback_urls fetchO extractO).1 =
      (List.foldl (dfStep fetchO extractO) ([], [])
        [pstr "https://www.musicweek.com/news",
         pstr "https://www.musicweek.com/news?page=3"]).1) := by
  have hlog : ∀ acc u, ((dfStep fetchO extractO acc u).2) = acc.2 ++ [u] := by
    intro acc u
    unfold dfStep
    cases hfu : fetchO u with
    | none => rfl
    | some r =>
      dsimp only
      split_ifs <;> rfl
  have hfound : ∀ a b u, a.1 = b.1 →
      (dfStep fetchO extractO a u).1 = (dfStep fetchO extractO b u).1 := by
    rintro ⟨a1, a2⟩ ⟨b1, b2⟩ u hab
    simp only at hab
    subst hab
    unfold dfStep
    cases hfu : fetchO u with
    | none => rfl
    | some r =>
      dsimp only
      split_ifs <;> rfl
  refine ⟨?_, ?_⟩
  · show (List.foldl (dfStep fetchO extractO) ([], []) listingUrls).2 = listingUrls
    simp only [listingUrls, List.foldl, hlog]
    rfl
  · intro res hres h404
    have hskip : ∀ acc, (dfStep fetchO extractO acc
        (pstr "https://www.musicweek.com/news?page=2")).1 = acc.1 := by
      intro acc
      unfold dfStep
      rw [hres]
      dsimp only
      have h1 : res.status_code = 404 ∧
          pstr "https://www.musicweek.com/news?page=2" ≠
            pstr "https://www.musicweek.com/news" := ⟨h404, by decide⟩
      simp [h1]
    show (List.foldl (dfStep fetchO extractO) ([], []) listingUrls).1 = _
    simp only [listingUrls, List.foldl]
    apply hfound
    exact hskip _

/-- C9 witness: the amended theorem applied to the oracle on which page 2
returns 404 and no links are extracted. -/
theorem C9_no_early_stop_witness :
    (discover_fallback_urls page2Returns404 noLinksO).2 = listingUrls ∧
    (discover_fallback_urls page2Returns404 noLinksO).1 =
      (List.foldl (dfStep page2Returns404 noLinksO) ([], [])
        [pstr "https://www.musicweek.com/news",
         pstr "https://www.musicweek.com/news?page=3"]).1 :=
  ⟨(C9_no_early_stop page2Returns404 noLinksO).1,
   (C9_no_early_stop page2Returns404 noLinksO).2 _ rfl (by decide)⟩

/-- Characterization of `lexLe` on cons cells. -/
theorem lexLe_cons_iff (x y : Fin 256) (s t : PyStr) :
    lexLe (x :: s) (y :: t) = true ↔
      x.val < y.val ∨ (x.val = y.val ∧ lexLe s t = true) := by
  simp only [lexLe]
  by_cases h1 : x.val < y.val
  · rw [if_pos h1]
    simp [h1]
  · rw [if_neg h1]
    by_cases h2 : y.val < x.val
    · rw [if_pos h2]
      simp
      omega
    · rw [if_neg h2]
      have hxy : x.val = y.val := by omega
      simp [hxy, h1]

/-- The lexicographic byte order is total. -/
theorem lexLe_total : ∀ a b : PyStr, lexLe a b = true ∨ lexLe b a = true := by
  intro a
  induction a with
  | nil => intro b; left; rfl
  | cons x s ih =>
    intro b
    cases b with
    | nil => right; rfl
    | cons y t =>
      rcases Nat.lt_trichotomy x.val y.val with h | h | h
      · left; exact (lexLe_cons_iff _ _ _ _).mpr (Or.inl h)
      · rcases ih t with h2 | h2
        · left; exact (lexLe_cons_iff _ _ _ _).mpr (Or.inr ⟨h, h2⟩)
        · right; exact (lexLe_cons_iff _ _ _ _).mpr (Or.inr ⟨h.symm, h2⟩)
      · right; exact (lexLe_cons_iff _ _ _ _).mpr (Or.inl h)

/-- The lexicographic byte order is transitive. -/
theorem lexLe_trans : ∀ a b c : PyStr,
    lexLe a b = true → lexLe b c = true → lexLe a c = true := by
  intro a
  induction a with
  | nil => intro b c _ _; rfl
  | cons x s ih =>
    intro b c hab hbc
    cases b with
    | nil => simp [lexLe] at hab
    | cons y t =>
      cases c with
      | nil => simp [lexLe] at hbc
      | cons z u =>
        rcases (lexLe_cons_iff _ _ _ _).mp hab with h | ⟨hxy, hst⟩ <;>
          rcases (lexLe_cons_iff _ _ _ _).mp hbc with h2 | ⟨hyz, htu⟩ <;>
          apply (lexLe_cons_iff _ _ _ _).mpr
        · left; omega
        · left; omega
        · left; omega
        · right; exact ⟨by omega, ih t u hst htu⟩

/-- The lexicographic byte order is antisymmetric. -/
theorem lexLe_antisymm : ∀ a b : PyStr,
    lexLe a b = true → lexLe b a = true → a = b := by
  intro a
  induction a with
  | nil =>
    intro b _ hba
    cases b with
    | nil => rfl
    | cons y t => simp [lexLe] at hba
  | cons x s ih =>
    intro b hab hba
    cases b with
    | nil => simp [lexLe] at hab
    | cons y t =>
      rcases (lexLe_cons_iff _ _ _ _).mp hab with h | ⟨hxy, hst⟩ <;>
        rcases (lexLe_cons_iff _ _ _ _).mp hba with h2 | ⟨hyx, hts⟩
      · omega
      · omega
      · omega
      · have hxy2 : x = y := Fin.ext hxy
        rw [hxy2, ih t hst hts]

instance lexLeTotalInst : IsTotal PyStr (fun a b => lexLe a b = true) := ⟨lexLe_total⟩

instance lexLeTransInst : IsTrans PyStr (fun a b => lexLe a b = true) :=
  ⟨fun a b c => lexLe_trans a b c⟩

instance lexLeAntisymmInst : IsAntisymm PyStr (fun a b => lexLe a b = true) :=
  ⟨fun a b => lexLe_antisymm a b⟩

/-- Membership in `dedupList` agrees with membership in the input. -/
theorem mem_dedupList : ∀ (l : List PyStr) (a : PyStr), a ∈ dedupList l ↔ a ∈ l := by
  intro l
  induction l with
  | nil => intro a; simp [dedupList]
  | cons b t ih =>
    intro a
    by_cases h : b ∈ t
    · simp only [dedupList, if_pos h, ih, List.mem_cons]
      constructor
      · intro ha; exact Or.inr ha
      · intro ha
        rcases ha with rfl | ha
        · exact h
        · exact ha
    · simp only [dedupList, if_neg h, List.mem_cons, ih]

/-- `dedupList` output has no duplicates. -/
theorem dedupList_nodup : ∀ l : List PyStr, (dedupList l).Nodup := by
  intro l
  induction l with
  | nil => simp [dedupList]
  | cons a t ih =>
    by_cases h : a ∈ t
    · simpa [dedupList, h] using ih
    · have heq : dedupList (a :: t) = a :: dedupList t := by simp [dedupList, h]
      rw [heq, List.nodup_cons]
      exact ⟨fun hmem => h ((mem_dedupList t a).mp hmem), ih⟩

/-- Specification of the `filter_candidate_urls` accumulation loop: when every
url's `urlparse` succeeds, the kept list is a `filter`. -/
theorem keptAux_spec (source : PyStr) : ∀ (urls : List PyStr) (acc : List PyStr),
    (∀ u ∈ urls, ∃ b, keepCandidate source u = .ok b) →
    (urls.foldlM
      (fun acc u => do
        if (← keepCandidate source u) then pure (acc ++ [u]) else pure acc)
      acc : Except Unit (List PyStr)) =
    .ok (acc ++ urls.filter (keepB source)) := by
  intro urls
  induction urls with
  | nil => intro acc _; simp [pure, Except.pure]
  | cons u t ih =>
    intro acc h
    obtain ⟨b, hb⟩ := h u (List.mem_cons_self u t)
    have hkb : keepB source u = b := by simp [keepB, hb]
    rw [List.foldlM_cons]
    cases b with
    | true =>
      have hstep : (do
          if (← keepCandidate source u) then pure (acc ++ [u]) else pure acc :
          Except Unit (List PyStr)) = .ok (acc ++ [u]) := by
        simp [hb, bind, Except.bind, pure, Except.pure]
      rw [hstep]
      show (t.foldlM _ (acc ++ [u]) : Except Unit (List PyStr)) = _
      rw [ih (acc ++ [u]) (fun v hv => h v (List.mem_cons_of_mem u hv))]
      simp [List.filter_cons, hkb]
    | false =>
      have hstep : (do
          if (← keepCandidate source u) then pure (acc ++ [u]) else pure acc :
          Except Unit (List PyStr)) = .ok acc := by
        simp [hb, bind, Except.bind, pure, Except.pure]
      rw [hstep]
      show (t.foldlM _ acc : Except Unit (List PyStr)) = _
      rw [ih acc (fun v hv => h v (List.mem_cons_of_mem u hv))]
      simp [List.filter_cons, hkb]

/-- A successful `filter_candidate_urls` accumulation implies every url's
`urlparse` succeeded. -/
theorem keptAux_ok (source : PyStr) : ∀ (urls : List PyStr) (acc k : List PyStr),
    (urls.foldlM
      (fun acc u => do
        if (← keepCandidate source u) then pure (acc ++ [u]) else pure acc)
      acc : Except Unit (List PyStr)) = .ok k →
    ∀ u ∈ urls, ∃ b, keepCandidate source u = .ok b := by
  intro urls
  induction urls with
  | nil => intro acc k _ u hu; exact absurd hu (List.not_mem_nil u)
  | cons v t ih =>
    intro acc k h u hu
    rw [List.foldlM_cons] at h
    cases hkc : keepCandidate source v with
    | error e =>
      rw [show (do
          if (← keepCandidate source v) then pure (acc ++ [v]) else pure acc :
          Except Unit (List PyStr)) = .error e by
        simp [hkc, bind, Except.bind]] at h
      exact absurd h (by simp [bind, Except.bind])
    | ok b =>
      rcases List.mem_cons.mp hu with rfl | hu2
      · exact ⟨b, hkc⟩
      · have hstep : (do
            if (← keepCandidate source v) then pure (acc ++ [v]) else pure acc :
            Except Unit (List PyStr)) = .ok (if b then acc ++ [v] else acc) := by
          cases b <;> simp [hkc, bind, Except.bind, pure, Except.pure]
        rw [hstep] at h
        simp only [bind, Except.bind] at h
        exact ih _ k h u hu2

/-- A successful `filter_candidate_urls` call computes
`sorted(set(filter(...)))` of the survivors. -/
theorem filter_candidate_urls_eq (source : PyStr) (urls out : List PyStr)
    (h : filter_candidate_urls source urls = .ok out) :
    out = List.insertionSort (fun a b => lexLe a b = true)
      (dedupList (urls.filter (keepB source))) := by
  unfold filter_candidate_urls at h
  cases hk : (urls.foldlM
      (fun acc u => do
        if (← keepCandidate source u) then pure (acc ++ [u]) else pure acc)
      ([] : List PyStr) : Except Unit (List PyStr)) with
  | error e =>
    rw [hk] at h
    exact absurd h (by simp [bind, Except.bind])
  | ok kept =>
    rw [hk] at h
    simp only [bind, Except.bind, pure, Except.pure] at h
    have hall := keptAux_ok source urls [] kept hk
    have hspec := keptAux_spec source urls [] hall
    rw [hk] at hspec
    have hkept : kept = urls.filter (keepB source) := by
      simpa using hspec
    rw [← hkept]
    exact (Except.ok.inj h).symm

/-- C10: `filter_candidate_urls` returns a duplicate-free list sorted in
ascending lexicographic byte-string order, and its output is invariant under
permutation of the input set — the per-source candidate order (and hence the
max-per-source truncation) is fixed by lexicographic order of the urls, not
by discovery order. -/
theorem C10_filter_candidates_sorted (source : PyStr) (urls out : List PyStr)
    (h : filter_candidate_urls source urls = .ok out) :
    out.Nodup ∧
    List.Sorted (fun a b => lexLe a b = true) out ∧
    (∀ urls' out', urls.Perm urls' →
      filter_candidate_urls source urls' = .ok out' → out' = out) := by
  have hout := filter_candidate_urls_eq source urls out h
  have hperm1 : (List.insertionSort (fun a b => lexLe a b = true)
      (dedupList (urls.filter (keepB source)))).Perm
      (dedupList (urls.filter (keepB source))) :=
    List.perm_insertionSort _ _
  refine ⟨?_, ?_, ?_⟩
  · rw [hout]
    exact hperm1.symm.nodup (dedupList_nodup _)
  · rw [hout]
    exact List.sorted_insertionSort _ _
  · intro urls' out' hp h'
    have hout' := filter_candidate_urls_eq source urls' out' h'
    have hfp : (urls.filter (keepB source)).Perm (urls'.filter (keepB source)) :=
      hp.filter _
    have hdp : (dedupList (urls.filter (keepB source))).Perm
        (dedupList (urls'.filter (keepB source))) := by
      refine (List.perm_ext_iff_of_nodup (dedupList_nodup _) (dedupList_nodup _)).mpr ?_
      intro a
      rw [mem_dedupList, mem_dedupList]
      exact hfp.mem_iff
    have hperm1' : (List.insertionSort (fun a b => lexLe a b = true)
        (dedupList (urls'.filter (keepB source)))).Perm
        (dedupList (urls'.filter (keepB source))) :=
      List.perm_insertionSort _ _
    have hchain : out'.Perm out := by
      rw [hout, hout']
      exact (hperm1'.trans hdp.symm).trans hperm1.symm
    exact List.eq_of_perm_of_sorted hchain
      (by rw [hout']; exact List.sorted_insertionSort _ _)
      (by rw [hout]; exact List.sorted_insertionSort _ _)

/-- C10 witness: the theorem applied to a concrete unsorted Music Week url
set (including a blocklisted url, a wrong-host url and a duplicate). -/
theorem C10_filter_candidates_sorted_witness :
    ([pstr "https://www.musicweek.com/news/a",
      pstr "https://www.musicweek.com/news/b"] : List PyStr).Nodup ∧
    List.Sorted (fun a b => lexLe a b = true)
      [pstr "https://www.musicweek.com/news/a",
       pstr "https://www.musicweek.com/news/b"] ∧
    (∀ urls' out',
      ([pstr "https://www.musicweek.com/news/b",
        pstr "https://www.musicweek.com/login/x",
        pstr "https://www.musicweek.com/news/a",
        pstr "https://other.com/news/z"] : List PyStr).Perm urls' →
      filter_candidate_urls (pstr "Music Week") urls' = .ok out' →
      out' = [pstr "https://www.musicweek.com/news/a",
              pstr "https://www.musicweek.com/news/b"]) :=
  C10_filter_candidates_sorted (pstr "Music Week")
    [pstr "https://www.musicweek.com/news/b",
     pstr "https://www.musicweek.com/login/x",
     pstr "https://www.musicweek.com/news/a",
     pstr "https://other.com/news/z"]
    [pstr "https://www.musicweek.com/news/a",
     pstr "https://www.musicweek.com/news/b"]
    (by decide)

/-- Every reason code produced by `is_article_page` differs from
`duplicate_url`. -/
theorem is_article_page_reason_ne_dup (md : Metadata) (src url : PyStr)
    (st : Int) (r : Bool × PyStr)
    (h : is_article_page md src url st = .ok r) : r.2 ≠ pstr "duplicate_url" := by
  unfold is_article_page at h
  simp only [bind, Except.bind, pure, Except.pure] at h
  repeat' split at h
  all_goals first
    | (cases h; decide)
    | exact Except.noConfusion h

/-- Characterization of one `mwStep`: the url canonicalizes; either it is a
duplicate (only the `duplicate_url` counter moves) or it is fresh (seen-set
and fetch log gain exactly that canonical url, at most one article with that
url is added, and the `duplicate_url` count is unchanged). -/
theorem mwStep_spec (fetchO : PyStr → Option FetchResultM) (mdO : PyStr → Metadata)
    (dateIso : Int → PyStr) (cutoff : Int) (s s' : RunState) (u : PyStr)
    (h : mwStep fetchO mdO dateIso cutoff s u = .ok s') :
    ∃ cu, canonicalize_url u = .ok cu ∧
      ((cu ∈ s.seen ∧
        s' = { s with skippedLog := s.skippedLog ++ [pstr "duplicate_url"] }) ∨
       (cu ∉ s.seen ∧ s'.seen = s.seen ++ [cu] ∧ s'.fetchLog = s.fetchLog ++ [cu] ∧
        s'.articles = s.articles ++ (s'.articles.drop s.articles.length) ∧
        (∀ a ∈ s'.articles.drop s.articles.length, a.url = cu) ∧
        (s'.articles.drop s.articles.length).length ≤ 1 ∧
        s'.skippedLog.count (pstr "duplicate_url") =
          s.skippedLog.count (pstr "duplicate_url"))) := by
  unfold mwStep at h
  cases hcu : canonicalize_url u with
  | error e =>
    rw [hcu] at h
    exact absurd h (by simp [bind, Except.bind])
  | ok cu =>
    rw [hcu] at h
    simp only [bind, Except.bind] at h
    refine ⟨cu, rfl, ?_⟩
    by_cases hseen : cu ∈ s.seen
    · left
      refine ⟨hseen, ?_⟩
      simp only [if_pos hseen, pure, Except.pure] at h
      exact (Except.ok.inj h).symm
    · right
      simp only [if_neg hseen] at h
      refine ⟨hseen, ?_⟩
      cases hf : fetchO cu with
      | none =>
        rw [hf] at h
        simp only [pure, Except.pure] at h
        have hs' := (Except.ok.inj h).symm
        subst hs'
        refine ⟨rfl, rfl, by simp, by simp, by simp, ?_⟩
        simp [List.count_append]
        decide
      | some res =>
        rw [hf] at h
        simp only [bind, Except.bind] at h
        cases hcls : is_article_page (mdO res.text) (pstr "Music Week") cu
            res.status_code with
        | error e =>
          rw [hcls] at h
          exact Except.noConfusion h
        | ok r =>
          rw [hcls] at h
          have hr2 := is_article_page_reason_ne_dup _ _ _ _ _ hcls
          by_cases hb : (!r.1) = true
          · simp only [if_pos hb, pure, Except.pure] at h
            have hs' := (Except.ok.inj h).symm
            subst hs'
            refine ⟨rfl, rfl, by simp, by simp, by simp, ?_⟩
            simp [List.count_append]
            simpa using List.count_eq_zero.mpr (by
              intro hmem
              exact hr2 (List.mem_singleton.mp hmem).symm)
          · simp only [if_neg hb] at h
            cases hdt : (mdO res.text).published_dt with
            | some t =>
              rw [hdt] at h
              by_cases ht : t < cutoff
              · simp only [if_pos ht, pure, Except.pure] at h
                have hs' := (Except.ok.inj h).symm
                subst hs'
                refine ⟨rfl, rfl, by simp, by simp, by simp, ?_⟩
                simp [List.count_append]
                decide
              · simp only [if_neg ht, pure, Except.pure] at h
                have hs' := (Except.ok.inj h).symm
                subst hs'
                refine ⟨rfl, rfl, by simp, ?_, ?_, by simp⟩
                · intro a ha
                  simp at ha
                  rw [ha]
                · simp
            | none =>
              rw [hdt] at h
              simp only [pure, Except.pure] at h
              have hs' := (Except.ok.inj h).symm
              subst hs'
              refine ⟨rfl, rfl, by simp, ?_, ?_, by simp⟩
              · intro a ha
                simp at ha
                rw [ha]
              · simp

/-- Run-level invariants of the Music Week candidate loop, by induction over
the candidate list. -/
theorem mwRun_invariants (fetchO : PyStr → Option FetchResultM)
    (mdO : PyStr → Metadata) (dateIso : Int → PyStr) (cutoff : Int) :
    ∀ (urls : List PyStr) (s sf : RunState),
    mwRun fetchO mdO dateIso cutoff urls s = .ok sf →
    s.fetchLog = s.seen → s.seen.Nodup →
    (s.articles.map (fun a => a.url)).Nodup →
    (∀ a ∈ s.articles, a.url ∈ s.seen) →
    (sf.fetchLog = sf.seen ∧ sf.seen.Nodup ∧
     (sf.articles.map (fun a => a.url)).Nodup ∧
     (∀ a ∈ sf.articles, a.url ∈ sf.seen) ∧
     (∀ x ∈ s.seen, x ∈ sf.seen) ∧
     (∀ u ∈ urls, ∀ cu, canonicalize_url u = .ok cu → cu ∈ sf.seen) ∧
     sf.skippedLog.count (pstr "duplicate_url") + sf.fetchLog.length =
       s.skippedLog.count (pstr "duplicate_url") + s.fetchLog.length + urls.length) := by
  intro urls
  induction urls with
  | nil =>
    intro s sf h h1 h2 h3 h4
    have hs : s = sf := by
      simpa [mwRun, pure, Except.pure] using h
    subst hs
    exact ⟨h1, h2, h3, h4, fun x hx => hx, by simp, by simp⟩
  | cons u t ih =>
    intro s sf h h1 h2 h3 h4
    unfold mwRun at h
    rw [List.foldlM_cons] at h
    cases hstep : mwStep fetchO mdO dateIso cutoff s u with
    | error e =>
      rw [hstep] at h
      exact absurd h (by simp [bind, Except.bind])
    | ok s1 =>
      rw [hstep] at h
      simp only [bind, Except.bind] at h
      have hrun : mwRun fetchO mdO dateIso cutoff t s1 = .ok sf := h
      obtain ⟨cu, hcu, hcase⟩ :=
        mwStep_spec fetchO mdO dateIso cutoff s s1 u hstep
      rcases hcase with ⟨hin, rfl⟩ |
        ⟨hnotin, hseen', hflog', harts', hartcu, hlen1, hcount⟩
      · obtain ⟨i1, i2, i3, i4, i5, i6, i7⟩ :=
          ih _ sf hrun (by simpa using h1) (by simpa using h2)
            (by simpa using h3) (by simpa using h4)
        refine ⟨i1, i2, i3, i4, fun x hx => i5 x (by simpa using hx), ?_, ?_⟩
        · intro v hv cv hcv
          rcases List.mem_cons.mp hv with rfl | hv2
          · have : cu = cv := by
              rw [hcu] at hcv
              exact Except.ok.inj hcv
            exact this ▸ i5 cu (by simpa using hin)
          · exact i6 v hv2 cv hcv
        · have hc1 : (s.skippedLog ++ [pstr "duplicate_url"]).count
              (pstr "duplicate_url") = s.skippedLog.count (pstr "duplicate_url") + 1 := by
            simp [List.count_append]
          simp only [List.length_cons]
          simp only [hc1] at i7
          omega
      · have j1 : s1.fetchLog = s1.seen := by rw [hflog', hseen', h1]
        have j2 : s1.seen.Nodup := by
          rw [hseen']
          simp [List.nodup_append, h2, hnotin]
        have j3 : (s1.articles.map (fun a => a.url)).Nodup := by
          rw [harts']
          rw [List.map_append]
          rw [List.nodup_append]
          refine ⟨h3, ?_, ?_⟩
          · cases hl : s1.articles.drop s.articles.length with
            | nil => simp
            | cons a t2 =>
              cases t2 with
              | nil => simp
              | cons b t3 =>
                rw [hl] at hlen1
                simp at hlen1
          · intro x hx hy
            obtain ⟨ax, haxm, haxu⟩ := List.mem_map.mp hx
            obtain ⟨ay, haym, hayu⟩ := List.mem_map.mp hy
            have hxcu : x = cu := by rw [← hayu, hartcu ay haym]
            exact hnotin (hxcu ▸ (haxu ▸ h4 ax haxm))
        have j4 : ∀ a ∈ s1.articles, a.url ∈ s1.seen := by
          intro a ha
          rw [harts'] at ha
          rcases List.mem_append.mp ha with ha2 | ha2
          · rw [hseen']
            exact List.mem_append_left _ (h4 a ha2)
          · rw [hseen', hartcu a ha2]
            exact List.mem_append_right _ (List.mem_singleton_self cu)
        obtain ⟨i1, i2, i3, i4, i5, i6, i7⟩ := ih _ sf hrun j1 j2 j3 j4
        refine ⟨i1, i2, i3, i4, ?_, ?_, ?_⟩
        · intro x hx
          exact i5 x (by rw [hseen']; exact List.mem_append_left _ hx)
        · intro v hv cv hcv
          rcases List.mem_cons.mp hv with rfl | hv2
          · have hcv2 : cu = cv := by
              rw [hcu] at hcv
              exact Except.ok.inj hcv
            refine hcv2 ▸ i5 cu ?_
            rw [hseen']
            exact List.mem_append_right _ (List.mem_singleton_self cu)
          · exact i6 v hv2 cv hcv
        · have hl : s1.fetchLog.length = s.fetchLog.length + 1 := by
            rw [hflog']
            simp
          simp only [List.length_cons]
          rw [hcount, hl] at i7
          omega

/-- An element of a duplicate-free byte-string list is counted exactly once. -/
theorem count_one_of_nodup_mem {a : PyStr} {l : List PyStr}
    (hnd : l.Nodup) (hm : a ∈ l) : l.count a = 1 := by
  induction l with
  | nil => cases hm
  | cons b t ih =>
    rw [List.count_cons]
    rcases List.mem_cons.mp hm with rfl | hm2
    · rw [List.count_eq_zero.mpr (List.nodup_cons.mp hnd).1]
      simp
    · have hne : a ≠ b := by
        rintro rfl
        exact (List.nodup_cons.mp hnd).1 hm2
      rw [ih (List.nodup_cons.mp hnd).2 hm2]
      simp [Ne.symm hne]

/-- C3: in a run of the Music Week candidate loop from the initial state, the
fetch log equals the seen-set and both are duplicate-free; every discovered
url's canonical form appears exactly once in the fetch log (one fetch per
canonical class, duplicates only increment the `duplicate_url` counter:
duplicate count plus fetches equals the number of candidates); at most one
article is retained per canonical url (the retained urls are duplicate-free);
and every retained article's canonical url appears exactly once in the
seen-set. -/
theorem C3_dedup_invariants (fetchO : PyStr → Option FetchResultM)
    (mdO : PyStr → Metadata) (dateIso : Int → PyStr) (cutoff : Int)
    (urls : List PyStr) (sf : RunState)
    (h : mwRun fetchO mdO dateIso cutoff urls initState = .ok sf) :
    sf.seen.Nodup ∧ sf.fetchLog = sf.seen ∧
    (∀ u ∈ urls, ∀ cu, canonicalize_url u = .ok cu → sf.fetchLog.count cu = 1) ∧
    sf.skippedLog.count (pstr "duplicate_url") + sf.fetchLog.length = urls.length ∧
    (sf.articles.map (fun a => a.url)).Nodup ∧
    (∀ a ∈ sf.articles, sf.seen.count a.url = 1) := by
  obtain ⟨i1, i2, i3, i4, i5, i6, i7⟩ :=
    mwRun_invariants fetchO mdO dateIso cutoff urls initState sf h rfl
      (by simp [initState]) (by simp [initState]) (by simp [initState])
  refine ⟨i2, i1, ?_, ?_, i3, ?_⟩
  · intro u hu cu hcu
    have hmem : cu ∈ sf.seen := i6 u hu cu hcu
    rw [i1]
    exact count_one_of_nodup_mem i2 hmem
  · simpa [initState] using i7
  · intro a ha
    exact count_one_of_nodup_mem i2 (i4 a ha)

/-- C3 witness: a concrete run over two urls that canonicalize identically
(differing by a trailing slash): one fetch, one duplicate count, one article. -/
theorem C3_dedup_invariants_witness :
    ([pstr "https://www.musicweek.com/news/a"] : List PyStr).Nodup ∧
    ([pstr "https://www.musicweek.com/news/a"] : List PyStr) =
      [pstr "https://www.musicweek.com/news/a"] ∧
    (∀ u ∈ [pstr "https://www.musicweek.com/news/a",
            pstr "https://www.musicweek.com/news/a/"], ∀ cu,
      canonicalize_url u = .ok cu →
      ([pstr "https://www.musicweek.com/news/a"] : List PyStr).count cu = 1) ∧
    ([pstr "duplicate_url"] : List PyStr).count (pstr "duplicate_url") +
      ([pstr "https://www.musicweek.com/news/a"] : List PyStr).length = 2 ∧
    (([{ source := pstr "Music Week"
         url := pstr "https://www.musicweek.com/news/a"
         title := pstr "T"
         date := isoO 1000
         date_missing := false
         excerpt_en := pstr "E."
         summary_en := build_summary_from_title_excerpt
           (pstr "T") (pstr "E.") 2 }] : List ParsedArticle).map
      (fun a => a.url)).Nodup ∧
    (∀ a ∈ ([{ source := pstr "Music Week"
               url := pstr "https://www.musicweek.com/news/a"
               title := pstr "T"
               date := isoO 1000
               date_missing := false
               excerpt_en := pstr "E."
               summary_en := build_summary_from_title_excerpt
                 (pstr "T") (pstr "E.") 2 }] : List ParsedArticle),
      ([pstr "https://www.musicweek.com/news/a"] : List PyStr).count a.url = 1) :=
  C3_dedup_invariants okFetchO datedMdO isoO 0
    [pstr "https://www.musicweek.com/news/a",
     pstr "https://www.musicweek.com/news/a/"]
    { seen := [pstr "https://www.musicweek.com/news/a"]
      skippedLog := [pstr "duplicate_url"]
      fetchLog := [pstr "https://www.musicweek.com/news/a"]
      fetchedPages := 1
      dateMissingCount := 0
      articles := [{ source := pstr "Music Week"
                     url := pstr "https://www.musicweek.com/news/a"
                     title := pstr "T"
                     date := isoO 1000
                     date_missing := false
                     excerpt_en := pstr "E."
                     summary_en := build_summary_from_title_excerpt
                       (pstr "T") (pstr "E.") 2 }] }
    (by decide)

/-- C8 counterexample: on the unparseable input `http://[` (unbalanced
bracket in the authority) `canonicalize_url` propagates the `ValueError`
raised by `urlparse` instead of returning the empty string. -/
theorem C8_counterexample :
    canonicalize_url (pstr "http://[") = .error () ∧
    canonicalize_url (pstr "http://[") ≠ .ok [] := by
  decide

/-- The reassembled url is nonempty whenever the scheme is nonempty. -/
theorem pyUrlunsplit_ne_nil (scheme netloc url query fragment : PyStr)
    (hs : scheme ≠ []) :
    pyUrlunsplit scheme netloc url query fragment ≠ [] := by
  unfold pyUrlunsplit
  intro heq
  split_ifs at heq <;> simp_all [List.append_eq_nil]

/-- The reassembled url of `urlunparse` is nonempty whenever the scheme is
nonempty. -/
theorem pyUrlunparse_ne_nil (scheme netloc url params query fragment : PyStr)
    (hs : scheme ≠ []) :
    pyUrlunparse scheme netloc url params query fragment ≠ [] := by
  unfold pyUrlunparse
  exact pyUrlunsplit_ne_nil _ _ _ _ _ hs

/-- C8 (amended): `canonicalize_url` returns the empty string exactly for the
empty input; every successful call on a nonempty input yields a nonempty
canonical url string, and unparseable inputs raise (they never return the
empty string). -/
theorem C8_empty_iff_empty :
    canonicalize_url [] = .ok [] ∧
    (∀ u v : PyStr, canonicalize_url u = .ok v → (v = [] ↔ u = [])) := by
  refine ⟨by decide, ?_⟩
  intro u v h
  constructor
  · intro hv
    subst hv
    by_contra hu
    cases u with
    | nil => exact hu rfl
    | cons c t =>
      simp only [canonicalize_url, List.isEmpty_cons, Bool.false_eq_true,
        if_false, bind, Except.bind] at h
      cases hp : pyUrlparse (pyStrip (c :: t)) with
      | error e =>
        rw [hp] at h
        exact Except.noConfusion h
      | ok parsed =>
        rw [hp] at h
        simp only [pure, Except.pure] at h
        have h2 := Except.ok.inj h
        have hsch : (if (pyLower parsed.scheme).isEmpty then pstr "https"
            else pyLower parsed.scheme) ≠ [] := by
          split_ifs with hcase
          · decide
          · simpa [List.isEmpty_iff] using hcase
        exact pyUrlunparse_ne_nil _ _ _ _ _ _ hsch h2
  · intro hu
    subst hu
    have h0 : canonicalize_url ([] : PyStr) = .ok [] := by decide
    rw [h0] at h
    exact (Except.ok.inj h).symm

/-- C8 witness: the amended theorem applied to a concrete nonempty input. -/
theorem C8_empty_iff_empty_witness :
    canonicalize_url (pstr "musicweek") = .ok (pstr "https:///musicweek") ∧
    ((pstr "https:///musicweek") = [] ↔ (pstr "musicweek") = []) :=
  ⟨by decide, C8_empty_iff_empty.2 (pstr "musicweek") (pstr "https:///musicweek")
    (by decide)⟩

/-! Toolkit for the canonicalizer theorems: split equations, quote/unquote
round trip, structural facts about `pyUrlsplit`. -/

/-- A successful `splitFirst` decomposes its input at the first separator. -/
theorem splitFirst_eq_some (d : Fin 256) : ∀ (s a b : PyStr),
    splitFirst d s = some (a, b) → s = a ++ d :: b ∧ d ∉ a := by
  intro s
  induction s with
  | nil => intro a b h; exact absurd h (by simp [splitFirst])
  | cons c t ih =>
    intro a b h
    by_cases hc : c = d
    · rw [splitFirst, if_pos hc] at h
      obtain ⟨rfl, rfl⟩ := Prod.mk.injEq .. ▸ Option.some.inj h
      simp [hc]
    · rw [splitFirst, if_neg hc] at h
      cases hsf : splitFirst d t with
      | none => rw [hsf] at h; exact absurd h (by simp)
      | some p =>
        rw [hsf] at h
        obtain ⟨a2, b2⟩ := p
        simp at h
        obtain ⟨ha, hb⟩ := h
        obtain ⟨ht, hnm⟩ := ih a2 b2 hsf
        subst hb
        refine ⟨?_, ?_⟩
        · rw [← ha, ht]; rfl
        · rw [← ha]
          intro hmem
          rcases List.mem_cons.mp hmem with h1 | h1
          · exact hc h1.symm
          · exact hnm h1

/-- A failed `splitFirst` means the separator is absent. -/
theorem splitFirst_eq_none (d : Fin 256) : ∀ s : PyStr,
    splitFirst d s = none → d ∉ s := by
  intro s
  induction s with
  | nil => intro _ h; exact List.not_mem_nil d h
  | cons c t ih =>
    intro h hmem
    by_cases hc : c = d
    · rw [splitFirst, if_pos hc] at h; exact Option.noConfusion h
    · rw [splitFirst, if_neg hc] at h
      cases hsf : splitFirst d t with
      | some p => rw [hsf] at h; exact Option.noConfusion h
      | none =>
        rcases List.mem_cons.mp hmem with h1 | h1
        · exact hc h1.symm
        · exact ih hsf h1

/-- `splitFirst` finds the separator placed after a separator-free prefix. -/
theorem splitFirst_append (d : Fin 256) : ∀ (x y : PyStr), d ∉ x →
    splitFirst d (x ++ d :: y) = some (x, y) := by
  intro x
  induction x with
  | nil => intro y _; simp [splitFirst]
  | cons c t ih =>
    intro y hnm
    have hc : ¬ (c = d) := fun hc =>
      hnm (hc ▸ List.mem_cons_self c t)
    rw [List.cons_append, splitFirst, if_neg hc,
      ih y (fun hm => hnm (List.mem_cons_of_mem c hm))]
    rfl

/-- `splitFirst` fails on separator-free strings. -/
theorem splitFirst_not_mem (d : Fin 256) : ∀ s : PyStr, d ∉ s →
    splitFirst d s = none := by
  intro s
  induction s with
  | nil => intro _; rfl
  | cons c t ih =>
    intro hnm
    have hc : ¬ (c = d) := fun hc => hnm (hc ▸ List.mem_cons_self c t)
    rw [splitFirst, if_neg hc, ih (fun hm => hnm (List.mem_cons_of_mem c hm))]
    rfl

/-- `splitAllOn` never returns the empty list of parts. -/
theorem splitAllOn_ne_nil (d : Fin 256) : ∀ s : PyStr, splitAllOn d s ≠ [] := by
  intro s
  cases s with
  | nil => simp [splitAllOn]
  | cons c t =>
    rw [splitAllOn]
    cases splitAllOn d t with
    | nil => simp
    | cons h r => split_ifs <;> simp

/-- `splitAllOn` on a non-separator head prepends to the first part. -/
theorem splitAllOn_cons_ne (d c : Fin 256) (hc : ¬ (c = d)) (s : PyStr) :
    splitAllOn d (c :: s) =
      (c :: (splitAllOn d s).headD []) :: (splitAllOn d s).tail := by
  rw [splitAllOn]
  cases hs : splitAllOn d s with
  | nil => exact absurd hs (splitAllOn_ne_nil d s)
  | cons h r => simp [hc]

/-- `splitAllOn` on a separator head starts a fresh empty part. -/
theorem splitAllOn_cons_eq (d : Fin 256) (s : PyStr) :
    splitAllOn d (d :: s) = [] :: splitAllOn d s := by
  rw [splitAllOn]
  cases hs : splitAllOn d s with
  | nil => exact absurd hs (splitAllOn_ne_nil d s)
  | cons h r => simp

/-- `splitAllOn` around a separator after a separator-free prefix. -/
theorem splitAllOn_append (d : Fin 256) : ∀ (x y : PyStr), d ∉ x →
    splitAllOn d (x ++ d :: y) = x :: splitAllOn d y := by
  intro x
  induction x with
  | nil => intro y _; simpa using splitAllOn_cons_eq d y
  | cons c t ih =>
    intro y hnm
    have hc : ¬ (c = d) := fun hc => hnm (hc ▸ List.mem_cons_self c t)
    rw [List.cons_append,
      splitAllOn_cons_ne d c hc (t ++ d :: y),
      ih y (fun hm => hnm (List.mem_cons_of_mem c hm))]
    simp

/-- `splitAllOn` of a separator-free string is one part. -/
theorem splitAllOn_not_mem (d : Fin 256) : ∀ s : PyStr, d ∉ s →
    splitAllOn d s = [s] := by
  intro s
  induction s with
  | nil => intro _; rfl
  | cons c t ih =>
    intro hnm
    have hc : ¬ (c = d) := fun hc => hnm (hc ▸ List.mem_cons_self c t)
    rw [splitAllOn_cons_ne d c hc t, ih (fun hm => hnm (List.mem_cons_of_mem c hm))]
    simp

/-- Scanner equation of `pyUnquote` at a non-percent byte. -/
theorem pyUnquote_cons_ne (c : Fin 256) (hc : ¬ (c = 37)) (s : PyStr) :
    pyUnquote (c :: s) = c :: pyUnquote s := by
  rw [pyUnquote, pyUnquote, splitAllOn_cons_ne 37 c hc s]
  cases hs : splitAllOn 37 s with
  | nil => exact absurd hs (splitAllOn_ne_nil 37 s)
  | cons h r => simp

/-- Scanner equation of `pyUnquote` at a valid percent escape. -/
theorem pyUnquote_escape (h1 h2 : Fin 256)
    (hx1 : isHexB h1 = true) (hx2 : isHexB h2 = true) (s : PyStr) :
    pyUnquote (37 :: h1 :: h2 :: s) = hexByte h1 h2 :: pyUnquote s := by
  have hh1 : ¬ (h1 = 37) := by
    intro h; rw [h] at hx1; exact absurd hx1 (by decide)
  have hh2 : ¬ (h2 = 37) := by
    intro h; rw [h] at hx2; exact absurd hx2 (by decide)
  rw [pyUnquote, pyUnquote, splitAllOn_cons_eq 37,
    splitAllOn_cons_ne 37 h1 hh1, splitAllOn_cons_ne 37 h2 hh2]
  cases hs : splitAllOn 37 s with
  | nil => exact absurd hs (splitAllOn_ne_nil 37 s)
  | cons h r => simp [hx1, hx2]

/-- Percent-encoding then decoding one byte recovers it. -/
theorem hexByte_roundtrip : ∀ c : Fin 256,
    hexByte (hexDigitChar (c.val / 16)) (hexDigitChar (c.val % 16)) = c := by
  decide

/-- The hex digits emitted by `quoteByte` are hex digits. -/
theorem hexDigitChar_isHex : ∀ c : Fin 256,
    isHexB (hexDigitChar (c.val / 16)) = true ∧
    isHexB (hexDigitChar (c.val % 16)) = true := by
  decide

/-- Per-byte shape of `pyQuotePlus` output after the `+` to space map of
`parse_qsl`. -/
theorem quote_chunk_plusmap : ∀ c : Fin 256,
    (if c.val = 32 then ([43] : PyStr) else if isSafeB c then [c]
      else quoteByte c).map (fun b => if b.val = 43 then (32 : Fin 256) else b) =
    (if c.val = 32 then [32] else if isSafeB c then [c] else quoteByte c) := by
  decide

/-- Decoding the raw per-byte chunks recovers the input. -/
theorem pyUnquote_rawChunks : ∀ x : PyStr,
    pyUnquote (x.flatMap fun c =>
      if c.val = 32 then ([32] : PyStr) else if isSafeB c then [c]
      else quoteByte c) = x := by
  intro x
  induction x with
  | nil => rfl
  | cons c t ih =>
    rw [List.flatMap_cons]
    by_cases h32 : c.val = 32
    · have hc : c = (32 : Fin 256) := Fin.ext h32
      rw [if_pos h32, List.cons_append, List.nil_append,
        pyUnquote_cons_ne 32 (by decide) _, ih, ← hc]
    · rw [if_neg h32]
      by_cases hsafe : isSafeB c = true
      · have hc37 : ¬ (c = 37) := by
          intro h; rw [h] at hsafe; exact absurd hsafe (by decide)
        rw [if_pos hsafe, List.cons_append, List.nil_append,
          pyUnquote_cons_ne c hc37 _, ih]
      · rw [if_neg hsafe, quoteByte, List.cons_append, List.cons_append,
          List.cons_append, List.nil_append]
        rw [pyUnquote_escape _ _ (hexDigitChar_isHex c).1 (hexDigitChar_isHex c).2,
          ih, hexByte_roundtrip]

/-- Round trip of the `parse_qsl` field decoder over the `urlencode` field
encoder. -/
theorem unquotePlus_quotePlus (x : PyStr) : pyUnquotePlus (pyQuotePlus x) = x := by
  rw [pyUnquotePlus, pyQuotePlus, List.map_flatMap]
  have : ∀ c : Fin 256, ((if c.val = 32 then ([43] : PyStr) else if isSafeB c
      then [c] else quoteByte c).map
        (fun b => if b.val = 43 then (32 : Fin 256) else b)) =
      (if c.val = 32 then ([32] : PyStr) else if isSafeB c then [c]
        else quoteByte c) := quote_chunk_plusmap
  rw [funext this]
  exact pyUnquote_rawChunks x

/-- Character classes appearing in `pyQuotePlus` output. -/
theorem quotePlus_chars (x : PyStr) : ∀ c ∈ pyQuotePlus x,
    isSafeB c = true ∨ c.val = 43 ∨ c.val = 37 ∨ isHexB c = true := by
  intro c hc
  rw [pyQuotePlus] at hc
  obtain ⟨b, _, hcc⟩ := List.mem_flatMap.mp hc
  by_cases h32 : b.val = 32
  · rw [if_pos h32] at hcc
    rcases List.mem_singleton.mp hcc with rfl
    right; left; rfl
  · rw [if_neg h32] at hcc
    by_cases hsafe : isSafeB b = true
    · rw [if_pos hsafe] at hcc
      rcases List.mem_singleton.mp hcc with rfl
      left; exact hsafe
    · rw [if_neg hsafe, quoteByte] at hcc
      simp only [List.mem_cons, List.not_mem_nil, or_false] at hcc
      rcases hcc with rfl | rfl | rfl
      · right; right; left; rfl
      · right; right; right; exact (hexDigitChar_isHex b).1
      · right; right; right; exact (hexDigitChar_isHex b).2

/-- The ampersand separator never occurs inside `pyQuotePlus` output. -/
theorem quotePlus_not_amp (x : PyStr) : (38 : Fin 256) ∉ pyQuotePlus x := by
  intro hmem
  rcases quotePlus_chars x 38 hmem with h | h | h | h <;> revert h <;> decide

/-- The equals separator never occurs inside `pyQuotePlus` output. -/
theorem quotePlus_not_eq (x : PyStr) : (61 : Fin 256) ∉ pyQuotePlus x := by
  intro hmem
  rcases quotePlus_chars x 61 hmem with h | h | h | h <;> revert h <;> decide

/-- One encoded `k=v` field of `urlencode`. -/
theorem urlencodePairs_cons (k v : PyStr) (t : List (PyStr × PyStr)) :
    urlencodePairs ((k, v) :: t) =
      (pyQuotePlus k ++ 61 :: pyQuotePlus v) ++
        (if t = [] then [] else 38 :: urlencodePairs t) := by
  cases t with
  | nil => simp [urlencodePairs, List.intercalate, List.intersperse]
  | cons q t2 =>
    obtain ⟨k2, v2⟩ := q
    simp [urlencodePairs, List.intercalate, List.intersperse]

/-- An encoded field is nonempty (it contains its `=`). -/
theorem urlencodeField_ne_nil (k v : PyStr) :
    pyQuotePlus k ++ 61 :: pyQuotePlus v ≠ [] := by
  simp

/-- No ampersand occurs inside one encoded field. -/
theorem urlencodeField_not_amp (k v : PyStr) :
    (38 : Fin 256) ∉ pyQuotePlus k ++ 61 :: pyQuotePlus v := by
  intro hmem
  rcases List.mem_append.mp hmem with h | h
  · exact quotePlus_not_amp k h
  · rcases List.mem_cons.mp h with h2 | h2
    · exact absurd h2 (by decide)
    · exact quotePlus_not_amp v h2

/-- `parse_qsl` distributes over one ampersand between nonempty fields. -/
theorem parseQsl_append (field rest : PyStr) (hfamp : (38 : Fin 256) ∉ field)
    (hrne : rest ≠ []) :
    parseQsl (field ++ 38 :: rest) = parseQsl field ++ parseQsl rest := by
  have h1 : (field ++ 38 :: rest).isEmpty = false := by simp
  have h2 : (rest).isEmpty = false := by simpa [List.isEmpty_iff] using hrne
  rw [parseQsl, parseQsl, parseQsl, h1, h2]
  simp only [Bool.false_eq_true, if_false]
  rw [splitAllOn_append 38 _ _ hfamp,
    show field :: splitAllOn 38 rest = [field] ++ splitAllOn 38 rest from rfl,
    List.filterMap_append]
  by_cases hfe : field.isEmpty = true
  · have : field = [] := by simpa [List.isEmpty_iff] using hfe
    subst this
    simp
  · rw [eq_comm] at hfe
    rw [show (field.isEmpty) = false from by simpa using (Ne.symm hfe)]
    simp only [Bool.false_eq_true, if_false]
    rw [splitAllOn_not_mem 38 _ hfamp]

/-- `parse_qsl` decodes one encoded field. -/
theorem parseQsl_field (k v : PyStr) :
    parseQsl (pyQuotePlus k ++ 61 :: pyQuotePlus v) = [(k, v)] := by
  have hfe : (pyQuotePlus k ++ 61 :: pyQuotePlus v).isEmpty = false := by simp
  have hsf : splitFirst 61 (pyQuotePlus k ++ 61 :: pyQuotePlus v) =
      some (pyQuotePlus k, pyQuotePlus v) :=
    splitFirst_append 61 _ _ (quotePlus_not_eq k)
  rw [parseQsl, hfe]
  simp only [Bool.false_eq_true, if_false]
  rw [splitAllOn_not_mem 38 _ (urlencodeField_not_amp k v)]
  simp [hfe, hsf, unquotePlus_quotePlus]

/-- Round trip: `parse_qsl` over `urlencode` is the identity on pair lists. -/
theorem parseQsl_urlencode : ∀ L : List (PyStr × PyStr),
    parseQsl (urlencodePairs L) = L := by
  intro L
  induction L with
  | nil => rfl
  | cons kv t ih =>
    obtain ⟨k, v⟩ := kv
    rw [urlencodePairs_cons]
    by_cases ht : t = []
    · subst ht
      rw [if_pos rfl, List.append_nil, parseQsl_field]
    · rw [if_neg ht]
      have hrest : urlencodePairs t ≠ [] := by
        cases t with
        | nil => exact absurd rfl ht
        | cons q t2 =>
          obtain ⟨k2, v2⟩ := q
          rw [urlencodePairs_cons]
          simp
      rw [parseQsl_append _ _ (urlencodeField_not_amp k v) hrest,
        parseQsl_field, ih]
      rfl

/-- The tail stage of `urlsplit` is the composition of the fragment and
query splits. -/
theorem urlsplitTail_eq (sch nl u4 : PyStr) :
    urlsplitTail sch nl u4 =
      .ok ⟨sch, nl, (querySplit (fragSplit u4).1).1, (querySplit (fragSplit u4).1).2,
           (fragSplit u4).2⟩ := by
  unfold urlsplitTail fragSplit querySplit
  cases h35 : splitFirst 35 u4 with
  | none =>
    cases h63 : splitFirst 63 u4 with
    | none => simp [h63, pure, Except.pure]
    | some q => obtain ⟨x, y⟩ := q; simp [h63, pure, Except.pure]
  | some p =>
    obtain ⟨a, f⟩ := p
    cases h63 : splitFirst 63 a with
    | none => simp [h63, pure, Except.pure]
    | some q => obtain ⟨x, y⟩ := q; simp [h63, pure, Except.pure]

/-- The netloc stage of `urlsplit` is `netlocSplit` guarded by `netlocOk`. -/
theorem urlsplitNetloc_eq (sch u3 : PyStr) :
    urlsplitNetloc sch u3 =
      (if netlocOk (netlocSplit u3).1 then
        urlsplitTail sch (netlocSplit u3).1 (netlocSplit u3).2
      else .error ()) := by
  unfold urlsplitNetloc netlocSplit netlocOk bracketedOf
  by_cases h2 : u3.take 2 = [47, 47]
  · simp only [if_pos h2]
    by_cases hb1 : ((((u3.drop 2).takeWhile notNetlocDelim).contains 91 &&
        !((u3.drop 2).takeWhile notNetlocDelim).contains 93) ||
        (((u3.drop 2).takeWhile notNetlocDelim).contains 93 &&
        !((u3.drop 2).takeWhile notNetlocDelim).contains 91)) = true
    · rw [if_pos hb1, hb1]
      rfl
    · rw [if_neg hb1, Bool.eq_false_iff.mpr hb1]
      by_cases hb2 : (((u3.drop 2).takeWhile notNetlocDelim).contains 91 &&
          ((u3.drop 2).takeWhile notNetlocDelim).contains 93) = true
      · by_cases hb3 : checkBracketedHost (((((u3.drop 2).takeWhile
            notNetlocDelim).dropWhile (fun c => !(c = 91))).drop 1).takeWhile
            (fun c => !(c = 93))) = true
        · rw [if_pos hb2, if_neg (by simp only [hb3]; decide), hb2, hb3]
          rfl
        · rw [if_pos hb2, if_pos (by simp only [Bool.eq_false_iff.mpr hb3]; decide), hb2,
            Bool.eq_false_iff.mpr hb3]
          rfl
      · rw [if_neg hb2, Bool.eq_false_iff.mpr hb2]
        rfl
  · simp only [if_neg h2]
    all_goals rfl

/-- `pyUrlsplit` agrees with `urlsplitFrom` on the cleaned string. -/
theorem pyUrlsplit_eq_from (w : PyStr) :
    pyUrlsplit w = urlsplitFrom (cleanUrl w) := by
  simp only [pyUrlsplit, urlsplitFrom, cleanUrl]
  cases hsp : splitFirst 58 ((w.dropWhile (fun c => c.val ≤ 32)).filter
      (fun c => !(c.val = 9 || c.val = 13 || c.val = 10))) with
  | none => rfl
  | some p =>
    obtain ⟨pre, rest⟩ := p
    by_cases hc : (!pre.isEmpty && (pre.take 1).all isAlphaB && pre.all isSchemeCharB) = true
    · simp only [if_pos hc]
      all_goals rfl
    · simp only [if_neg hc]
      all_goals rfl

/-- `pyUrlsplit` as a composition of its total stages plus one validity
test. -/
theorem pyUrlsplit_eq (w : PyStr) :
    pyUrlsplit w =
      (if netlocOk (netlocSplit (schemeSplit (cleanUrl w)).2).1 then
        .ok ⟨(schemeSplit (cleanUrl w)).1,
             (netlocSplit (schemeSplit (cleanUrl w)).2).1,
             (querySplit (fragSplit (netlocSplit (schemeSplit (cleanUrl w)).2).2).1).1,
             (querySplit (fragSplit (netlocSplit (schemeSplit (cleanUrl w)).2).2).1).2,
             (fragSplit (netlocSplit (schemeSplit (cleanUrl w)).2).2).2⟩
      else .error ()) := by
  rw [pyUrlsplit_eq_from]
  have hs : urlsplitFrom (cleanUrl w) =
      urlsplitNetloc (schemeSplit (cleanUrl w)).1 (schemeSplit (cleanUrl w)).2 := by
    unfold urlsplitFrom schemeSplit
    cases hsp : splitFirst 58 (cleanUrl w) with
    | none => rfl
    | some p =>
      obtain ⟨pre, rest⟩ := p
      by_cases hc : (!pre.isEmpty && (pre.take 1).all isAlphaB && pre.all isSchemeCharB) = true
      · simp only [if_pos hc]
      · simp only [if_neg hc]
  rw [hs, urlsplitNetloc_eq]
  by_cases h : netlocOk (netlocSplit (schemeSplit (cleanUrl w)).2).1 = true
  · rw [if_pos h, if_pos h, urlsplitTail_eq]
  · rw [if_neg h, if_neg h]

/-! Toolkit: commutation of ASCII lowercase folding with the string
primitives, used for the reparse stability of `canonicalize_url`. -/

/-- ASCII lowering of one byte is idempotent. -/
theorem lowerChar_idem : ∀ c : Fin 256, lowerChar (lowerChar c) = lowerChar c := by decide

/-- `str.lower` is idempotent. -/
theorem pyLower_idem (s : PyStr) : pyLower (pyLower s) = pyLower s := by
  unfold pyLower
  rw [List.map_map]
  exact List.map_congr_left fun c _ => lowerChar_idem c

/-- `str.lower` distributes over concatenation. -/
theorem pyLower_append (a b : PyStr) : pyLower (a ++ b) = pyLower a ++ pyLower b := by
  unfold pyLower
  exact List.map_append lowerChar a b

/-- A non-letter byte is hit by `lowerChar` only from itself. -/
theorem lowerChar_fix {d : Fin 256} (hd : isAlphaB d = false) :
    ∀ c : Fin 256, lowerChar c = d ↔ c = d := by
  intro c
  have hd' : ¬((65 ≤ d.val ∧ d.val ≤ 90) ∨ (97 ≤ d.val ∧ d.val ≤ 122)) := by
    intro hcon
    rw [show isAlphaB d = ((65 ≤ d.val && d.val ≤ 90) || (97 ≤ d.val && d.val ≤ 122))
      from rfl] at hd
    rcases hcon with ⟨h1, h2⟩ | ⟨h1, h2⟩ <;> simp [h1, h2] at hd
  unfold lowerChar
  split_ifs with h
  · constructor
    · intro he
      exfalso
      apply hd'
      have hv : d.val = c.val + 32 := by rw [← he]
      exact Or.inr ⟨by omega, by omega⟩
    · intro he
      subst he
      exact absurd (Or.inl h) hd'
  · exact Iff.rfl

/-- Hex-digit-ness is invariant under lowering. -/
theorem isHexB_lower : ∀ c : Fin 256, isHexB (lowerChar c) = isHexB c := by decide

/-- Digit-ness is invariant under lowering. -/
theorem isDigitB_lower : ∀ c : Fin 256, isDigitB (lowerChar c) = isDigitB c := by decide

/-- Letter-ness is invariant under lowering. -/
theorem isAlphaB_lower : ∀ c : Fin 256, isAlphaB (lowerChar c) = isAlphaB c := by decide

/-- Scheme-character-ness is invariant under lowering. -/
theorem isSchemeCharB_lower : ∀ c : Fin 256,
    isSchemeCharB (lowerChar c) = isSchemeCharB c := by decide

/-- Being a netloc non-delimiter is invariant under lowering. -/
theorem notNetlocDelim_lower : ∀ c : Fin 256,
    notNetlocDelim (lowerChar c) = notNetlocDelim c := by decide

/-- Lowering preserves `goodChar`. -/
theorem goodChar_lower : ∀ c : Fin 256, goodChar c = true → goodChar (lowerChar c) = true := by
  decide

/-- Lowering fixes decimal digits. -/
theorem lowerChar_digit_id : ∀ c : Fin 256, isDigitB c = true → lowerChar c = c := by decide

/-- Lowering preserves emptiness. -/
theorem isEmpty_pyLower (s : PyStr) : (pyLower s).isEmpty = s.isEmpty := by
  cases s <;> rfl

/-- Lowering preserves length. -/
theorem length_pyLower (s : PyStr) : (pyLower s).length = s.length :=
  List.length_map s lowerChar

/-- `takeWhile` commutes with lowering for an invariant predicate. -/
theorem takeWhile_pyLower (p : Fin 256 → Bool) (hp : ∀ c, p (lowerChar c) = p c) (s : PyStr) :
    (pyLower s).takeWhile p = pyLower (s.takeWhile p) := by
  unfold pyLower
  rw [List.takeWhile_map, show (p ∘ lowerChar) = p from funext hp]

/-- `dropWhile` commutes with lowering for an invariant predicate. -/
theorem dropWhile_pyLower (p : Fin 256 → Bool) (hp : ∀ c, p (lowerChar c) = p c) (s : PyStr) :
    (pyLower s).dropWhile p = pyLower (s.dropWhile p) := by
  unfold pyLower
  rw [List.dropWhile_map, show (p ∘ lowerChar) = p from funext hp]

/-- `drop` commutes with lowering. -/
theorem drop_pyLower (n : Nat) (s : PyStr) : (pyLower s).drop n = pyLower (s.drop n) := by
  unfold pyLower
  rw [List.map_drop]

/-- `take` commutes with lowering. -/
theorem take_pyLower (n : Nat) (s : PyStr) : (pyLower s).take n = pyLower (s.take n) := by
  unfold pyLower
  rw [List.map_take]

/-- `all` is invariant under lowering for an invariant predicate. -/
theorem all_pyLower (p : Fin 256 → Bool) (hp : ∀ c, p (lowerChar c) = p c) (s : PyStr) :
    (pyLower s).all p = s.all p := by
  unfold pyLower
  rw [List.all_map, show (p ∘ lowerChar) = p from funext hp]

/-- Membership of a non-letter byte is invariant under lowering. -/
theorem mem_pyLower_fix {d : Fin 256} (hd : isAlphaB d = false) (s : PyStr) :
    d ∈ pyLower s ↔ d ∈ s := by
  unfold pyLower
  rw [List.mem_map]
  constructor
  · rintro ⟨a, ha, hla⟩
    rwa [(lowerChar_fix hd a).mp hla] at ha
  · intro hm
    exact ⟨d, hm, (lowerChar_fix hd d).mpr rfl⟩

/-- `contains` of a non-letter byte is invariant under lowering. -/
theorem contains_pyLower_fix {d : Fin 256} (hd : isAlphaB d = false) (s : PyStr) :
    (pyLower s).contains d = s.contains d := by
  rw [Bool.eq_iff_iff, List.elem_iff, List.elem_iff]
  exact mem_pyLower_fix hd s

/-- `splitFirst` commutes with lowering when the delimiter is a non-letter. -/
theorem splitFirst_pyLower {d : Fin 256} (hd : isAlphaB d = false) :
    ∀ s : PyStr, splitFirst d (pyLower s) =
      (splitFirst d s).map fun p => (pyLower p.1, pyLower p.2) := by
  intro s
  induction s with
  | nil => rfl
  | cons c t ih =>
    show splitFirst d (lowerChar c :: pyLower t) = _
    by_cases hc : c = d
    · subst hc
      rw [(lowerChar_fix hd c).mpr rfl]
      rw [splitFirst, splitFirst]
      simp [pyLower]
    · have hlc : ¬(lowerChar c = d) := fun h => hc ((lowerChar_fix hd c).mp h)
      rw [splitFirst, if_neg hlc, ih, splitFirst, if_neg hc]
      cases hsf : splitFirst d t with
      | none => rfl
      | some p => rfl

/-- `splitAllOn` commutes with lowering when the delimiter is a non-letter. -/
theorem splitAllOn_pyLower {d : Fin 256} (hd : isAlphaB d = false) :
    ∀ s : PyStr, splitAllOn d (pyLower s) = (splitAllOn d s).map pyLower := by
  intro s
  induction s with
  | nil => rfl
  | cons c t ih =>
    show splitAllOn d (lowerChar c :: pyLower t) = _
    by_cases hc : c = d
    · subst hc
      rw [(lowerChar_fix hd c).mpr rfl, splitAllOn_cons_eq, splitAllOn_cons_eq, ih]
      rfl
    · have hlc : ¬(lowerChar c = d) := fun h => hc ((lowerChar_fix hd c).mp h)
      rw [splitAllOn_cons_ne d _ hlc, splitAllOn_cons_ne d _ hc, ih]
      cases hs : splitAllOn d t with
      | nil => exact absurd hs (splitAllOn_ne_nil d t)
      | cons h r => rfl

/-- Lowering fixes an all-digit string. -/
theorem pyLower_digits (s : PyStr) (h : s.all isDigitB = true) : pyLower s = s := by
  induction s with
  | nil => rfl
  | cons c t ih =>
    rw [List.all_cons, Bool.and_eq_true] at h
    show lowerChar c :: pyLower t = c :: t
    rw [lowerChar_digit_id c h.1, ih h.2]

/-- `all isDigitB` is invariant under lowering. -/
theorem all_digit_lower (s : PyStr) : (pyLower s).all isDigitB = s.all isDigitB :=
  all_pyLower isDigitB isDigitB_lower s

/-- One dotted-quad octet check is invariant under lowering. -/
theorem ipv4Part_lower (p : PyStr) :
    (!(pyLower p).isEmpty && (pyLower p).all isDigitB && decide ((pyLower p).length ≤ 3) &&
      ((pyLower p).length == 1 || (pyLower p).take 1 != [48]) &&
      decide (natOfDigits (pyLower p) ≤ 255)) =
    (!p.isEmpty && p.all isDigitB && decide (p.length ≤ 3) &&
      (p.length == 1 || p.take 1 != [48]) && decide (natOfDigits p ≤ 255)) := by
  by_cases hd : p.all isDigitB = true
  · rw [pyLower_digits p hd]
  · rw [all_digit_lower, Bool.eq_false_iff.mpr hd]
    simp

/-- `IPv4Address` acceptance is invariant under lowering. -/
theorem isIPv4B_lower (h : PyStr) : isIPv4B (pyLower h) = isIPv4B h := by
  simp only [isIPv4B]
  rw [splitAllOn_pyLower (by decide) h, List.length_map, List.all_map]
  congr 1
  rw [show ((fun p : PyStr => !p.isEmpty && p.all isDigitB && decide (p.length ≤ 3) &&
      (p.length == 1 || p.take 1 != [48]) && decide (natOfDigits p ≤ 255)) ∘ pyLower) =
    (fun p : PyStr => !p.isEmpty && p.all isDigitB && decide (p.length ≤ 3) &&
      (p.length == 1 || p.take 1 != [48]) && decide (natOfDigits p ≤ 255))
    from funext ipv4Part_lower]

/-- Hextet acceptance is invariant under lowering. -/
theorem isHextet_lower (p : PyStr) : isHextet (pyLower p) = isHextet p := by
  unfold isHextet
  rw [isEmpty_pyLower, length_pyLower, all_pyLower isHexB isHexB_lower]

/-- The defaulted-emptiness step commutes with lowering. -/
theorem getD_isEmpty_lower (o : Option PyStr) :
    ((o.map pyLower).getD (pstr "x")).isEmpty = (o.getD (pstr "x")).isEmpty := by
  cases o with
  | none => rfl
  | some a => exact isEmpty_pyLower a

/-- The IPv6 part checks are invariant under lowering of the parts. -/
theorem ipv6PartsOk_lower (parts : List PyStr) :
    ipv6PartsOk (parts.map pyLower) = ipv6PartsOk parts := by
  have e1 : ((fun x : PyStr => x.isEmpty) ∘ pyLower) = fun x : PyStr => x.isEmpty :=
    funext isEmpty_pyLower
  have e2 : ((fun p : PyStr => !p.isEmpty) ∘ pyLower) = fun p : PyStr => !p.isEmpty :=
    funext fun p => congrArg (fun b => !b) (isEmpty_pyLower p)
  have e3 : (isHextet ∘ pyLower) = isHextet := funext isHextet_lower
  unfold ipv6PartsOk
  simp only [List.length_map, ← List.map_drop, ← List.map_dropLast, List.countP_map,
    List.takeWhile_map, List.head?_map, List.getLast?_map, ← List.map_take, List.all_map,
    e1, e2, e3, getD_isEmpty_lower]

/-- `IPv6Address` address acceptance is invariant under lowering. -/
theorem isIPv6Addr_lower (h : PyStr) : isIPv6Addr (pyLower h) = isIPv6Addr h := by
  simp only [isIPv6Addr]
  rw [splitAllOn_pyLower (by decide) h, List.length_map, List.getLast?_map]
  have hgd : (((splitAllOn 58 h).getLast?.map pyLower).getD []) =
      pyLower ((splitAllOn 58 h).getLast?.getD []) := by
    cases (splitAllOn 58 h).getLast? <;> rfl
  rw [hgd]
  by_cases h3 : (splitAllOn 58 h).length < 3
  · rw [if_pos h3, if_pos h3]
  · rw [if_neg h3, if_neg h3]
    by_cases h46 : (46 : Fin 256) ∈ (splitAllOn 58 h).getLast?.getD []
    · rw [if_pos ((mem_pyLower_fix (by decide) _).mpr h46), if_pos h46, isIPv4B_lower]
      by_cases hv4 : isIPv4B ((splitAllOn 58 h).getLast?.getD []) = true
      · rw [if_pos hv4, if_pos hv4, ← List.map_dropLast,
          show ([pstr "0", pstr "0"] : List PyStr) = List.map pyLower [pstr "0", pstr "0"]
            from rfl,
          ← List.map_append]
        exact ipv6PartsOk_lower _
      · rw [if_neg hv4, if_neg hv4]
    · rw [if_neg (fun hx => h46 ((mem_pyLower_fix (by decide) _).mp hx)), if_neg h46]
      exact ipv6PartsOk_lower _

/-- `IPv6Address` acceptance with scope is invariant under lowering. -/
theorem isIPv6WithScope_lower (h : PyStr) :
    isIPv6WithScope (pyLower h) = isIPv6WithScope h := by
  unfold isIPv6WithScope
  rw [splitFirst_pyLower (by decide) h]
  cases hsf : splitFirst 37 h with
  | none => exact isIPv6Addr_lower h
  | some p =>
    obtain ⟨a, sc⟩ := p
    show (!(pyLower sc).isEmpty && !(pyLower sc).contains 37 && isIPv6Addr (pyLower a)) =
      (!sc.isEmpty && !sc.contains 37 && isIPv6Addr a)
    rw [isEmpty_pyLower, contains_pyLower_fix (by decide), isIPv6Addr_lower]

/-- The IPv6 part checks reject a part list whose first part starts with `V`. -/
theorem ipv6PartsOk_head86 (h0 : PyStr) (t : List PyStr) :
    ipv6PartsOk ((86 :: h0) :: t) = false := by
  have hhx : isHextet (86 :: h0) = false := by
    simp [isHextet, List.all_cons, (by decide : isHexB (86 : Fin 256) = false)]
  have htake : ∀ k : Nat, (((86 :: h0) :: t).take (1 + k)).all isHextet = false := by
    intro k
    rw [Nat.add_comm, List.take_succ_cons, List.all_cons, hhx]
    rfl
  simp only [ipv6PartsOk]
  by_cases h9 : ((86 :: h0) :: t).length > 9
  · rw [if_pos h9]
  · rw [if_neg h9]
    by_cases hs1 : (List.countP (fun x => x.isEmpty) (((86 :: h0) :: t).drop 1).dropLast) > 1
    · rw [if_pos hs1]
    · rw [if_neg hs1]
      by_cases hs2 :
          ((List.countP (fun x => x.isEmpty) (((86 :: h0) :: t).drop 1).dropLast) == 1) = true
      · rw [if_pos hs2]
        rw [show (((86 :: h0) :: t).head?.getD (pstr "x")) = 86 :: h0 from rfl]
        rw [show List.isEmpty ((86 : Fin 256) :: h0) = false from rfl]
        rw [if_neg (show ¬((false : Bool) = true) by decide)]
        simp [htake]
      · rw [if_neg hs2]
        simp [List.all_cons, hhx]

/-- No string starting with `V` is accepted as an IPv6 address. -/
theorem isIPv6Addr_head86 (s : PyStr) : isIPv6Addr (86 :: s) = false := by
  simp only [isIPv6Addr]
  rw [splitAllOn_cons_ne 58 86 (by decide) s]
  generalize (splitAllOn 58 s).headD [] = h0
  generalize (splitAllOn 58 s).tail = t
  by_cases h3 : ((86 :: h0) :: t).length < 3
  · rw [if_pos h3]
  · rw [if_neg h3]
    have ht : ∃ t1 t2, t = t1 :: t2 := by
      cases t with
      | nil => exact absurd (by simp) h3
      | cons t1 t2 => exact ⟨t1, t2, rfl⟩
    obtain ⟨t1, t2, rfl⟩ := ht
    by_cases h46 : (46 : Fin 256) ∈ (((86 :: h0) :: t1 :: t2).getLast?.getD [])
    · rw [if_pos h46]
      by_cases hv4 : isIPv4B (((86 :: h0) :: t1 :: t2).getLast?.getD []) = true
      · rw [if_pos hv4]
        show ipv6PartsOk ((86 :: h0) :: ((t1 :: t2).dropLast ++ [pstr "0", pstr "0"])) = false
        exact ipv6PartsOk_head86 _ _
      · rw [if_neg hv4]
    · rw [if_neg h46]
      exact ipv6PartsOk_head86 _ _

/-- Scoped-IPv6 acceptance also rejects a leading `V`. -/
theorem isIPv6WithScope_head86 (s : PyStr) : isIPv6WithScope (86 :: s) = false := by
  unfold isIPv6WithScope
  cases hsf : splitFirst 37 (86 :: s) with
  | none => exact isIPv6Addr_head86 s
  | some p =>
    obtain ⟨a, sc⟩ := p
    obtain ⟨ha, -⟩ := splitFirst_eq_some 37 _ a sc hsf
    cases a with
    | nil => simp at ha
    | cons a0 a' =>
      have h86 : a0 = 86 := by
        have := congrArg (fun l => l.headD (0 : Fin 256)) ha
        simpa using this.symm
      subst h86
      show (!sc.isEmpty && !sc.contains 37 && isIPv6Addr (86 :: a')) = false
      rw [isIPv6Addr_head86]
      simp

/-- The `take 1 == "."` test is invariant under lowering. -/
theorem take1_dot_lower (r : PyStr) :
    ((pyLower r).take 1 == [(46 : Fin 256)]) = (r.take 1 == [46]) := by
  rw [Bool.eq_iff_iff, beq_iff_eq, beq_iff_eq]
  cases r with
  | nil => show ([] : PyStr) = [46] ↔ ([] : PyStr) = [46]; exact Iff.rfl
  | cons a t =>
    show [lowerChar a] = [(46 : Fin 256)] ↔ [a] = [46]
    simp [lowerChar_fix (show isAlphaB (46 : Fin 256) = false by decide) a]

/-- An accepted bracketed host stays accepted after lowering. -/
theorem checkBracketedHost_lower (b : PyStr) (h : checkBracketedHost b = true) :
    checkBracketedHost (pyLower b) = true := by
  cases b with
  | nil => exact absurd h (by decide)
  | cons c t =>
    by_cases hc : c = (118 : Fin 256)
    · subst hc
      show checkBracketedHost (lowerChar 118 :: pyLower t) = true
      rw [show lowerChar 118 = 118 from rfl]
      simp only [checkBracketedHost] at h ⊢
      rw [if_pos trivial] at h ⊢
      rwa [takeWhile_pyLower isHexB isHexB_lower, dropWhile_pyLower isHexB isHexB_lower,
        isEmpty_pyLower, take1_dot_lower, drop_pyLower, isEmpty_pyLower]
    · by_cases hc86 : c = (86 : Fin 256)
      · exfalso
        subst hc86
        rw [checkBracketedHost, if_neg (by decide), isIPv6WithScope_head86] at h
        exact absurd h (by decide)
      · have hlc : ¬(lowerChar c = 118) := by
          intro hl
          rcases (by decide : ∀ x : Fin 256, lowerChar x = 118 → x = 86 ∨ x = 118) c hl with
            h86 | h118
          · exact hc86 h86
          · exact hc h118
        show checkBracketedHost (lowerChar c :: pyLower t) = true
        rw [checkBracketedHost, if_neg hlc]
        rw [checkBracketedHost, if_neg hc] at h
        show isIPv6WithScope (pyLower (c :: t)) = true
        rwa [isIPv6WithScope_lower]

/-- The bracketed-host extraction commutes with lowering. -/
theorem bracketedOf_lower (nl : PyStr) :
    bracketedOf (pyLower nl) = pyLower (bracketedOf nl) := by
  unfold bracketedOf
  rw [dropWhile_pyLower _ (fun c => by
      simp [lowerChar_fix (show isAlphaB (91 : Fin 256) = false by decide) c]),
    drop_pyLower,
    takeWhile_pyLower _ (fun c => by
      simp [lowerChar_fix (show isAlphaB (93 : Fin 256) = false by decide) c])]

/-- A netloc that passes the bracket validation still passes after lowering. -/
theorem netlocOk_lower (nl : PyStr) (h : netlocOk nl = true) :
    netlocOk (pyLower nl) = true := by
  unfold netlocOk at h ⊢
  rw [contains_pyLower_fix (by decide), contains_pyLower_fix (by decide), bracketedOf_lower]
  rw [Bool.and_eq_true] at h ⊢
  refine ⟨h.1, ?_⟩
  rcases Bool.or_eq_true_iff.mp h.2 with hnb | hcb
  · exact Bool.or_eq_true_iff.mpr (Or.inl hnb)
  · exact Bool.or_eq_true_iff.mpr (Or.inr (checkBracketedHost_lower _ hcb))

/-! Toolkit: stability of slash collapsing and right-stripping. -/

/-- The slash test fails as a Boolean pair when it fails as a proposition. -/
theorem not47_pair {c c2 : Fin 256} (h : ¬(c = 47 ∧ c2 = 47)) :
    (decide (c = 47) && decide (c2 = 47)) = false := by
  by_cases h1 : c = 47
  · by_cases h2 : c2 = 47
    · exact absurd ⟨h1, h2⟩ h
    · simp [h2]
  · simp [h1]

/-- The collapse keeps the head byte. -/
theorem collapse_head (c : Fin 256) : ∀ t : PyStr,
    ∃ y, collapseSlashes (c :: t) = c :: y := by
  intro t
  induction t generalizing c with
  | nil => exact ⟨[], rfl⟩
  | cons c2 t' ih =>
    by_cases h2 : c = 47 ∧ c2 = 47
    · obtain ⟨y, hy⟩ := ih c2
      refine ⟨y, ?_⟩
      rw [collapseSlashes, if_pos (by simp [h2.1, h2.2]), hy, h2.1, h2.2]
    · refine ⟨collapseSlashes (c2 :: t'), ?_⟩
      rw [collapseSlashes, if_neg (by rw [not47_pair h2]; exact Bool.false_ne_true)]

/-- The collapse output never has two adjacent slashes. -/
theorem noDouble_collapse : ∀ p : PyStr, noDouble (collapseSlashes p) = true := by
  intro p
  induction p with
  | nil => rfl
  | cons c t ih =>
    cases t with
    | nil => rfl
    | cons c2 t' =>
      by_cases h2 : c = 47 ∧ c2 = 47
      · rw [collapseSlashes, if_pos (by simp [h2.1, h2.2])]
        exact ih
      · rw [collapseSlashes, if_neg (by rw [not47_pair h2]; exact Bool.false_ne_true)]
        obtain ⟨y, hy⟩ := collapse_head c2 t'
        rw [hy, noDouble]
        rw [hy] at ih
        rw [ih, Bool.and_true, not47_pair h2]
        rfl

/-- The collapse fixes a string with no adjacent slashes. -/
theorem collapse_fix : ∀ p : PyStr, noDouble p = true → collapseSlashes p = p := by
  intro p
  induction p with
  | nil => intro _; rfl
  | cons c t ih =>
    intro h
    cases t with
    | nil => rfl
    | cons c2 t' =>
      rw [noDouble, Bool.and_eq_true] at h
      have hX : ¬((decide (c = 47) && decide (c2 = 47)) = true) := by
        intro hXt
        rcases h with ⟨h1, -⟩
        rw [hXt] at h1
        exact absurd h1 (by decide)
      rw [collapseSlashes, if_neg hX, ih h.2]

/-- `noDouble` restricts to a left factor. -/
theorem noDouble_append_left : ∀ x y : PyStr, noDouble (x ++ y) = true →
    noDouble x = true := by
  intro x
  induction x with
  | nil => intro y _; rfl
  | cons c t ih =>
    intro y h
    cases t with
    | nil => rfl
    | cons c2 t' =>
      rw [List.cons_append, List.cons_append] at h
      rw [noDouble, Bool.and_eq_true] at h ⊢
      exact ⟨h.1, ih y (by rw [List.cons_append]; exact h.2)⟩

/-- Decomposition of a string into its right-strip and a slash tail. -/
theorem rstrip_decomp (s : PyStr) :
    s = rstripSlash s ++ (s.reverse.takeWhile (fun c => c = 47)).reverse ∧
      ((s.reverse.takeWhile (fun c => c = 47)).reverse).all (fun c => c = 47) = true := by
  constructor
  · rw [rstripSlash, ← List.reverse_append, List.takeWhile_append_dropWhile,
      List.reverse_reverse]
  · rw [List.all_reverse]
    exact List.all_takeWhile

/-- Right-stripping preserves `noDouble`. -/
theorem noDouble_rstrip (s : PyStr) (h : noDouble s = true) :
    noDouble (rstripSlash s) = true := by
  obtain ⟨hdec, -⟩ := rstrip_decomp s
  rw [hdec] at h
  exact noDouble_append_left _ _ h

/-- `dropWhile` is idempotent. -/
theorem dropWhile_idem {α : Type} (p : α → Bool) (l : List α) :
    List.dropWhile p (List.dropWhile p l) = List.dropWhile p l := by
  induction l with
  | nil => rfl
  | cons c t ih =>
    by_cases hc : p c = true
    · rw [List.dropWhile_cons_of_pos hc]
      exact ih
    · rw [List.dropWhile_cons_of_neg hc, List.dropWhile_cons_of_neg hc]

/-- Right-stripping slashes is idempotent. -/
theorem rstrip_idem (s : PyStr) : rstripSlash (rstripSlash s) = rstripSlash s := by
  unfold rstripSlash
  rw [List.reverse_reverse, dropWhile_idem]

/-- A self-fixed `dropWhile` has a failing head. -/
theorem dropWhile_head_false {α : Type} (p : α → Bool) (c : α) (t : List α)
    (h : List.dropWhile p (c :: t) = c :: t) : p c = false := by
  by_cases hc : p c = true
  · exfalso
    rw [List.dropWhile_cons_of_pos hc] at h
    have hlen := congrArg List.length h
    have hle := (List.dropWhile_sublist (l := t) p).length_le
    simp at hlen
    omega
  · exact Bool.eq_false_iff.mpr hc

/-- `dropWhile` ignores anything appended after a self-fixed nonempty prefix. -/
theorem dropWhile_append_fix {α : Type} (p : α → Bool) (l m : List α)
    (hl : List.dropWhile p l = l) (hne : l ≠ []) :
    List.dropWhile p (l ++ m) = l ++ m := by
  cases l with
  | nil => exact absurd rfl hne
  | cons c t =>
    have hc := dropWhile_head_false p c t hl
    rw [List.cons_append, List.dropWhile_cons_of_neg (by rw [hc]; exact Bool.false_ne_true)]

/-- Membership in the collapse output comes from the input. -/
theorem mem_collapse (c : Fin 256) : ∀ p : PyStr, c ∈ collapseSlashes p → c ∈ p := by
  intro p
  induction p with
  | nil => intro h; exact h
  | cons c1 t ih =>
    intro h
    cases t with
    | nil => exact h
    | cons c2 t' =>
      rw [collapseSlashes] at h
      by_cases hb : (c1 = 47 && c2 = 47) = true
      · rw [if_pos hb] at h
        exact List.mem_cons_of_mem c1 (ih h)
      · rw [if_neg hb] at h
        rcases List.mem_cons.mp h with hh | hh
        · exact hh ▸ List.mem_cons_self c1 _
        · exact List.mem_cons_of_mem c1 (ih hh)

/-- Membership in the right-strip output comes from the input. -/
theorem mem_rstrip (c : Fin 256) (p : PyStr) (h : c ∈ rstripSlash p) : c ∈ p := by
  rw [rstripSlash, List.mem_reverse] at h
  exact List.mem_reverse.mp ((List.dropWhile_sublist _).mem h)

/-- A string with no adjacent slashes never starts with two slashes. -/
theorem noDouble_take2 (p : PyStr) (h : noDouble p = true) : p.take 2 ≠ [47, 47] := by
  intro he
  cases p with
  | nil => simp at he
  | cons c1 t =>
    cases t with
    | nil => simp at he
    | cons c2 t' =>
      have h1 : c1 = 47 ∧ c2 = 47 := by
        have := List.cons.inj he
        exact ⟨this.1, (List.cons.inj this.2).1⟩
      rw [noDouble, Bool.and_eq_true] at h
      rw [h1.1, h1.2] at h
      simpa using h.1

/-- Prepending a slash to a collapse-fixed string not starting with a slash is
collapse-fixed. -/
theorem collapse_cons47 (p : PyStr) (hfix : collapseSlashes p = p)
    (hh : p.take 1 ≠ [47]) : collapseSlashes (47 :: p) = 47 :: p := by
  cases p with
  | nil => rfl
  | cons c t =>
    have hc : ¬(c = (47 : Fin 256)) := by
      intro he
      exact hh (by rw [he]; rfl)
    rw [collapseSlashes, if_neg (by simp [hc]), hfix]

/-- Prepending a slash to a nonempty right-strip-fixed string is
right-strip-fixed. -/
theorem rstrip_cons47 (p : PyStr) (hfix : rstripSlash p = p) (hne : p ≠ []) :
    rstripSlash (47 :: p) = 47 :: p := by
  have hrev : List.dropWhile (fun c => c = 47) p.reverse = p.reverse := by
    rw [rstripSlash] at hfix
    have h2 := congrArg List.reverse hfix
    rwa [List.reverse_reverse] at h2
  have hrne : p.reverse ≠ [] := by
    intro he
    exact hne (by rw [← List.reverse_reverse p, he]; rfl)
  rw [rstripSlash, show ((47 : Fin 256) :: p).reverse = p.reverse ++ [47] by simp,
    dropWhile_append_fix _ _ _ hrev hrne, List.reverse_append, List.reverse_reverse]
  rfl

/-- `takeWhile` passes over an all-satisfying prefix. -/
theorem takeWhile_append_all {α : Type} (p : α → Bool) :
    ∀ (l r : List α), l.all p = true →
      List.takeWhile p (l ++ r) = l ++ List.takeWhile p r := by
  intro l
  induction l with
  | nil => intro r _; rfl
  | cons c t ih =>
    intro r h
    rw [List.all_cons, Bool.and_eq_true] at h
    rw [List.cons_append, List.takeWhile_cons_of_pos h.1, ih r h.2, List.cons_append]

/-- `dropWhile` drops an all-satisfying prefix. -/
theorem dropWhile_append_all {α : Type} (p : α → Bool) :
    ∀ (l r : List α), l.all p = true →
      List.dropWhile p (l ++ r) = List.dropWhile p r := by
  intro l
  induction l with
  | nil => intro r _; rfl
  | cons c t ih =>
    intro r h
    rw [List.all_cons, Bool.and_eq_true] at h
    rw [List.cons_append, List.dropWhile_cons_of_pos h.1, ih r h.2]

/-- `takeWhile` fixes an all-satisfying string. -/
theorem takeWhile_eq_self_of_all {α : Type} (p : α → Bool) (l : List α)
    (h : l.all p = true) : List.takeWhile p l = l := by
  have := takeWhile_append_all p l [] h
  simpa using this

/-- `dropWhile` empties an all-satisfying string. -/
theorem dropWhile_nil_of_all {α : Type} (p : α → Bool) (l : List α)
    (h : l.all p = true) : List.dropWhile p l = [] := by
  have := dropWhile_append_all p l [] h
  simpa using this

/-- `dropWhile` fixes a string whose members all fail the predicate. -/
theorem dropWhile_eq_self_of_all_neg {α : Type} (p : α → Bool) (l : List α)
    (h : ∀ c ∈ l, p c = false) : List.dropWhile p l = l := by
  cases l with
  | nil => rfl
  | cons c t =>
    exact List.dropWhile_cons_of_neg
      (by rw [h c (List.mem_cons_self c t)]; exact Bool.false_ne_true)

/-! Character-class consequences of `goodChar`, by finite check. -/

/-- A good byte is not a semicolon. -/
theorem goodChar_ne59 : ∀ c : Fin 256, goodChar c = true → ¬(c = 59) := by decide

/-- A good byte is not `str.strip` whitespace. -/
theorem goodChar_not_ws : ∀ c : Fin 256, goodChar c = true → isStrWS c = false := by decide

/-- A good byte is above the C0-control/space range. -/
theorem goodChar_gt32 : ∀ c : Fin 256, goodChar c = true → decide (c.val ≤ 32) = false := by
  decide

/-- A good byte survives the tab/CR/LF filter. -/
theorem goodChar_notTab : ∀ c : Fin 256, goodChar c = true →
    (!(decide (c.val = 9) || decide (c.val = 13) || decide (c.val = 10))) = true := by decide

/-- Scheme characters are good and are not colons. -/
theorem schemeChar_good : ∀ c : Fin 256, isSchemeCharB c = true →
    goodChar c = true ∧ ¬(c = 58) := by decide

/-- The netloc delimiters, by finite check. -/
theorem notNetlocDelim_false : notNetlocDelim 35 = false ∧ notNetlocDelim 47 = false ∧
    notNetlocDelim 63 = false := by decide

/-- The byte classes emitted by `quote_plus` are good and are neither `#`
nor `?` nor `&` beyond the separators. -/
theorem quoteClass_good : ∀ c : Fin 256,
    (isSafeB c = true ∨ c.val = 43 ∨ c.val = 37 ∨ isHexB c = true) →
    goodChar c = true ∧ ¬(c = 35) ∧ ¬(c = 63) := by decide

/-- Every byte of a `quote_plus` output is good and is neither `#` nor `?`. -/
theorem quotePlus_goodChar (x : PyStr) : ∀ c ∈ pyQuotePlus x,
    goodChar c = true ∧ ¬(c = 35) ∧ ¬(c = 63) :=
  fun c hc => quoteClass_good c (quotePlus_chars x c hc)

/-- Every byte of a `urlencode` output is good and is neither `#` nor `?`. -/
theorem urlencode_goodChar (l : List (PyStr × PyStr)) : ∀ c ∈ urlencodePairs l,
    goodChar c = true ∧ ¬(c = 35) ∧ ¬(c = 63) := by
  induction l with
  | nil => intro c hc; cases hc
  | cons kv t ih =>
    intro c hc
    obtain ⟨k, v⟩ := kv
    rw [urlencodePairs_cons] at hc
    rcases List.mem_append.mp hc with h | h
    · rcases List.mem_append.mp h with h1 | h1
      · exact quotePlus_goodChar k c h1
      · rcases List.mem_cons.mp h1 with h2 | h2
        · subst h2; exact ⟨by decide, by decide, by decide⟩
        · exact quotePlus_goodChar v c h2
    · by_cases ht : t = []
      · rw [if_pos ht] at h; cases h
      · rw [if_neg ht] at h
        rcases List.mem_cons.mp h with h2 | h2
        · subst h2; exact ⟨by decide, by decide, by decide⟩
        · exact ih c h2

/-- `str.strip` fixes an all-good string. -/
theorem pyStrip_eq_self (u : PyStr) (h : u.all goodChar = true) : pyStrip u = u := by
  rw [List.all_eq_true] at h
  unfold pyStrip
  rw [dropWhile_eq_self_of_all_neg _ _ (fun c hc => goodChar_not_ws c (h c hc)),
    dropWhile_eq_self_of_all_neg _ _
      (fun c hc => goodChar_not_ws c (h c (List.mem_reverse.mp hc))),
    List.reverse_reverse]

/-- The `urlsplit` cleaning stage fixes an all-good string. -/
theorem cleanUrl_eq_self (u : PyStr) (h : u.all goodChar = true) : cleanUrl u = u := by
  unfold cleanUrl
  rw [List.all_eq_true] at h
  rw [dropWhile_eq_self_of_all_neg _ _ (fun c hc => goodChar_gt32 c (h c hc))]
  exact List.filter_eq_self.mpr fun c hc => goodChar_notTab c (h c hc)

/-- Filtering is idempotent. -/
theorem filter_idem {α : Type} (p : α → Bool) (l : List α) :
    List.filter p (List.filter p l) = List.filter p l :=
  List.filter_eq_self.mpr fun _ ha => (List.mem_filter.mp ha).2

/-! Properties and char-provenance of the `urlsplit` stages. -/

/-- The scheme produced by `schemeSplit` is empty or a valid lowered scheme. -/
theorem schemeSplit_props (w : PyStr) :
    (schemeSplit w).1 = [] ∨
      ((schemeSplit w).1 ≠ [] ∧ (((schemeSplit w).1.take 1).all isAlphaB) = true ∧
        ((schemeSplit w).1.all isSchemeCharB) = true ∧
        pyLower (schemeSplit w).1 = (schemeSplit w).1) := by
  unfold schemeSplit
  cases hsp : splitFirst 58 w with
  | none => exact Or.inl rfl
  | some pr =>
    obtain ⟨pre, rest⟩ := pr
    dsimp only
    by_cases hc : (!pre.isEmpty && (pre.take 1).all isAlphaB && pre.all isSchemeCharB) = true
    · rw [if_pos hc]
      rw [Bool.and_eq_true, Bool.and_eq_true] at hc
      obtain ⟨⟨h1, h2⟩, h3⟩ := hc
      refine Or.inr ⟨?_, ?_, ?_, pyLower_idem pre⟩
      · show pyLower pre ≠ []
        intro he
        have : pre = [] := by
          cases pre with
          | nil => rfl
          | cons a t => exact absurd he (by simp [pyLower])
        rw [this] at h1
        exact absurd h1 (by decide)
      · show ((pyLower pre).take 1).all isAlphaB = true
        rw [take_pyLower, all_pyLower isAlphaB isAlphaB_lower]
        exact h2
      · show (pyLower pre).all isSchemeCharB = true
        rw [all_pyLower isSchemeCharB isSchemeCharB_lower]
        exact h3
    · rw [if_neg hc]
      exact Or.inl rfl

/-- The netloc produced by `netlocSplit` has no netloc delimiters. -/
theorem netlocSplit_props (u3 : PyStr) : (netlocSplit u3).1.all notNetlocDelim = true := by
  unfold netlocSplit
  by_cases h2 : u3.take 2 = [47, 47]
  · rw [if_pos h2]
    exact List.all_takeWhile
  · rw [if_neg h2]
    rfl

/-- Bytes of the scheme remainder come from the input. -/
theorem mem_schemeSplit_snd (w : PyStr) : ∀ c ∈ (schemeSplit w).2, c ∈ w := by
  unfold schemeSplit
  cases hsp : splitFirst 58 w with
  | none => exact fun c hc => hc
  | some pr =>
    obtain ⟨pre, rest⟩ := pr
    dsimp only
    obtain ⟨hdec, -⟩ := splitFirst_eq_some 58 w pre rest hsp
    by_cases hc : (!pre.isEmpty && (pre.take 1).all isAlphaB && pre.all isSchemeCharB) = true
    · rw [if_pos hc]
      intro c hcm
      rw [hdec]
      exact List.mem_append.mpr (Or.inr (List.mem_cons_of_mem 58 hcm))
    · rw [if_neg hc]
      exact fun c hc => hc

/-- Bytes of the netloc come from the input of `netlocSplit`. -/
theorem mem_netlocSplit_fst (u3 : PyStr) : ∀ c ∈ (netlocSplit u3).1, c ∈ u3 := by
  unfold netlocSplit
  by_cases h2 : u3.take 2 = [47, 47]
  · rw [if_pos h2]
    intro c hc
    exact (List.drop_sublist 2 u3).mem ((List.takeWhile_sublist _).mem hc)
  · rw [if_neg h2]
    intro c hc
    cases hc

/-- Bytes of the netloc remainder come from the input of `netlocSplit`. -/
theorem mem_netlocSplit_snd (u3 : PyStr) : ∀ c ∈ (netlocSplit u3).2, c ∈ u3 := by
  unfold netlocSplit
  by_cases h2 : u3.take 2 = [47, 47]
  · rw [if_pos h2]
    intro c hc
    exact (List.drop_sublist 2 u3).mem ((List.dropWhile_sublist _).mem hc)
  · rw [if_neg h2]
    exact fun c hc => hc

/-- Bytes of the pre-fragment part come from the input of `fragSplit`. -/
theorem mem_fragSplit_fst (u4 : PyStr) : ∀ c ∈ (fragSplit u4).1, c ∈ u4 := by
  unfold fragSplit
  cases hsp : splitFirst 35 u4 with
  | none => exact fun c hc => hc
  | some pr =>
    obtain ⟨a, f⟩ := pr
    dsimp only
    obtain ⟨hdec, -⟩ := splitFirst_eq_some 35 u4 a f hsp
    intro c hc
    rw [hdec]
    exact List.mem_append.mpr (Or.inl hc)

/-- Bytes of the path come from the input of `querySplit`. -/
theorem mem_querySplit_fst (u5 : PyStr) : ∀ c ∈ (querySplit u5).1, c ∈ u5 := by
  unfold querySplit
  cases hsp : splitFirst 63 u5 with
  | none => exact fun c hc => hc
  | some pr =>
    obtain ⟨a, q⟩ := pr
    dsimp only
    obtain ⟨hdec, -⟩ := splitFirst_eq_some 63 u5 a q hsp
    intro c hc
    rw [hdec]
    exact List.mem_append.mpr (Or.inl hc)

/-- The pre-fragment part contains no `#`. -/
theorem fragSplit_no35 (u4 : PyStr) : (35 : Fin 256) ∉ (fragSplit u4).1 := by
  unfold fragSplit
  cases hsp : splitFirst 35 u4 with
  | none => exact splitFirst_eq_none 35 u4 hsp
  | some pr =>
    obtain ⟨a, f⟩ := pr
    exact (splitFirst_eq_some 35 u4 a f hsp).2

/-- The path contains no `?`. -/
theorem querySplit_no63 (u5 : PyStr) : (63 : Fin 256) ∉ (querySplit u5).1 := by
  unfold querySplit
  cases hsp : splitFirst 63 u5 with
  | none => exact splitFirst_eq_none 63 u5 hsp
  | some pr =>
    obtain ⟨a, q⟩ := pr
    exact (splitFirst_eq_some 63 u5 a q hsp).2

/-! `urlsplit` on an assembled absolute URL. -/

/-- `urlsplit` of `scheme://netloc<rest>` where the netloc is delimiter-free
and the rest is empty or starts with a delimiter. -/
theorem urlsplit_assembled_netloc (s h rest : PyStr)
    (hs1 : s ≠ []) (hs2 : ((s.take 1).all isAlphaB) = true)
    (hs3 : (s.all isSchemeCharB) = true)
    (hh : h.all notNetlocDelim = true) (hOk : netlocOk h = true)
    (hclean : cleanUrl (s ++ 58 :: 47 :: 47 :: (h ++ rest)) =
      s ++ 58 :: 47 :: 47 :: (h ++ rest))
    (hrest : rest = [] ∨ ∃ c r', rest = c :: r' ∧ notNetlocDelim c = false) :
    pyUrlsplit (s ++ 58 :: 47 :: 47 :: (h ++ rest)) =
      .ok ⟨pyLower s, h, (querySplit (fragSplit rest).1).1,
           (querySplit (fragSplit rest).1).2, (fragSplit rest).2⟩ := by
  have h58 : (58 : Fin 256) ∉ s := by
    intro hm
    exact (schemeChar_good 58 (List.all_eq_true.mp hs3 58 hm)).2 rfl
  have hsch : schemeSplit (s ++ 58 :: 47 :: 47 :: (h ++ rest)) =
      (pyLower s, 47 :: 47 :: (h ++ rest)) := by
    unfold schemeSplit
    rw [splitFirst_append 58 s _ h58]
    dsimp only
    rw [if_pos (by
      rw [Bool.and_eq_true, Bool.and_eq_true]
      exact ⟨⟨by simpa [List.isEmpty_eq_false] using hs1, hs2⟩, hs3⟩)]
  have hnet : netlocSplit (47 :: 47 :: (h ++ rest)) = (h, rest) := by
    unfold netlocSplit
    rw [if_pos (show List.take 2 (47 :: 47 :: (h ++ rest)) = [47, 47] from rfl)]
    show ((h ++ rest).takeWhile notNetlocDelim, (h ++ rest).dropWhile notNetlocDelim) =
      (h, rest)
    rcases hrest with hre | ⟨c, r', hre, hcf⟩
    · subst hre
      rw [List.append_nil, takeWhile_eq_self_of_all _ _ hh, dropWhile_nil_of_all _ _ hh]
    · subst hre
      rw [takeWhile_append_all _ _ _ hh,
        List.takeWhile_cons_of_neg (by rw [hcf]; exact Bool.false_ne_true),
        List.append_nil,
        dropWhile_append_all _ _ _ hh,
        List.dropWhile_cons_of_neg (by rw [hcf]; exact Bool.false_ne_true)]
  rw [pyUrlsplit_eq, hclean, hsch]
  dsimp only
  rw [hnet]
  dsimp only
  rw [if_pos hOk]

/-- `urlsplit` of `scheme:<rest>` where the rest does not start with `//`. -/
theorem urlsplit_assembled_noauth (s R : PyStr)
    (hs1 : s ≠ []) (hs2 : ((s.take 1).all isAlphaB) = true)
    (hs3 : (s.all isSchemeCharB) = true)
    (hclean : cleanUrl (s ++ 58 :: R) = s ++ 58 :: R)
    (htake2 : R.take 2 ≠ [47, 47]) :
    pyUrlsplit (s ++ 58 :: R) =
      .ok ⟨pyLower s, [], (querySplit (fragSplit R).1).1,
           (querySplit (fragSplit R).1).2, (fragSplit R).2⟩ := by
  have h58 : (58 : Fin 256) ∉ s := by
    intro hm
    exact (schemeChar_good 58 (List.all_eq_true.mp hs3 58 hm)).2 rfl
  have hsch : schemeSplit (s ++ 58 :: R) = (pyLower s, R) := by
    unfold schemeSplit
    rw [splitFirst_append 58 s _ h58]
    dsimp only
    rw [if_pos (by
      rw [Bool.and_eq_true, Bool.and_eq_true]
      exact ⟨⟨by simpa [List.isEmpty_eq_false] using hs1, hs2⟩, hs3⟩)]
  have hnet : netlocSplit R = ([], R) := by
    unfold netlocSplit
    rw [if_neg htake2]
  rw [pyUrlsplit_eq, hclean, hsch]
  dsimp only
  rw [hnet]
  dsimp only
  rw [if_pos (by decide : netlocOk [] = true)]

/-! The `canonicalize_url` computation on a parsed result. -/

/-- `canonicalize_url` when parsing succeeds and the path carries no params. -/
theorem canon_formula (u : PyStr) (hne : u ≠ []) (hstrip : pyStrip u = u)
    (r : SplitResult) (hsplit : pyUrlsplit u = .ok r)
    (h59 : (59 : Fin 256) ∉ r.path) :
    canonicalize_url u = .ok (pyUrlunparse
      (if (pyLower r.scheme).isEmpty then pstr "https" else pyLower r.scheme)
      (pyLower r.netloc) (rstripSlash (collapseSlashes r.path)) []
      (urlencodePairs ((parseQsl r.query).filter fun kv => !isTrackingKey kv.1)) []) := by
  unfold canonicalize_url pyUrlparse
  rw [if_neg (by simpa [List.isEmpty_iff] using hne), hstrip]
  simp only [hsplit, bind, Except.bind]
  rw [if_neg h59]
  simp [pure, Except.pure]

/-- `canonicalize_url` propagates a parse error. -/
theorem canon_error (u : PyStr) (hne : u ≠ []) (hstrip : pyStrip u = u)
    (hsplit : pyUrlsplit u = .error ()) : canonicalize_url u = .error () := by
  unfold canonicalize_url pyUrlparse
  rw [if_neg (by simpa [List.isEmpty_iff] using hne), hstrip]
  simp [hsplit, bind, Except.bind]

/-- The fragment split on a `#`-free string. -/
theorem fragSplit_of_not_mem (u : PyStr) (h : (35 : Fin 256) ∉ u) : fragSplit u = (u, []) := by
  unfold fragSplit
  rw [splitFirst_not_mem 35 u h]

/-- The query split at an explicit `?`. -/
theorem querySplit_append (x q : PyStr) (hx : (63 : Fin 256) ∉ x) :
    querySplit (x ++ 63 :: q) = (x, q) := by
  unfold querySplit
  rw [splitFirst_append 63 x q hx]

/-- The query split on a `?`-free string. -/
theorem querySplit_of_not_mem (u : PyStr) (h : (63 : Fin 256) ∉ u) :
    querySplit u = (u, []) := by
  unfold querySplit
  rw [splitFirst_not_mem 63 u h]

/-- A collapsed, right-stripped path followed by an optional query tail never
starts with two slashes. -/
theorem take2_ne_4747 (p qtail : PyStr) (hnd : noDouble p = true)
    (hrs : rstripSlash p = p) (hq : qtail = [] ∨ qtail.take 1 = [63]) :
    (p ++ qtail).take 2 ≠ [47, 47] := by
  intro he
  cases p with
  | nil =>
    rcases hq with h | h
    · subst h; simp at he
    · cases qtail with
      | nil => simp at he
      | cons c r =>
        have hc : c = (63 : Fin 256) := by simpa using h
        rw [List.nil_append] at he
        have he' : c :: r.take 1 = [(47 : Fin 256), 47] := he
        have h47 := (List.cons.inj he').1
        rw [hc] at h47
        exact absurd h47 (by decide)
  | cons c1 t =>
    cases t with
    | nil =>
      have hc1 : ¬(c1 = (47 : Fin 256)) := by
        intro h47
        subst h47
        exact absurd hrs (by decide)
      have he' : c1 :: qtail.take 1 = [(47 : Fin 256), 47] := he
      exact hc1 (List.cons.inj he').1
    | cons c2 t' =>
      have he' : c1 :: c2 :: ([] : PyStr) = [(47 : Fin 256), 47] := by
        have h2 : (c1 :: c2 :: (t' ++ qtail)).take 2 = c1 :: c2 :: ([] : PyStr) := rfl
        rw [← h2]
        exact he
      have h1 := (List.cons.inj he').1
      have h2 := (List.cons.inj (List.cons.inj he').2).1
      subst h1
      subst h2
      rw [noDouble] at hnd
      simp at hnd

/-- `canonicalize_url` of an assembled `scheme://netloc<rest>` URL. -/
theorem canon_structured (s h rest : PyStr)
    (hs1 : s ≠ []) (hs2 : ((s.take 1).all isAlphaB) = true)
    (hs3 : (s.all isSchemeCharB) = true)
    (hh : h.all notNetlocDelim = true) (hOk : netlocOk h = true)
    (hgh : h.all goodChar = true) (hgr : rest.all goodChar = true)
    (hrest : rest = [] ∨ ∃ c r', rest = c :: r' ∧ notNetlocDelim c = false) :
    canonicalize_url (s ++ 58 :: 47 :: 47 :: (h ++ rest)) =
      .ok (pyUrlunparse (pyLower s) (pyLower h)
        (rstripSlash (collapseSlashes (querySplit (fragSplit rest).1).1)) []
        (urlencodePairs ((parseQsl (querySplit (fragSplit rest).1).2).filter
          fun kv => !isTrackingKey kv.1)) []) := by
  have hsg : s.all goodChar = true := by
    rw [List.all_eq_true] at hs3 ⊢
    exact fun c hc => (schemeChar_good c (hs3 c hc)).1
  have hwg : (s ++ 58 :: 47 :: 47 :: (h ++ rest)).all goodChar = true := by
    rw [List.all_eq_true]
    intro c hc
    rcases List.mem_append.mp hc with h1 | h1
    · exact List.all_eq_true.mp hsg c h1
    · rcases List.mem_cons.mp h1 with h2 | h2
      · subst h2; decide
      · rcases List.mem_cons.mp h2 with h3 | h3
        · subst h3; decide
        · rcases List.mem_cons.mp h3 with h4 | h4
          · subst h4; decide
          · rcases List.mem_append.mp h4 with h5 | h5
            · exact List.all_eq_true.mp hgh c h5
            · exact List.all_eq_true.mp hgr c h5
  have hne : (s ++ 58 :: 47 :: 47 :: (h ++ rest)) ≠ [] := by simp
  have hsplit := urlsplit_assembled_netloc s h rest hs1 hs2 hs3 hh hOk
    (cleanUrl_eq_self _ hwg) hrest
  have h59 : (59 : Fin 256) ∉ (querySplit (fragSplit rest).1).1 := by
    intro hm
    have h1 : (59 : Fin 256) ∈ rest :=
      mem_fragSplit_fst rest _ (mem_querySplit_fst _ _ hm)
    exact goodChar_ne59 59 (List.all_eq_true.mp hgr 59 h1) rfl
  rw [canon_formula _ hne (pyStrip_eq_self _ hwg) _ hsplit h59]
  dsimp only
  have hlne : (pyLower s).isEmpty = false := by
    rw [isEmpty_pyLower]
    exact List.isEmpty_eq_false.mpr hs1
  rw [pyLower_idem, if_neg (by rw [hlne]; exact Bool.false_ne_true)]

/-- `canonicalize_url` of an assembled `scheme:<rest>` URL without authority. -/
theorem canon_structured_noauth (s R : PyStr)
    (hs1 : s ≠ []) (hs2 : ((s.take 1).all isAlphaB) = true)
    (hs3 : (s.all isSchemeCharB) = true)
    (hgR : R.all goodChar = true) (htake2 : R.take 2 ≠ [47, 47]) :
    canonicalize_url (s ++ 58 :: R) =
      .ok (pyUrlunparse (pyLower s) []
        (rstripSlash (collapseSlashes (querySplit (fragSplit R).1).1)) []
        (urlencodePairs ((parseQsl (querySplit (fragSplit R).1).2).filter
          fun kv => !isTrackingKey kv.1)) []) := by
  have hsg : s.all goodChar = true := by
    rw [List.all_eq_true] at hs3 ⊢
    exact fun c hc => (schemeChar_good c (hs3 c hc)).1
  have hwg : (s ++ 58 :: R).all goodChar = true := by
    rw [List.all_eq_true]
    intro c hc
    rcases List.mem_append.mp hc with h1 | h1
    · exact List.all_eq_true.mp hsg c h1
    · rcases List.mem_cons.mp h1 with h2 | h2
      · subst h2; decide
      · exact List.all_eq_true.mp hgR c h2
  have hne : (s ++ 58 :: R) ≠ [] := by simp
  have hsplit := urlsplit_assembled_noauth s R hs1 hs2 hs3 (cleanUrl_eq_self _ hwg) htake2
  have h59 : (59 : Fin 256) ∉ (querySplit (fragSplit R).1).1 := by
    intro hm
    have h1 : (59 : Fin 256) ∈ R :=
      mem_fragSplit_fst R _ (mem_querySplit_fst _ _ hm)
    exact goodChar_ne59 59 (List.all_eq_true.mp hgR 59 h1) rfl
  rw [canon_formula _ hne (pyStrip_eq_self _ hwg) _ hsplit h59]
  dsimp only
  have hlne : (pyLower s).isEmpty = false := by
    rw [isEmpty_pyLower]
    exact List.isEmpty_eq_false.mpr hs1
  rw [pyLower_idem, if_neg (by rw [hlne]; exact Bool.false_ne_true)]
  rfl

/-- Normal form of `urlunparse` with netloc rendering, empty params and
fragment. -/
theorem unparse_netloc_eval (sch nl pth q : PyStr) (hs1 : sch ≠ [])
    (hcond : nl ≠ [] ∨ (sch ≠ [] ∧ sch ∈ usesNetloc ∧ pth.take 2 ≠ [47, 47])) :
    pyUrlunparse sch nl pth [] q [] =
      sch ++ 58 :: 47 :: 47 :: (nl ++
        ((if pth ≠ [] ∧ pth.take 1 ≠ [47] then 47 :: pth else pth) ++
          (if q ≠ [] then 63 :: q else []))) := by
  have hnilne : ¬(([] : PyStr) ≠ []) := fun hh => hh rfl
  simp only [pyUrlunparse, pyUrlunsplit, if_neg hnilne, if_pos hs1, if_pos hcond]
  by_cases hqe : q = []
  · subst hqe
    simp only [if_neg hnilne, List.append_nil]
  · simp only [if_pos hqe, List.append_assoc, List.cons_append]

/-- Normal form of `urlunparse` without netloc rendering, empty params and
fragment. -/
theorem unparse_noauth_eval (sch pth q : PyStr) (hs1 : sch ≠ [])
    (hcond : ¬((([] : PyStr) ≠ []) ∨
      (sch ≠ [] ∧ sch ∈ usesNetloc ∧ pth.take 2 ≠ [47, 47]))) :
    pyUrlunparse sch [] pth [] q [] =
      sch ++ 58 :: (pth ++ (if q ≠ [] then 63 :: q else [])) := by
  have hnilne : ¬(([] : PyStr) ≠ []) := fun hh => hh rfl
  simp only [pyUrlunparse, pyUrlunsplit, if_neg hnilne, if_pos hs1, if_neg hcond]
  by_cases hqe : q = []
  · subst hqe
    simp only [if_neg hnilne, List.append_nil]
  · simp only [if_pos hqe, List.append_assoc, List.cons_append]

/-- The output shape of `canonicalize_url` is a fixed point of
`canonicalize_url`: re-canonicalizing a canonical assembly returns it
unchanged. -/
theorem canon_reparse (sch nl p : PyStr) (L : List (PyStr × PyStr))
    (hs1 : sch ≠ []) (hs2 : ((sch.take 1).all isAlphaB) = true)
    (hs3 : (sch.all isSchemeCharB) = true) (hslow : pyLower sch = sch)
    (hnl : nl.all notNetlocDelim = true) (hnlow : pyLower nl = nl)
    (hnOk : netlocOk nl = true) (hng : nl.all goodChar = true)
    (hpg : p.all goodChar = true) (hp35 : (35 : Fin 256) ∉ p)
    (hp63 : (63 : Fin 256) ∉ p)
    (hcol : collapseSlashes p = p) (hrs : rstripSlash p = p) :
    canonicalize_url (pyUrlunparse sch nl p []
      (urlencodePairs (L.filter fun kv => !isTrackingKey kv.1)) []) =
    .ok (pyUrlunparse sch nl p []
      (urlencodePairs (L.filter fun kv => !isTrackingKey kv.1)) []) := by
  have hnd : noDouble p = true := by rw [← hcol]; exact noDouble_collapse p
  have htake2 : p.take 2 ≠ [47, 47] := noDouble_take2 p hnd
  have hqfacts : ∀ c ∈ urlencodePairs (L.filter fun kv => !isTrackingKey kv.1),
      goodChar c = true ∧ ¬(c = 35) ∧ ¬(c = 63) := urlencode_goodChar _
  have hqparse : parseQsl (urlencodePairs (L.filter fun kv => !isTrackingKey kv.1)) =
      L.filter fun kv => !isTrackingKey kv.1 := parseQsl_urlencode _
  generalize hq : urlencodePairs (L.filter fun kv => !isTrackingKey kv.1) = q
  rw [hq] at hqfacts hqparse
  have hqg : q.all goodChar = true := List.all_eq_true.mpr fun c hc => (hqfacts c hc).1
  have hq35 : (35 : Fin 256) ∉ q := fun hm => (hqfacts 35 hm).2.1 rfl
  have hqenc : urlencodePairs ((parseQsl q).filter fun kv => !isTrackingKey kv.1) = q := by
    rw [hqparse, filter_idem, hq]
  by_cases hA : nl ≠ [] ∨ sch ∈ usesNetloc
  · have hcond1 : nl ≠ [] ∨ (sch ≠ [] ∧ sch ∈ usesNetloc ∧ p.take 2 ≠ [47, 47]) := by
      rcases hA with h | h
      · exact Or.inl h
      · exact Or.inr ⟨hs1, h, htake2⟩
    rw [unparse_netloc_eval sch nl p q hs1 hcond1]
    by_cases hpp : p ≠ [] ∧ p.take 1 ≠ [47]
    · rw [if_pos hpp]
      have hcolpp : collapseSlashes (47 :: p) = 47 :: p := collapse_cons47 p hcol hpp.2
      have hrspp : rstripSlash (47 :: p) = 47 :: p := rstrip_cons47 p hrs hpp.1
      have htake247 : ((47 : Fin 256) :: p).take 2 ≠ [47, 47] := by
        intro he
        have he' : (47 : Fin 256) :: p.take 1 = [47, 47] := he
        exact hpp.2 (List.cons.inj he').2
      have hcond1' : nl ≠ [] ∨
          (sch ≠ [] ∧ sch ∈ usesNetloc ∧ ((47 : Fin 256) :: p).take 2 ≠ [47, 47]) := by
        rcases hA with h | h
        · exact Or.inl h
        · exact Or.inr ⟨hs1, h, htake247⟩
      have hgpp : ((47 : Fin 256) :: p).all goodChar = true := by
        rw [List.all_cons, hpg, Bool.and_true]
        decide
      have h63pp : (63 : Fin 256) ∉ (47 : Fin 256) :: p := by
        intro hm
        rcases List.mem_cons.mp hm with h2 | h2
        · exact absurd h2 (by decide)
        · exact hp63 h2
      by_cases hqe : q = []
      · subst hqe
        rw [if_neg (show ¬(([] : PyStr) ≠ []) from fun hh => hh rfl), List.append_nil]
        have h35r : (35 : Fin 256) ∉ (47 : Fin 256) :: p := by
          intro hm
          rcases List.mem_cons.mp hm with h2 | h2
          · exact absurd h2 (by decide)
          · exact hp35 h2
        rw [canon_structured sch nl (47 :: p) hs1 hs2 hs3 hnl hnOk hng hgpp
          (Or.inr ⟨47, p, rfl, by decide⟩)]
        rw [fragSplit_of_not_mem _ h35r, querySplit_of_not_mem _ h63pp]
        rw [hslow, hnlow, hcolpp, hrspp,
          show urlencodePairs ((parseQsl ([] : PyStr)).filter
            fun kv => !isTrackingKey kv.1) = [] from rfl]
        rw [unparse_netloc_eval sch nl (47 :: p) [] hs1 hcond1']
        rw [if_neg (show ¬((47 : Fin 256) :: p ≠ [] ∧ ((47 : Fin 256) :: p).take 1 ≠ [47])
          from fun hcon => hcon.2 rfl)]
        rw [if_neg (show ¬(([] : PyStr) ≠ []) from fun hh => hh rfl), List.append_nil]
      · rw [if_pos hqe]
        have h35r : (35 : Fin 256) ∉ ((47 : Fin 256) :: p) ++ 63 :: q := by
          intro hm
          rcases List.mem_append.mp hm with h1 | h1
          · rcases List.mem_cons.mp h1 with h2 | h2
            · exact absurd h2 (by decide)
            · exact hp35 h2
          · rcases List.mem_cons.mp h1 with h2 | h2
            · exact absurd h2 (by decide)
            · exact (hqfacts 35 h2).2.1 rfl
        have hgr : (((47 : Fin 256) :: p) ++ 63 :: q).all goodChar = true := by
          rw [List.all_append, hgpp, List.all_cons, hqg, Bool.and_true, Bool.true_and]
          decide
        rw [canon_structured sch nl ((47 :: p) ++ 63 :: q) hs1 hs2 hs3 hnl hnOk hng hgr
          (Or.inr ⟨47, p ++ 63 :: q, by simp, by decide⟩)]
        rw [fragSplit_of_not_mem _ h35r, querySplit_append _ _ h63pp]
        rw [hslow, hnlow, hcolpp, hrspp, hqenc]
        rw [unparse_netloc_eval sch nl (47 :: p) q hs1 hcond1']
        rw [if_neg (show ¬((47 : Fin 256) :: p ≠ [] ∧ ((47 : Fin 256) :: p).take 1 ≠ [47])
          from fun hcon => hcon.2 rfl)]
        rw [if_pos hqe]
    · rw [if_neg hpp]
      by_cases hqe : q = []
      · subst hqe
        rw [if_neg (show ¬(([] : PyStr) ≠ []) from fun hh => hh rfl), List.append_nil]
        have hrestp : p = [] ∨ ∃ c r', p = c :: r' ∧ notNetlocDelim c = false := by
          by_cases hpe : p = []
          · exact Or.inl hpe
          · have h1 : p.take 1 = [47] := by
              by_cases ht : p.take 1 = [47]
              · exact ht
              · exact absurd ⟨hpe, ht⟩ hpp
            cases p with
            | nil => exact absurd rfl hpe
            | cons c t =>
              have hc : c = 47 := by
                have : c :: t.take 0 = [(47 : Fin 256)] := h1
                exact (List.cons.inj this).1
              exact Or.inr ⟨c, t, rfl, by rw [hc]; decide⟩
        rw [canon_structured sch nl p hs1 hs2 hs3 hnl hnOk hng hpg hrestp]
        rw [fragSplit_of_not_mem _ hp35, querySplit_of_not_mem _ hp63]
        rw [hslow, hnlow, hcol, hrs,
          show urlencodePairs ((parseQsl ([] : PyStr)).filter
            fun kv => !isTrackingKey kv.1) = [] from rfl]
        rw [unparse_netloc_eval sch nl p [] hs1 hcond1]
        rw [if_neg hpp, if_neg (show ¬(([] : PyStr) ≠ []) from fun hh => hh rfl),
          List.append_nil]
      · rw [if_pos hqe]
        have hrestpq : p ++ 63 :: q = [] ∨
            ∃ c r', p ++ 63 :: q = c :: r' ∧ notNetlocDelim c = false := by
          cases p with
          | nil => exact Or.inr ⟨63, q, rfl, by decide⟩
          | cons c t =>
            by_cases ht : (c :: t).take 1 = [47]
            · have hc : c = 47 := by
                have : c :: t.take 0 = [(47 : Fin 256)] := ht
                exact (List.cons.inj this).1
              exact Or.inr ⟨c, t ++ 63 :: q, rfl, by rw [hc]; decide⟩
            · exact absurd ⟨by simp, ht⟩ hpp
        have h35r : (35 : Fin 256) ∉ p ++ 63 :: q := by
          intro hm
          rcases List.mem_append.mp hm with h1 | h1
          · exact hp35 h1
          · rcases List.mem_cons.mp h1 with h2 | h2
            · exact absurd h2 (by decide)
            · exact (hqfacts 35 h2).2.1 rfl
        have hgr : (p ++ 63 :: q).all goodChar = true := by
          rw [List.all_append, hpg, List.all_cons, hqg, Bool.and_true, Bool.true_and]
          decide
        rw [canon_structured sch nl (p ++ 63 :: q) hs1 hs2 hs3 hnl hnOk hng hgr hrestpq]
        rw [fragSplit_of_not_mem _ h35r, querySplit_append _ _ hp63]
        rw [hslow, hnlow, hcol, hrs, hqenc]
        rw [unparse_netloc_eval sch nl p q hs1 hcond1]
        rw [if_neg hpp, if_pos hqe]
  · push_neg at hA
    obtain ⟨hnlE, hsu⟩ := hA
    subst hnlE
    have hcond1 : ¬((([] : PyStr) ≠ []) ∨
        (sch ≠ [] ∧ sch ∈ usesNetloc ∧ p.take 2 ≠ [47, 47])) := by
      rintro (h | ⟨-, h2, -⟩)
      · exact h rfl
      · exact hsu h2
    rw [unparse_noauth_eval sch p q hs1 hcond1]
    by_cases hqe : q = []
    · subst hqe
      rw [if_neg (show ¬(([] : PyStr) ≠ []) from fun hh => hh rfl), List.append_nil]
      rw [canon_structured_noauth sch p hs1 hs2 hs3 hpg htake2]
      rw [fragSplit_of_not_mem _ hp35, querySplit_of_not_mem _ hp63]
      rw [hslow, hcol, hrs,
        show urlencodePairs ((parseQsl ([] : PyStr)).filter
          fun kv => !isTrackingKey kv.1) = [] from rfl]
      rw [unparse_noauth_eval sch p [] hs1 hcond1]
      rw [if_neg (show ¬(([] : PyStr) ≠ []) from fun hh => hh rfl), List.append_nil]
    · rw [if_pos hqe]
      have h35r : (35 : Fin 256) ∉ p ++ 63 :: q := by
        intro hm
        rcases List.mem_append.mp hm with h1 | h1
        · exact hp35 h1
        · rcases List.mem_cons.mp h1 with h2 | h2
          · exact absurd h2 (by decide)
          · exact (hqfacts 35 h2).2.1 rfl
      have hgr : (p ++ 63 :: q).all goodChar = true := by
        rw [List.all_append, hpg, List.all_cons, hqg, Bool.and_true, Bool.true_and]
        decide
      have htake2R : (p ++ 63 :: q).take 2 ≠ [47, 47] :=
        take2_ne_4747 p (63 :: q) hnd hrs (Or.inr rfl)
      rw [canon_structured_noauth sch (p ++ 63 :: q) hs1 hs2 hs3 hgr htake2R]
      rw [fragSplit_of_not_mem _ h35r, querySplit_append _ _ hp63]
      rw [hslow, hcol, hrs, hqenc]
      rw [unparse_noauth_eval sch p q hs1 hcond1]
      rw [if_pos hqe]

/-- On an all-good input whose parse succeeds, re-canonicalizing the
canonical output returns it unchanged. -/
theorem canon_good_roundtrip (u S N P Q F : PyStr) (hgood : u.all goodChar = true)
    (hne : u ≠ [])
    (hS : (schemeSplit u).1 = S) (hN : (netlocSplit (schemeSplit u).2).1 = N)
    (hP : (querySplit (fragSplit (netlocSplit (schemeSplit u).2).2).1).1 = P)
    (hsplit : pyUrlsplit u = .ok ⟨S, N, P, Q, F⟩) :
    (canonicalize_url u).bind canonicalize_url = canonicalize_url u := by
  have hclean : cleanUrl u = u := cleanUrl_eq_self u hgood
  have hstrip : pyStrip u = u := pyStrip_eq_self u hgood
  have hugood := List.all_eq_true.mp hgood
  have hmemN : ∀ c ∈ N, c ∈ u := by
    rw [← hN]
    exact fun c hc => mem_schemeSplit_snd u c (mem_netlocSplit_fst _ c hc)
  have hmemP : ∀ c ∈ P, c ∈ u := by
    rw [← hP]
    intro c hc
    exact mem_schemeSplit_snd u c (mem_netlocSplit_snd _ c
      (mem_fragSplit_fst _ c (mem_querySplit_fst _ c hc)))
  have h59P : (59 : Fin 256) ∉ P := fun hm => goodChar_ne59 59 (hugood 59 (hmemP 59 hm)) rfl
  have h35P : (35 : Fin 256) ∉ P := by
    rw [← hP]
    intro hm
    exact fragSplit_no35 _ (mem_querySplit_fst _ _ hm)
  have h63P : (63 : Fin 256) ∉ P := by
    rw [← hP]
    exact querySplit_no63 _
  have hOkN : netlocOk N = true := by
    rw [← hN]
    by_cases h : netlocOk (netlocSplit (schemeSplit u).2).1 = true
    · exact h
    · exfalso
      rw [pyUrlsplit_eq, hclean, if_neg h] at hsplit
      exact Except.noConfusion hsplit
  have hprops := schemeSplit_props u
  rw [hS] at hprops
  have hsch : (if (pyLower S).isEmpty then pstr "https" else pyLower S) ≠ [] ∧
      (((if (pyLower S).isEmpty then pstr "https" else pyLower S).take 1).all isAlphaB)
        = true ∧
      ((if (pyLower S).isEmpty then pstr "https" else pyLower S).all isSchemeCharB)
        = true ∧
      pyLower (if (pyLower S).isEmpty then pstr "https" else pyLower S) =
        (if (pyLower S).isEmpty then pstr "https" else pyLower S) := by
    rcases hprops with hS0 | ⟨hS1, hS2, hS3, hS4⟩
    · subst hS0
      rw [show pyLower ([] : PyStr) = [] from rfl,
        if_pos (show List.isEmpty ([] : PyStr) = true from rfl)]
      exact ⟨by decide, by decide, by decide, by decide⟩
    · rw [hS4, if_neg (by rw [List.isEmpty_eq_false.mpr hS1]; exact Bool.false_ne_true)]
      exact ⟨hS1, hS2, hS3, hS4⟩
  have hNall : N.all notNetlocDelim = true := by
    rw [← hN]
    exact netlocSplit_props _
  rw [canon_formula u hne hstrip _ hsplit h59P]
  show canonicalize_url (pyUrlunparse
      (if (pyLower S).isEmpty then pstr "https" else pyLower S) (pyLower N)
      (rstripSlash (collapseSlashes P)) []
      (urlencodePairs ((parseQsl Q).filter fun kv => !isTrackingKey kv.1)) []) = _
  exact canon_reparse _ (pyLower N) (rstripSlash (collapseSlashes P)) (parseQsl Q)
    hsch.1 hsch.2.1 hsch.2.2.1 hsch.2.2.2
    (by rw [all_pyLower notNetlocDelim notNetlocDelim_lower N]; exact hNall)
    (pyLower_idem N)
    (netlocOk_lower N hOkN)
    (List.all_eq_true.mpr fun c hc => by
      obtain ⟨c0, hc0, hlc⟩ := List.mem_map.mp hc
      rw [← hlc]
      exact goodChar_lower c0 (hugood c0 (hmemN c0 hc0)))
    (List.all_eq_true.mpr fun c hc =>
      hugood c (hmemP c (mem_collapse c P (mem_rstrip c _ hc))))
    (fun hm => h35P (mem_collapse _ _ (mem_rstrip _ _ hm)))
    (fun hm => h63P (mem_collapse _ _ (mem_rstrip _ _ hm)))
    (collapse_fix _ (noDouble_rstrip _ (noDouble_collapse P)))
    (rstrip_idem _)

/-- C6 counterexample: `canonicalize_url` is not idempotent in general.  The
params split exposes a `;`-suffix (`http://h/b;x/` maps to `http://h/b;x`,
which re-canonicalizes to `http://h/b`), and the trailing-slash strip exposes
trailing whitespace (`http://h/a /` maps to `http://h/a `, which
re-canonicalizes to `http://h/a`). -/
theorem C6_counterexample :
    (canonicalize_url (pstr "http://h/b;x/")).bind canonicalize_url ≠
      canonicalize_url (pstr "http://h/b;x/") ∧
    (canonicalize_url (pstr "http://h/a /")).bind canonicalize_url ≠
      canonicalize_url (pstr "http://h/a /") := by
  constructor
  · decide
  · decide

/-- C6 (amended): `canonicalize_url` is idempotent on every URL string whose
bytes are all above the whitespace/control range (no bytes ≤ 0x20, no NEL
0x85, no NBSP 0xA0) and contain no semicolon: a second application returns
the first result unchanged, and parse errors propagate unchanged. -/
theorem C6_canonicalize_idempotent (u : PyStr) (hgood : u.all goodChar = true) :
    (canonicalize_url u).bind canonicalize_url = canonicalize_url u := by
  by_cases hne : u = []
  · subst hne
    rfl
  · have hclean : cleanUrl u = u := cleanUrl_eq_self u hgood
    by_cases hOk : netlocOk (netlocSplit (schemeSplit u).2).1 = true
    · exact canon_good_roundtrip u _ _ _ _ _ hgood hne rfl rfl rfl
        (by rw [pyUrlsplit_eq, hclean, if_pos hOk])
    · have hsplit : pyUrlsplit u = .error () := by
        rw [pyUrlsplit_eq, hclean, if_neg hOk]
      rw [canon_error u hne (pyStrip_eq_self u hgood) hsplit]
      rfl

/-! Toolkit for the canonical-equivalence variants. -/

/-- Right-stripping slashes over a `cons`, as a closed formula. -/
theorem rstrip_cons (c : Fin 256) (X : PyStr) :
    rstripSlash (c :: X) =
      if rstripSlash X = [] then (if c = 47 then [] else [c])
      else c :: rstripSlash X := by
  unfold rstripSlash
  rw [show ((c :: X).reverse) = X.reverse ++ [c] by simp]
  rw [List.dropWhile_append]
  by_cases hX : (List.dropWhile (fun c => c = 47) X.reverse).isEmpty = true
  · rw [if_pos hX]
    have hX' : (List.dropWhile (fun c => c = 47) X.reverse).reverse = [] := by
      rw [List.isEmpty_iff] at hX
      rw [hX]
      rfl
    rw [if_pos hX']
    by_cases hc : c = (47 : Fin 256)
    · subst hc
      rw [if_pos (show (47 : Fin 256) = 47 from rfl)]
      rfl
    · rw [if_neg hc, List.dropWhile_cons_of_neg (by simpa using hc)]
      rfl
  · rw [if_neg hX]
    have hX' : ¬((List.dropWhile (fun c => c = 47) X.reverse).reverse = []) := by
      intro he
      apply hX
      rw [List.isEmpty_iff]
      have h2 := congrArg List.reverse he
      rwa [List.reverse_reverse] at h2
    rw [if_neg hX', List.reverse_append]
    rfl

/-- Right-stripping respects tails equal up to right-stripping. -/
theorem rstrip_cons_congr (c : Fin 256) (A B : PyStr)
    (h : rstripSlash A = rstripSlash B) :
    rstripSlash (c :: A) = rstripSlash (c :: B) := by
  rw [rstrip_cons, rstrip_cons, h]

/-- Slash collapsing over a `cons`, as a closed formula. -/
theorem collapse_cons_formula (c : Fin 256) (X : PyStr) :
    collapseSlashes (c :: X) =
      if c = 47 ∧ X.head? = some 47 then collapseSlashes X
      else c :: collapseSlashes X := by
  cases X with
  | nil =>
    rw [if_neg (by rintro ⟨-, h2⟩; exact Option.noConfusion h2)]
    rfl
  | cons c2 t =>
    by_cases h : c = (47 : Fin 256) ∧ c2 = (47 : Fin 256)
    · rw [collapseSlashes, if_pos (by simp [h.1, h.2]),
        if_pos ⟨h.1, show some c2 = some 47 by rw [h.2]⟩]
    · rw [collapseSlashes, if_neg (by rw [not47_pair h]; exact Bool.false_ne_true),
        if_neg (by rintro ⟨h1, h2⟩; exact h ⟨h1, Option.some.inj h2⟩)]

/-- Collapsing merges an inserted duplicate slash. -/
theorem collapse_merge : ∀ a b : PyStr,
    collapseSlashes (a ++ 47 :: 47 :: b) = collapseSlashes (a ++ 47 :: b) := by
  intro a
  induction a with
  | nil =>
    intro b
    rw [List.nil_append, List.nil_append, collapseSlashes, if_pos (by decide)]
  | cons c t ih =>
    intro b
    rw [List.cons_append, List.cons_append, collapse_cons_formula, collapse_cons_formula,
      ih b]
    have hhead : (t ++ 47 :: 47 :: b).head? = (t ++ 47 :: b).head? := by
      cases t <;> rfl
    rw [hhead]

/-- A trailing slash disappears under collapse-then-right-strip. -/
theorem rstrip_collapse_snoc47 : ∀ x : PyStr,
    rstripSlash (collapseSlashes (x ++ [47])) = rstripSlash (collapseSlashes x) := by
  intro x
  induction x with
  | nil => decide
  | cons c t ih =>
    cases t with
    | nil =>
      by_cases hc : c = (47 : Fin 256)
      · subst hc
        decide
      · have h1 : collapseSlashes ([c] ++ [47]) = [c, 47] := by
          rw [show ([c] : PyStr) ++ [47] = c :: [47] from rfl, collapse_cons_formula,
            if_neg (by rintro ⟨h1, -⟩; exact hc h1)]
          rfl
        rw [h1, show collapseSlashes [c] = [c] from rfl,
          show ([c, 47] : PyStr) = c :: [47] from rfl, rstrip_cons c [47],
          show ([c] : PyStr) = c :: [] from rfl, rstrip_cons c [],
          if_pos (show rstripSlash [(47 : Fin 256)] = [] from rfl),
          if_pos (show rstripSlash ([] : PyStr) = [] from rfl)]
    | cons c2 t' =>
      rw [List.cons_append, collapse_cons_formula, collapse_cons_formula]
      simp only [List.cons_append, List.head?_cons]
      by_cases h : c = (47 : Fin 256) ∧ some c2 = some (47 : Fin 256)
      · rw [if_pos h, if_pos h]
        exact ih
      · rw [if_neg h, if_neg h]
        exact rstrip_cons_congr c _ _ ih

/-- The fragment split at an explicit `#`. -/
theorem fragSplit_append (x f : PyStr) (hx : (35 : Fin 256) ∉ x) :
    fragSplit (x ++ 35 :: f) = (x, f) := by
  unfold fragSplit
  rw [splitFirst_append 35 x f hx]

/-- `parse_qsl` decodes one raw `key=value` field. -/
theorem parseQsl_field_raw (k v : PyStr) (h61 : (61 : Fin 256) ∉ k)
    (h38 : (38 : Fin 256) ∉ k ++ 61 :: v) :
    parseQsl (k ++ 61 :: v) = [(pyUnquotePlus k, pyUnquotePlus v)] := by
  have hfe : (k ++ 61 :: v).isEmpty = false := by simp
  have hsf : splitFirst 61 (k ++ 61 :: v) = some (k, v) := splitFirst_append 61 _ _ h61
  rw [parseQsl, hfe]
  simp only [Bool.false_eq_true, if_false]
  rw [splitAllOn_not_mem 38 _ h38]
  simp [hfe, hsf]

/-- Lowering preserves all-goodness. -/
theorem all_goodChar_pyLower (s : PyStr) (h : s.all goodChar = true) :
    (pyLower s).all goodChar = true := by
  rw [List.all_eq_true] at h ⊢
  intro c hc
  obtain ⟨c0, hc0, hlc⟩ := List.mem_map.mp hc
  rw [← hlc]
  exact goodChar_lower c0 (h c0 hc0)

/-- A fragment suffix does not change the canonical URL. -/
theorem canon_variant_fragment (s h rest f : PyStr) (hctx : urlCtx s h)
    (hgr : rest.all goodChar = true) (hgf : f.all goodChar = true)
    (h35 : (35 : Fin 256) ∉ rest)
    (hrest : rest = [] ∨ ∃ c r', rest = c :: r' ∧ notNetlocDelim c = false) :
    canonicalize_url (s ++ 58 :: 47 :: 47 :: (h ++ (rest ++ 35 :: f))) =
      canonicalize_url (s ++ 58 :: 47 :: 47 :: (h ++ rest)) := by
  obtain ⟨hs1, hs2, hs3, hh, hOk, hgh⟩ := hctx
  have hrest' : rest ++ 35 :: f = [] ∨
      ∃ c r', rest ++ 35 :: f = c :: r' ∧ notNetlocDelim c = false := by
    rcases hrest with hre | ⟨c, r', hre, hcf⟩
    · subst hre
      exact Or.inr ⟨35, f, rfl, by decide⟩
    · subst hre
      exact Or.inr ⟨c, r' ++ 35 :: f, rfl, hcf⟩
  have hgr' : (rest ++ 35 :: f).all goodChar = true := by
    rw [List.all_append, hgr, List.all_cons, hgf, Bool.and_true, Bool.true_and]
    decide
  rw [canon_structured s h _ hs1 hs2 hs3 hh hOk hgh hgr' hrest',
    canon_structured s h _ hs1 hs2 hs3 hh hOk hgh hgr hrest,
    fragSplit_append _ _ h35, fragSplit_of_not_mem _ h35]

/-- A trailing slash does not change the canonical URL. -/
theorem canon_variant_trailing_slash (s h rest : PyStr) (hctx : urlCtx s h)
    (hgr : rest.all goodChar = true) (h35 : (35 : Fin 256) ∉ rest)
    (h63 : (63 : Fin 256) ∉ rest)
    (hrest : rest = [] ∨ ∃ c r', rest = c :: r' ∧ notNetlocDelim c = false) :
    canonicalize_url (s ++ 58 :: 47 :: 47 :: (h ++ (rest ++ [47]))) =
      canonicalize_url (s ++ 58 :: 47 :: 47 :: (h ++ rest)) := by
  obtain ⟨hs1, hs2, hs3, hh, hOk, hgh⟩ := hctx
  have h35' : (35 : Fin 256) ∉ rest ++ [47] := by
    intro hm
    rcases List.mem_append.mp hm with h1 | h1
    · exact h35 h1
    · rcases List.mem_cons.mp h1 with h2 | h2
      · exact absurd h2 (by decide)
      · cases h2
  have h63' : (63 : Fin 256) ∉ rest ++ [47] := by
    intro hm
    rcases List.mem_append.mp hm with h1 | h1
    · exact h63 h1
    · rcases List.mem_cons.mp h1 with h2 | h2
      · exact absurd h2 (by decide)
      · cases h2
  have hrest' : rest ++ [47] = [] ∨
      ∃ c r', rest ++ [47] = c :: r' ∧ notNetlocDelim c = false := by
    rcases hrest with hre | ⟨c, r', hre, hcf⟩
    · subst hre
      exact Or.inr ⟨47, [], rfl, by decide⟩
    · subst hre
      exact Or.inr ⟨c, r' ++ [47], List.cons_append c r' [47], hcf⟩
  have hgr' : (rest ++ [47]).all goodChar = true := by
    rw [List.all_append, hgr, Bool.true_and]
    decide
  rw [canon_structured s h _ hs1 hs2 hs3 hh hOk hgh hgr' hrest',
    canon_structured s h _ hs1 hs2 hs3 hh hOk hgh hgr hrest,
    fragSplit_of_not_mem _ h35', fragSplit_of_not_mem _ h35]
  dsimp only
  rw [querySplit_of_not_mem _ h63', querySplit_of_not_mem _ h63]
  dsimp only
  rw [rstrip_collapse_snoc47]

/-- A duplicated path slash does not change the canonical URL. -/
theorem canon_variant_collapse (s h a b : PyStr) (hctx : urlCtx s h)
    (hga : a.all goodChar = true) (hgb : b.all goodChar = true)
    (h35a : (35 : Fin 256) ∉ a) (h35b : (35 : Fin 256) ∉ b)
    (h63a : (63 : Fin 256) ∉ a) (h63b : (63 : Fin 256) ∉ b)
    (ha : a = [] ∨ ∃ c r', a = c :: r' ∧ notNetlocDelim c = false) :
    canonicalize_url (s ++ 58 :: 47 :: 47 :: (h ++ (a ++ 47 :: 47 :: b))) =
      canonicalize_url (s ++ 58 :: 47 :: 47 :: (h ++ (a ++ 47 :: b))) := by
  obtain ⟨hs1, hs2, hs3, hh, hOk, hgh⟩ := hctx
  have h351 : (35 : Fin 256) ∉ a ++ 47 :: 47 :: b := by
    intro hm
    rcases List.mem_append.mp hm with h1 | h1
    · exact h35a h1
    · rcases List.mem_cons.mp h1 with h2 | h2
      · exact absurd h2 (by decide)
      · rcases List.mem_cons.mp h2 with h3 | h3
        · exact absurd h3 (by decide)
        · exact h35b h3
  have h352 : (35 : Fin 256) ∉ a ++ 47 :: b := by
    intro hm
    rcases List.mem_append.mp hm with h1 | h1
    · exact h35a h1
    · rcases List.mem_cons.mp h1 with h2 | h2
      · exact absurd h2 (by decide)
      · exact h35b h2
  have h631 : (63 : Fin 256) ∉ a ++ 47 :: 47 :: b := by
    intro hm
    rcases List.mem_append.mp hm with h1 | h1
    · exact h63a h1
    · rcases List.mem_cons.mp h1 with h2 | h2
      · exact absurd h2 (by decide)
      · rcases List.mem_cons.mp h2 with h3 | h3
        · exact absurd h3 (by decide)
        · exact h63b h3
  have h632 : (63 : Fin 256) ∉ a ++ 47 :: b := by
    intro hm
    rcases List.mem_append.mp hm with h1 | h1
    · exact h63a h1
    · rcases List.mem_cons.mp h1 with h2 | h2
      · exact absurd h2 (by decide)
      · exact h63b h2
  have hrest1 : a ++ 47 :: 47 :: b = [] ∨
      ∃ c r', a ++ 47 :: 47 :: b = c :: r' ∧ notNetlocDelim c = false := by
    rcases ha with hre | ⟨c, r', hre, hcf⟩
    · subst hre
      exact Or.inr ⟨47, 47 :: b, rfl, by decide⟩
    · subst hre
      exact Or.inr ⟨c, r' ++ 47 :: 47 :: b, rfl, hcf⟩
  have hrest2 : a ++ 47 :: b = [] ∨
      ∃ c r', a ++ 47 :: b = c :: r' ∧ notNetlocDelim c = false := by
    rcases ha with hre | ⟨c, r', hre, hcf⟩
    · subst hre
      exact Or.inr ⟨47, b, rfl, by decide⟩
    · subst hre
      exact Or.inr ⟨c, r' ++ 47 :: b, rfl, hcf⟩
  have hg1 : (a ++ 47 :: 47 :: b).all goodChar = true := by
    rw [List.all_append, hga, List.all_cons, List.all_cons, hgb, Bool.and_true,
      Bool.true_and]
    decide
  have hg2 : (a ++ 47 :: b).all goodChar = true := by
    rw [List.all_append, hga, List.all_cons, hgb, Bool.and_true, Bool.true_and]
    decide
  rw [canon_structured s h _ hs1 hs2 hs3 hh hOk hgh hg1 hrest1,
    canon_structured s h _ hs1 hs2 hs3 hh hOk hgh hg2 hrest2,
    fragSplit_of_not_mem _ h351, fragSplit_of_not_mem _ h352]
  dsimp only
  rw [querySplit_of_not_mem _ h631, querySplit_of_not_mem _ h632]
  dsimp only
  rw [collapse_merge]

/-- Lowercasing scheme and host does not change the canonical URL. -/
theorem canon_variant_case (s h rest : PyStr) (hctx : urlCtx s h)
    (hgr : rest.all goodChar = true)
    (hrest : rest = [] ∨ ∃ c r', rest = c :: r' ∧ notNetlocDelim c = false) :
    canonicalize_url (pyLower s ++ 58 :: 47 :: 47 :: (pyLower h ++ rest)) =
      canonicalize_url (s ++ 58 :: 47 :: 47 :: (h ++ rest)) := by
  obtain ⟨hs1, hs2, hs3, hh, hOk, hgh⟩ := hctx
  have hs1' : pyLower s ≠ [] := by
    intro he
    cases s with
    | nil => exact hs1 rfl
    | cons a t => simp [pyLower] at he
  have hs2' : ((pyLower s).take 1).all isAlphaB = true := by
    rw [take_pyLower, all_pyLower isAlphaB isAlphaB_lower]
    exact hs2
  have hs3' : (pyLower s).all isSchemeCharB = true := by
    rw [all_pyLower isSchemeCharB isSchemeCharB_lower]
    exact hs3
  have hh' : (pyLower h).all notNetlocDelim = true := by
    rw [all_pyLower notNetlocDelim notNetlocDelim_lower]
    exact hh
  rw [canon_structured (pyLower s) (pyLower h) rest hs1' hs2' hs3' hh'
      (netlocOk_lower h hOk) (all_goodChar_pyLower h hgh) hgr hrest,
    canon_structured s h rest hs1 hs2 hs3 hh hOk hgh hgr hrest,
    pyLower_idem, pyLower_idem]

/-- A leading tracking query parameter does not change the canonical URL. -/
theorem canon_variant_tracking (s h rest k v r : PyStr) (hctx : urlCtx s h)
    (hgr : rest.all goodChar = true) (hgk : k.all goodChar = true)
    (hgv : v.all goodChar = true) (hgq : r.all goodChar = true)
    (h35r : (35 : Fin 256) ∉ rest) (h63r : (63 : Fin 256) ∉ rest)
    (h35k : (35 : Fin 256) ∉ k) (h35v : (35 : Fin 256) ∉ v)
    (h35q : (35 : Fin 256) ∉ r)
    (h61k : (61 : Fin 256) ∉ k) (h38k : (38 : Fin 256) ∉ k) (h38v : (38 : Fin 256) ∉ v)
    (hrne : r ≠ [])
    (htrk : isTrackingKey (pyUnquotePlus k) = true)
    (hrest : rest = [] ∨ ∃ c r', rest = c :: r' ∧ notNetlocDelim c = false) :
    canonicalize_url (s ++ 58 :: 47 :: 47 ::
        (h ++ (rest ++ 63 :: ((k ++ 61 :: v) ++ 38 :: r)))) =
      canonicalize_url (s ++ 58 :: 47 :: 47 :: (h ++ (rest ++ 63 :: r))) := by
  obtain ⟨hs1, hs2, hs3, hh, hOk, hgh⟩ := hctx
  have h38f : (38 : Fin 256) ∉ k ++ 61 :: v := by
    intro hm
    rcases List.mem_append.mp hm with h1 | h1
    · exact h38k h1
    · rcases List.mem_cons.mp h1 with h2 | h2
      · exact absurd h2 (by decide)
      · exact h38v h2
  have h35Q : (35 : Fin 256) ∉ (k ++ 61 :: v) ++ 38 :: r := by
    intro hm
    rcases List.mem_append.mp hm with h1 | h1
    · rcases List.mem_append.mp h1 with h2 | h2
      · exact h35k h2
      · rcases List.mem_cons.mp h2 with h3 | h3
        · exact absurd h3 (by decide)
        · exact h35v h3
    · rcases List.mem_cons.mp h1 with h2 | h2
      · exact absurd h2 (by decide)
      · exact h35q h2
  have h351 : (35 : Fin 256) ∉ rest ++ 63 :: ((k ++ 61 :: v) ++ 38 :: r) := by
    intro hm
    rcases List.mem_append.mp hm with h1 | h1
    · exact h35r h1
    · rcases List.mem_cons.mp h1 with h2 | h2
      · exact absurd h2 (by decide)
      · exact h35Q h2
  have h352 : (35 : Fin 256) ∉ rest ++ 63 :: r := by
    intro hm
    rcases List.mem_append.mp hm with h1 | h1
    · exact h35r h1
    · rcases List.mem_cons.mp h1 with h2 | h2
      · exact absurd h2 (by decide)
      · exact h35q h2
  have hgQ : ((k ++ 61 :: v) ++ 38 :: r).all goodChar = true := by
    rw [List.all_append, List.all_append, hgk, List.all_cons, hgv, List.all_cons, hgq]
    decide
  have hg1 : (rest ++ 63 :: ((k ++ 61 :: v) ++ 38 :: r)).all goodChar = true := by
    rw [List.all_append, hgr, List.all_cons, hgQ, Bool.and_true, Bool.true_and]
    decide
  have hg2 : (rest ++ 63 :: r).all goodChar = true := by
    rw [List.all_append, hgr, List.all_cons, hgq, Bool.and_true, Bool.true_and]
    decide
  have hrest1 : rest ++ 63 :: ((k ++ 61 :: v) ++ 38 :: r) = [] ∨
      ∃ c r', rest ++ 63 :: ((k ++ 61 :: v) ++ 38 :: r) = c :: r' ∧
        notNetlocDelim c = false := by
    rcases hrest with hre | ⟨c, r', hre, hcf⟩
    · subst hre
      exact Or.inr ⟨63, (k ++ 61 :: v) ++ 38 :: r, rfl, by decide⟩
    · subst hre
      exact Or.inr ⟨c, r' ++ 63 :: ((k ++ 61 :: v) ++ 38 :: r), rfl, hcf⟩
  have hrest2 : rest ++ 63 :: r = [] ∨
      ∃ c r', rest ++ 63 :: r = c :: r' ∧ notNetlocDelim c = false := by
    rcases hrest with hre | ⟨c, r', hre, hcf⟩
    · subst hre
      exact Or.inr ⟨63, r, rfl, by decide⟩
    · subst hre
      exact Or.inr ⟨c, r' ++ 63 :: r, rfl, hcf⟩
  rw [canon_structured s h _ hs1 hs2 hs3 hh hOk hgh hg1 hrest1,
    canon_structured s h _ hs1 hs2 hs3 hh hOk hgh hg2 hrest2,
    fragSplit_of_not_mem _ h351, fragSplit_of_not_mem _ h352]
  dsimp only
  rw [querySplit_append _ _ h63r, querySplit_append _ _ h63r]
  dsimp only
  rw [parseQsl_append _ _ h38f hrne, parseQsl_field_raw k v h61k h38f]
  rw [show ([(pyUnquotePlus k, pyUnquotePlus v)] ++ parseQsl r).filter
        (fun kv => !isTrackingKey kv.1) =
      (parseQsl r).filter (fun kv => !isTrackingKey kv.1) by
    rw [List.filter_append]
    rw [show List.filter (fun kv => !isTrackingKey kv.1)
          [(pyUnquotePlus k, pyUnquotePlus v)] = [] by
      simp [List.filter, htrk]]
    rfl]

/-- C6 witness: the amended idempotence theorem applied to a concrete clean
URL (uppercase host, double slash, trailing slash, tracking parameter). -/
theorem C6_canonicalize_idempotent_witness :
    (pstr "http://News.Example.com//a/b/?utm_source=x&id=1").all goodChar = true ∧
    (canonicalize_url (pstr "http://News.Example.com//a/b/?utm_source=x&id=1")).bind
        canonicalize_url =
      canonicalize_url (pstr "http://News.Example.com//a/b/?utm_source=x&id=1") :=
  ⟨by decide, C6_canonicalize_idempotent _ (by decide)⟩

/-- C7 counterexample: the unrestricted equivalence claim is false.
`http://h/b;x/` and `http://h/b;x` differ only in a trailing slash, yet they
canonicalize to `http://h/b;x` and `http://h/b` respectively: stripping the
trailing slash moves the `;x` suffix into the last path segment, where the
params split of `urlparse` removes it. -/
theorem C7_counterexample :
    canonicalize_url (pstr "http://h/b;x/") = .ok (pstr "http://h/b;x") ∧
    canonicalize_url (pstr "http://h/b;x") = .ok (pstr "http://h/b") ∧
    canonicalize_url (pstr "http://h/b;x/") ≠ canonicalize_url (pstr "http://h/b;x") := by
  refine ⟨by decide, by decide, by decide⟩

/-- C7 (amended): for well-formed absolute URLs assembled from a valid scheme
and a delimiter-free bracket-valid host over clean bytes (all bytes above
0x20, no NEL, no NBSP, no semicolon), two URLs that differ only in a
fragment, a trailing slash, a duplicated path slash, the case of scheme and
host, or a dropped leading tracking query parameter canonicalize
identically; in particular the two cited example URLs do.  Outside the clean
domain the equivalence fails (see the counterexample). -/
theorem C7_canonical_equivalences :
    (canonicalize_url (pstr "https://Example.com/a//b/?utm_source=x&id=1") =
      canonicalize_url (pstr "https://example.com/a/b?id=1")) ∧
    (∀ s h rest f : PyStr, urlCtx s h → rest.all goodChar = true →
      f.all goodChar = true → (35 : Fin 256) ∉ rest →
      (rest = [] ∨ ∃ c r', rest = c :: r' ∧ notNetlocDelim c = false) →
      canonicalize_url (s ++ 58 :: 47 :: 47 :: (h ++ (rest ++ 35 :: f))) =
        canonicalize_url (s ++ 58 :: 47 :: 47 :: (h ++ rest))) ∧
    (∀ s h rest : PyStr, urlCtx s h → rest.all goodChar = true →
      (35 : Fin 256) ∉ rest → (63 : Fin 256) ∉ rest →
      (rest = [] ∨ ∃ c r', rest = c :: r' ∧ notNetlocDelim c = false) →
      canonicalize_url (s ++ 58 :: 47 :: 47 :: (h ++ (rest ++ [47]))) =
        canonicalize_url (s ++ 58 :: 47 :: 47 :: (h ++ rest))) ∧
    (∀ s h a b : PyStr, urlCtx s h → a.all goodChar = true → b.all goodChar = true →
      (35 : Fin 256) ∉ a → (35 : Fin 256) ∉ b →
      (63 : Fin 256) ∉ a → (63 : Fin 256) ∉ b →
      (a = [] ∨ ∃ c r', a = c :: r' ∧ notNetlocDelim c = false) →
      canonicalize_url (s ++ 58 :: 47 :: 47 :: (h ++ (a ++ 47 :: 47 :: b))) =
        canonicalize_url (s ++ 58 :: 47 :: 47 :: (h ++ (a ++ 47 :: b)))) ∧
    (∀ s h rest : PyStr, urlCtx s h → rest.all goodChar = true →
      (rest = [] ∨ ∃ c r', rest = c :: r' ∧ notNetlocDelim c = false) →
      canonicalize_url (pyLower s ++ 58 :: 47 :: 47 :: (pyLower h ++ rest)) =
        canonicalize_url (s ++ 58 :: 47 :: 47 :: (h ++ rest))) ∧
    (∀ s h rest k v r : PyStr, urlCtx s h → rest.all goodChar = true →
      k.all goodChar = true → v.all goodChar = true → r.all goodChar = true →
      (35 : Fin 256) ∉ rest → (63 : Fin 256) ∉ rest →
      (35 : Fin 256) ∉ k → (35 : Fin 256) ∉ v → (35 : Fin 256) ∉ r →
      (61 : Fin 256) ∉ k → (38 : Fin 256) ∉ k → (38 : Fin 256) ∉ v →
      r ≠ [] → isTrackingKey (pyUnquotePlus k) = true →
      (rest = [] ∨ ∃ c r', rest = c :: r' ∧ notNetlocDelim c = false) →
      canonicalize_url (s ++ 58 :: 47 :: 47 ::
          (h ++ (rest ++ 63 :: ((k ++ 61 :: v) ++ 38 :: r)))) =
        canonicalize_url (s ++ 58 :: 47 :: 47 :: (h ++ (rest ++ 63 :: r)))) := by
  refine ⟨by decide, ?_, ?_, ?_, ?_, ?_⟩
  · exact fun s h rest f h1 h2 h3 h4 h5 =>
      canon_variant_fragment s h rest f h1 h2 h3 h4 h5
  · exact fun s h rest h1 h2 h3 h4 h5 =>
      canon_variant_trailing_slash s h rest h1 h2 h3 h4 h5
  · exact fun s h a b h1 h2 h3 h4 h5 h6 h7 h8 =>
      canon_variant_collapse s h a b h1 h2 h3 h4 h5 h6 h7 h8
  · exact fun s h rest h1 h2 h3 =>
      canon_variant_case s h rest h1 h2 h3
  · exact fun s h rest k v r h1 h2 h3 h4 h5 h6 h7 h8 h9 h10 h11 h12 h13 h14 h15 h16 =>
      canon_variant_tracking s h rest k v r h1 h2 h3 h4 h5 h6 h7 h8 h9 h10 h11 h12
        h13 h14 h15 h16

/-- C7 witness: each canonical equivalence instantiated at concrete URLs. -/
theorem C7_canonical_equivalences_witness :
    (canonicalize_url (pstr "http://ex.com/p#frag") =
      canonicalize_url (pstr "http://ex.com/p")) ∧
    (canonicalize_url (pstr "http://ex.com/p/") =
      canonicalize_url (pstr "http://ex.com/p")) ∧
    (canonicalize_url (pstr "http://ex.com//p") =
      canonicalize_url (pstr "http://ex.com/p")) ∧
    (canonicalize_url (pstr "http://ex.com/p") =
      canonicalize_url (pstr "http://EX.com/p")) ∧
    (canonicalize_url (pstr "http://ex.com/p?utm_source=x&id=1") =
      canonicalize_url (pstr "http://ex.com/p?id=1")) := by
  refine ⟨?_, ?_, ?_, ?_, ?_⟩
  · have hw := C7_canonical_equivalences.2.1 (pstr "http") (pstr "ex.com") (pstr "/p")
      (pstr "frag") (by decide) (by decide) (by decide) (by decide)
      (Or.inr ⟨47, pstr "p", by decide, by decide⟩)
    rw [show pstr "http" ++ 58 :: 47 :: 47 ::
        (pstr "ex.com" ++ (pstr "/p" ++ 35 :: pstr "frag")) =
      pstr "http://ex.com/p#frag" by decide] at hw
    rw [show pstr "http" ++ 58 :: 47 :: 47 :: (pstr "ex.com" ++ pstr "/p") =
      pstr "http://ex.com/p" by decide] at hw
    exact hw
  · have hw := C7_canonical_equivalences.2.2.1 (pstr "http") (pstr "ex.com") (pstr "/p")
      (by decide) (by decide) (by decide) (by decide)
      (Or.inr ⟨47, pstr "p", by decide, by decide⟩)
    rw [show pstr "http" ++ 58 :: 47 :: 47 :: (pstr "ex.com" ++ (pstr "/p" ++ [47])) =
      pstr "http://ex.com/p/" by decide] at hw
    rw [show pstr "http" ++ 58 :: 47 :: 47 :: (pstr "ex.com" ++ pstr "/p") =
      pstr "http://ex.com/p" by decide] at hw
    exact hw
  · have hw := C7_canonical_equivalences.2.2.2.1 (pstr "http") (pstr "ex.com") []
      (pstr "p") (by decide) (by decide) (by decide) (by decide) (by decide)
      (by decide) (by decide) (Or.inl rfl)
    rw [show pstr "http" ++ 58 :: 47 :: 47 ::
        (pstr "ex.com" ++ (([] : PyStr) ++ 47 :: 47 :: pstr "p")) =
      pstr "http://ex.com//p" by decide] at hw
    rw [show pstr "http" ++ 58 :: 47 :: 47 ::
        (pstr "ex.com" ++ (([] : PyStr) ++ 47 :: pstr "p")) =
      pstr "http://ex.com/p" by decide] at hw
    exact hw
  · have hw := C7_canonical_equivalences.2.2.2.2.1 (pstr "http") (pstr "EX.com")
      (pstr "/p") (by decide) (by decide)
      (Or.inr ⟨47, pstr "p", by decide, by decide⟩)
    rw [show pyLower (pstr "http") ++ 58 :: 47 :: 47 ::
        (pyLower (pstr "EX.com") ++ pstr "/p") =
      pstr "http://ex.com/p" by decide] at hw
    rw [show pstr "http" ++ 58 :: 47 :: 47 :: (pstr "EX.com" ++ pstr "/p") =
      pstr "http://EX.com/p" by decide] at hw
    exact hw
  · have hw := C7_canonical_equivalences.2.2.2.2.2 (pstr "http") (pstr "ex.com")
      (pstr "/p") (pstr "utm_source") (pstr "x") (pstr "id=1")
      (by decide) (by decide) (by decide) (by decide) (by decide) (by decide)
      (by decide) (by decide) (by decide) (by decide) (by decide) (by decide)
      (by decide) (by decide) (by decide)
      (Or.inr ⟨47, pstr "p", by decide, by decide⟩)
    rw [show pstr "http" ++ 58 :: 47 :: 47 :: (pstr "ex.com" ++ (pstr "/p" ++ 63 ::
        ((pstr "utm_source" ++ 61 :: pstr "x") ++ 38 :: pstr "id=1"))) =
      pstr "http://ex.com/p?utm_source=x&id=1" by decide] at hw
    rw [show pstr "http" ++ 58 :: 47 :: 47 ::
        (pstr "ex.com" ++ (pstr "/p" ++ 63 :: pstr "id=1")) =
      pstr "http://ex.com/p?id=1" by decide] at hw
    exact hw

end News
